import Mathlib

/-!
# Decimal representation of float64 values (package `float`)

A shallow embedding of `float.go`: `Round`, `Format`/`doFormat`, `Parse`, together with the
parts of Go's runtime they rely on (int64 arithmetic, IEEE-754 binary64 multiplication and
division, `math.Round`, `strconv.ParseFloat`).

Bytes are natural numbers below 256; a Go `[]byte` is a `List Nat`.
-/

namespace GoFloat

/-! ## int64 and byte arithmetic -/

/-- Two's-complement wrap of a mathematical integer into the int64 range. -/
def wrapInt64 (z : Int) : Int := (z + 2 ^ 63) % 2 ^ 64 - 2 ^ 63

/-- Go `byte(z%10) + '0'`: the remainder truncates toward zero, the conversion to `byte`
keeps the low eight bits, and the addition is performed in `uint8`. -/
def digitByte (z : Int) : Nat := (((Int.tmod z 10) % 256).toNat + 48) % 256

/-! ## The digit emission of `doFormat` (float.go, lines 83-124) -/

/-- The loop `for z != 0 || i <= digits { ... }` of `doFormat`. The first argument bounds the
number of iterations; `none` means the bound was reached. -/
def digitLoop : Nat → Int → Int → Nat → List Nat → Option (List Nat × Nat)
  | 0, _, _, _, _ => none
  | fuel + 1, digits, z, i, cc =>
    if z ≠ 0 ∨ (i : Int) ≤ digits then
      let cc1 := if (i : Int) = digits then cc ++ [46] else cc
      digitLoop fuel digits (Int.tdiv z 10) (i + 1) (cc1 ++ [digitByte z])
    else some (cc, i)

/-- The loop `for cc[firstNonZero] == '0' { firstNonZero++ }`. Indexing past the end of `cc`
is a run-time panic, rendered as `none`. -/
def skipZeros : Nat → List Nat → Nat → Option Nat
  | 0, _, _ => none
  | fuel + 1, cc, firstNonZero =>
    match cc.get? firstNonZero with
    | none => none
    | some c => if c = 48 then skipZeros fuel cc (firstNonZero + 1) else some firstNonZero

/-- The statement `if i == digits+1 && cc[digits+1] == '0' { cc = cc[:digits+1] }`. -/
def trimPlaceholder (digits : Int) (i : Nat) (cc : List Nat) : Option (List Nat) :=
  if (i : Int) = digits + 1 then
    match cc.get? (digits + 1).toNat with
    | none => none
    | some c => if c = 48 then some (cc.take (digits + 1).toNat) else some cc
  else some cc

/-- The part of `doFormat` from the digit loop to `return cc`, for the absolute value `z`
left by `if z < 0 { neg = true; z = -z }`. The result is `none` when the Go code would panic
or not terminate. -/
def emitDigits (neg : Bool) (z : Int) (digits : Int) : Option (List Nat) :=
  match digitLoop (z.natAbs + digits.toNat + 2) digits z 0 [] with
  | none => none
  | some (cc, i) =>
    match trimPlaceholder digits i cc with
    | none => none
    | some cc2 =>
      match skipZeros (cc2.length + 1) cc2 0 with
      | none => none
      | some f0 =>
        let firstNonZero : Nat := if (f0 : Int) = digits then f0 + 1 else f0
        if firstNonZero ≤ cc2.length then
          let cc3 := cc2.drop firstNonZero
          let cc4 := if neg then cc3 ++ [45] else cc3
          some cc4.reverse
        else none

/-- The body of `doFormat` after `z` has been computed: everything from `if z == 0` to
`return cc`. The negation `z = -z` wraps in int64. -/
def formatInt64 (z : Int) (digits : Int) : Option (List Nat) :=
  if z = 0 then some [48]
  else emitDigits (decide (z < 0)) (if z < 0 then wrapInt64 (-z) else z) digits

/-- Go `string(b)` for a byte slice whose bytes are all ASCII. -/
def bytesToString (b : List Nat) : String := String.mk (b.map Char.ofNat)

/-! ## IEEE-754 binary64 -/

/-- A float64, by its three bit fields: sign (1 bit), biased exponent (11 bits) and
fraction (52 bits). Every value of this type is a float64 and conversely. -/
structure F64 where
  sign : Bool
  expo : Fin 2048
  frac : Fin 4503599627370496
deriving DecidableEq

namespace F64

/-- Build a float64 from its fields, each reduced to its width. -/
def ofFields (s : Bool) (e f : Nat) : F64 :=
  ⟨s, ⟨e % 2048, Nat.mod_lt e (by decide)⟩,
    ⟨f % 4503599627370496, Nat.mod_lt f (by decide)⟩⟩

/-- Zero of the given sign. -/
def zero (s : Bool) : F64 := ofFields s 0 0

/-- Infinity of the given sign. -/
def inf (s : Bool) : F64 := ofFields s 2047 0

/-- The quiet NaN produced by invalid operations. -/
def nan : F64 := ofFields false 2047 2251799813685248

def isNaN (x : F64) : Bool := x.expo.val == 2047 && x.frac.val != 0

def isInf (x : F64) : Bool := x.expo.val == 2047 && x.frac.val == 0

def isFinite (x : F64) : Bool := x.expo.val != 2047

def isZero (x : F64) : Bool := x.expo.val == 0 && x.frac.val == 0

/-- Integer significand of a finite value: the value is `± mant * 2 ^ exp2`. -/
def mant (x : F64) : Nat :=
  if x.expo.val = 0 then x.frac.val else 4503599627370496 + x.frac.val

/-- Binary exponent of the unit in the last place of a finite value. -/
def exp2 (x : F64) : Int :=
  if x.expo.val = 0 then -1074 else (x.expo.val : Int) - 1075

/-- The rational number denoted by a finite float64. -/
def toRat (x : F64) : ℚ :=
  (if x.sign then -1 else 1) * (x.mant : ℚ) * (2 : ℚ) ^ x.exp2

/-- Go unary minus. -/
def neg (x : F64) : F64 := { x with sign := !x.sign }

/-- Sign-magnitude order key: monotone in the value on non-NaN floats, with both zeros at 0. -/
def key (x : F64) : Int :=
  let mag : Nat := x.expo.val * 4503599627370496 + x.frac.val
  if x.sign then -(mag : Int) else (mag : Int)

/-- Go `x < y` on float64. -/
def lt (x y : F64) : Bool := !x.isNaN && !y.isNaN && decide (x.key < y.key)

/-- Go `x == y` on float64: NaN differs from everything, the two zeros are equal. -/
def eq (x y : F64) : Bool := !x.isNaN && !y.isNaN && decide (x.key = y.key)

/-- Number of binary digits of `n`, the first argument bounding the recursion. -/
def bitLenAux : Nat → Nat → Nat → Nat
  | 0, _, acc => acc
  | fuel + 1, n, acc => if n = 0 then acc else bitLenAux fuel (n / 2) (acc + 1)

/-- Number of binary digits of `n` (0 for 0). -/
def bitLen (n : Nat) : Nat := bitLenAux n n 0

/-- Quotient `n / d` rounded to the nearest integer, ties to the even one. -/
def divNearestEven (n d : Nat) : Nat :=
  let q := n / d
  let r := n % d
  if d < 2 * r ∨ (2 * r = d ∧ q % 2 = 1) then q + 1 else q

/-- Numerator of `n / d / 2 ^ e`. -/
def scaleNum (n : Nat) (e : Int) : Nat := if 0 ≤ e then n else n * 2 ^ (-e).toNat

/-- Denominator of `n / d / 2 ^ e`. -/
def scaleDen (d : Nat) (e : Int) : Nat := if 0 ≤ e then d * 2 ^ e.toNat else d

/-- The float64 nearest to `± n / d` (round to nearest, ties to even; overflow gives
infinity, underflow is gradual), for `0 < d`. -/
def ofRatio (s : Bool) (n d : Nat) : F64 :=
  if n = 0 then zero s
  else
    let e1 : Int := (bitLen n : Int) - (bitLen d : Int) - 53
    let q1 : Nat := scaleNum n e1 / scaleDen d e1
    let e2 : Int := if 9007199254740992 ≤ q1 then e1 + 1 else e1
    let e3 : Int := max e2 (-1074)
    let m3 : Nat := divNearestEven (scaleNum n e3) (scaleDen d e3)
    let m : Nat := if m3 = 9007199254740992 then 4503599627370496 else m3
    let e : Int := if m3 = 9007199254740992 then e3 + 1 else e3
    if 971 < e then inf s
    else if m < 4503599627370496 then ofFields s 0 m
    else ofFields s (e + 1075).toNat (m - 4503599627370496)

/-- Go `x * y` on float64. -/
def mul (x y : F64) : F64 :=
  if x.isNaN || y.isNaN then nan
  else if x.isInf || y.isInf then
    if x.isZero || y.isZero then nan else inf (xor x.sign y.sign)
  else
    let e : Int := x.exp2 + y.exp2
    ofRatio (xor x.sign y.sign) (scaleNum (x.mant * y.mant) (-e)) (scaleDen 1 (-e))

/-- Go `x / y` on float64 (division by zero does not panic for floats). -/
def div (x y : F64) : F64 :=
  if x.isNaN || y.isNaN then nan
  else if x.isInf then (if y.isInf then nan else inf (xor x.sign y.sign))
  else if y.isInf then zero (xor x.sign y.sign)
  else if y.isZero then (if x.isZero then nan else inf (xor x.sign y.sign))
  else
    let e : Int := x.exp2 - y.exp2
    ofRatio (xor x.sign y.sign) (scaleNum x.mant (-e)) (scaleDen y.mant (-e))

/-- The 64-bit pattern of a float64 (`math.Float64bits`), without the sign bit. -/
def magBits (x : F64) : Nat := x.expo.val * 4503599627370496 + x.frac.val

/-- Go `math.Round`: nearest integer, halfway cases away from zero. Transcribed from the
bit-level implementation in package `math`:
`if e < bias { bits &= signMask; if e == bias-1 { bits |= uvone } }
 else if e < bias+shift { e -= bias; bits += half >> e; bits &^= fracMask >> e }`. -/
def round (x : F64) : F64 :=
  let e := x.expo.val
  if e < 1023 then
    if e = 1022 then ofFields x.sign 1023 0 else ofFields x.sign 0 0
  else if e < 1075 then
    let b1 := x.magBits + (2251799813685248 >>> (e - 1023))
    let b2 := b1 - (b1 &&& (4503599627370495 >>> (e - 1023)))
    ofFields x.sign (b2 / 4503599627370496) b2
  else x

/-- The integer part of a finite float64, truncated toward zero. -/
def truncInt (x : F64) : Int :=
  let a : Nat := scaleNum x.mant (-x.exp2) / scaleDen 1 (-x.exp2)
  if x.sign then -(a : Int) else (a : Int)

/-- Go `int64(x)`: truncation toward zero. When the truncated value is not an int64 (or `x`
is infinite or NaN) the language leaves the result to the implementation; the value used
here is that of amd64, the smallest int64. -/
def toInt64 (x : F64) : Int :=
  if x.isFinite ∧ -9223372036854775808 ≤ x.truncInt ∧ x.truncInt < 9223372036854775808
  then x.truncInt else -9223372036854775808

/-- Go `float64(n)` for an `int` that is exactly representable. -/
def ofInt (n : Int) : F64 := ofRatio (decide (n < 0)) n.natAbs 1

/-- Go `math.Pow(10, float64(digits))`, taken as the float64 nearest to `10 ^ digits`. For
`0 ≤ digits ≤ 22` the power is exactly representable and `math.Pow` returns it exactly. -/
def pow10 (digits : Int) : F64 :=
  if 0 ≤ digits then ofRatio false (10 ^ digits.toNat) 1
  else ofRatio false 1 (10 ^ (-digits).toNat)

end F64

/-! ## The clamp bound -/

/-- Bisection for the integer 100th root: the largest `r` in `[lo, hi)` with `r ^ 100 ≤ n`. -/
def iroot100Aux : Nat → Nat → Nat → Nat → Nat
  | 0, lo, _, _ => lo
  | fuel + 1, lo, hi, n =>
    if hi ≤ lo + 1 then lo
    else
      let mid := (lo + hi) / 2
      if mid ^ 100 ≤ n then iroot100Aux fuel mid hi n else iroot100Aux fuel lo mid n

/-- Integer part of the 100th root of `n`. -/
def iroot100 (n : Nat) : Nat :=
  iroot100Aux (F64.bitLen n + 2) 0 (2 ^ (F64.bitLen n / 100 + 1)) n

/-- The float64 nearest to the real number `10 ^ (c / 100)`. The root is taken at a scale
where it has more than 64 binary digits, so the midpoint of the enclosing unit interval rounds
the same way as the (irrational) power. -/
def pow10Centi (c : Int) : F64 :=
  if c % 100 = 0 then F64.pow10 (c / 100)
  else
    let s : Nat := 64 + 4 * c.natAbs / 100 + 1
    let n : Nat := if 0 ≤ c then 10 ^ c.toNat * 2 ^ (100 * s) else 2 ^ (100 * s) / 10 ^ c.natAbs
    F64.ofRatio false (2 * iroot100 n + 1) (2 ^ (s + 1))

/-- Modelled from the spec: `math.Pow(10, 15.42-float64(digits))`, the clamp bound
`L = 10^(15.42 - digits)`, is taken as the float64 nearest to that real number. Package `math`
evaluates the power on the float64 exponent, so its result can differ from this one in the
last few binary digits. -/
def clampLimit (digits : Int) : F64 := pow10Centi (1542 - 100 * digits)

/-! ## `Round`, `Format` -/

/-- `Round` (float.go, lines 57-69). -/
def Round (x : F64) (digits : Int) : F64 :=
  let limit := clampLimit digits
  let x1 := if F64.lt limit x then limit else if F64.lt x limit.neg then limit.neg else x
  let base := F64.pow10 digits
  F64.div (F64.round (F64.mul x1 base)) base

/-- The first statement of `doFormat`: `z := int64(math.Round(x * math.Pow(10, float64(digits))))`. -/
def scaledInt64 (x : F64) (digits : Int) : Int :=
  F64.toInt64 (F64.round (F64.mul x (F64.pow10 digits)))

/-- `doFormat` (float.go, lines 80-125). -/
def doFormat (x : F64) (digits : Int) : Option (List Nat) :=
  formatInt64 (scaledInt64 x digits) digits

/-- `Format` (float.go, lines 74-76). -/
def Format (x : F64) (digits : Int) : Option String :=
  (doFormat x digits).map bytesToString

/-! ## `strconv.ParseFloat(s, 64)`

The text is handled as the list of its character codes. Every byte of a character outside
ASCII is at least 128 and is rejected by the lexer, as its code is here. -/

/-- The two causes carried by a `*strconv.NumError`. -/
inductive ErrKind where
  | ErrSyntax
  | ErrRange
deriving DecidableEq

/-- Go `strconv.NumError`. -/
structure NumError where
  Func : String
  Num : String
  Err : ErrKind
deriving DecidableEq

/-- Go `lower(c)` of package `strconv`: `c | ('x' - 'X')`. -/
def lower (c : Nat) : Nat := c ||| 32

/-- Go `commonPrefixLenIgnoreCase(s, prefix)`; `prefix` is lower case. -/
def commonPrefixLenIgnoreCase : List Nat → List Nat → Nat
  | c :: s, p :: pre =>
    let c1 := if 65 ≤ c ∧ c ≤ 90 then c + 32 else c
    if c1 = p then commonPrefixLenIgnoreCase s pre + 1 else 0
  | _, _ => 0

/-- Length of the infinity word at the head of `s`: 8, 3, or something else for no match. -/
def infinityLen (s : List Nat) : Nat :=
  let n := commonPrefixLenIgnoreCase s [105, 110, 102, 105, 110, 105, 116, 121]
  if 3 < n ∧ n < 8 then 3 else n

/-- Go `special(s)`: the words for infinity and NaN, with the number of bytes consumed. -/
def special (s : List Nat) : Option (F64 × Nat) :=
  match s with
  | [] => none
  | c :: rest =>
    if c = 43 ∨ c = 45 then
      let n := infinityLen rest
      if n = 3 ∨ n = 8 then some (F64.inf (decide (c = 45)), 1 + n) else none
    else if c = 105 ∨ c = 73 then
      let n := infinityLen s
      if n = 3 ∨ n = 8 then some (F64.inf false, n) else none
    else if c = 110 ∨ c = 78 then
      if commonPrefixLenIgnoreCase s [110, 97, 110] = 3 then some (F64.nan, 3) else none
    else none

/-- The variables of the digit loop of `readFloat`; `mant` holds all digits read (the 19-digit
cut of the Go code only selects between its exact conversion paths). -/
structure MantState where
  sawdot : Bool
  sawdigits : Bool
  underscores : Bool
  nd : Nat
  dp : Int
  mant : Nat

/-- The digit loop of `readFloat`, returning the unread rest. -/
def readMantissa (hex : Bool) : List Nat → MantState → MantState × List Nat
  | [], st => (st, [])
  | c :: cs, st =>
    if c = 95 then readMantissa hex cs { st with underscores := true }
    else if c = 46 then
      if st.sawdot then (st, c :: cs)
      else readMantissa hex cs { st with sawdot := true, dp := st.nd }
    else if 48 ≤ c ∧ c ≤ 57 then
      if c = 48 ∧ st.nd = 0 then
        readMantissa hex cs { st with sawdigits := true, dp := st.dp - 1 }
      else
        readMantissa hex cs { st with sawdigits := true, nd := st.nd + 1,
                                      mant := st.mant * (if hex then 16 else 10) + (c - 48) }
    else if hex = true ∧ 97 ≤ lower c ∧ lower c ≤ 102 then
      readMantissa hex cs { st with sawdigits := true, nd := st.nd + 1,
                                    mant := st.mant * 16 + (lower c - 97 + 10) }
    else (st, c :: cs)

/-- The exponent digit loop of `readFloat`: `if e < 10000 { e = e*10 + int(s[i]) - '0' }`. -/
def readExpDigits : List Nat → Nat → Bool → Nat × Bool × List Nat
  | [], e, u => (e, u, [])
  | c :: cs, e, u =>
    if 48 ≤ c ∧ c ≤ 57 then readExpDigits cs (if e < 10000 then e * 10 + (c - 48) else e) u
    else if c = 95 then readExpDigits cs e true
    else (e, u, c :: cs)

/-- The scan of Go `underscoreOK` after sign and base prefix; `saw` is one of the codes of
`^`, `0`, `_`, `!`. -/
def underscoreScan (hex : Bool) : List Nat → Nat → Bool
  | [], saw => saw != 95
  | c :: cs, saw =>
    if (48 ≤ c ∧ c ≤ 57) ∨ (hex = true ∧ 97 ≤ lower c ∧ lower c ≤ 102) then
      underscoreScan hex cs 48
    else if c = 95 then
      if saw != 48 then false else underscoreScan hex cs 95
    else if saw = 95 then false
    else underscoreScan hex cs 33

/-- Go `underscoreOK(s)`: underscores only between digits or after a base prefix. -/
def underscoreOK (s : List Nat) : Bool :=
  let s1 := match s with
    | c :: rest => if c = 45 ∨ c = 43 then rest else s
    | [] => s
  match s1 with
  | c0 :: c1 :: rest =>
    if c0 = 48 ∧ (lower c1 = 98 ∨ lower c1 = 111 ∨ lower c1 = 120) then
      underscoreScan (lower c1 == 120) rest 48
    else underscoreScan false s1 94
  | _ => underscoreScan false s1 94

/-- What `readFloat` extracts from a well-formed numeral: sign, base 16 or 10, all mantissa
digits as a number, and the exponent of the base unit (2 or 10) that scales it. -/
structure FloatLit where
  neg : Bool
  hex : Bool
  mant : Nat
  exp : Int

/-- Go `readFloat(s)` together with the test that all of `s` was consumed; `none` is a
malformed numeral. -/
def readFloat (s : List Nat) : Option FloatLit :=
  match s with
  | [] => none
  | c :: rest =>
    let neg : Bool := decide (c = 45)
    let s1 : List Nat := if c = 43 ∨ c = 45 then rest else s
    let hex : Bool := match s1 with
      | c0 :: c1 :: _ :: _ => decide (c0 = 48 ∧ lower c1 = 120)
      | _ => false
    let s2 : List Nat := if hex then s1.drop 2 else s1
    let (st, s3) := readMantissa hex s2 ⟨false, false, false, 0, 0, 0⟩
    if st.sawdigits = false then none
    else
      let dp0 : Int := if st.sawdot then st.dp else (st.nd : Int)
      let dp1 : Int := if hex then dp0 * 4 else dp0
      let unit : Int := if hex then 4 * (st.nd : Int) else (st.nd : Int)
      let expChar : Nat := if hex then 112 else 101
      match s3 with
      | c3 :: s4 =>
        if lower c3 = expChar then
          match s4 with
          | [] => none
          | c4 :: s5 =>
            let esign : Int := if c4 = 45 then -1 else 1
            let s6 : List Nat := if c4 = 43 ∨ c4 = 45 then s5 else s4
            match s6 with
            | [] => none
            | c6 :: _ =>
              if c6 < 48 ∨ 57 < c6 then none
              else
                let (e, u, s7) := readExpDigits s6 0 st.underscores
                if s7 ≠ [] then none
                else if u = true ∧ underscoreOK s = false then none
                else some ⟨neg, hex, st.mant, dp1 + (e : Int) * esign - unit⟩
        else none
      | [] =>
        if hex then none
        else if st.underscores = true ∧ underscoreOK s = false then none
        else some ⟨neg, hex, st.mant, dp1 - unit⟩

/-- The float64 nearest to the value of a numeral. -/
def FloatLit.toF64 (l : FloatLit) : F64 :=
  let b : Nat := if l.hex then 2 else 10
  if 0 ≤ l.exp then F64.ofRatio l.neg (l.mant * b ^ l.exp.toNat) 1
  else F64.ofRatio l.neg l.mant (b ^ (-l.exp).toNat)

/-- Go `strconv.ParseFloat(s, 64)`: the nearest float64 (IEEE-754 unbiased rounding) of a
well-formed decimal or hexadecimal numeral or special word; `ErrSyntax` with value 0
otherwise; `ErrRange` with value ±Inf when the numeral rounds to infinity. -/
def ParseFloat (s : String) : F64 × Option NumError :=
  let cs : List Nat := s.data.map Char.toNat
  match special cs with
  | some (v, n) =>
    if n = cs.length then (v, none)
    else (F64.zero false, some ⟨"ParseFloat", s, ErrKind.ErrSyntax⟩)
  | none =>
    match readFloat cs with
    | none => (F64.zero false, some ⟨"ParseFloat", s, ErrKind.ErrSyntax⟩)
    | some l =>
      if l.toF64.isInf then (l.toF64, some ⟨"ParseFloat", s, ErrKind.ErrRange⟩)
      else (l.toF64, none)

/-! ## `Parse` -/

/-- The Go `error` values that `Parse` can return: the `*strconv.NumError` of `ParseFloat`,
or the value of `errors.New(msg)`. -/
inductive Error where
  | numError (e : NumError)
  | errorString (msg : String)
deriving DecidableEq

/-- `Parse` (float.go, lines 43-52); the Go result pair `(float64, error)`, `none` for `nil`. -/
def Parse (s : String) (digits : Int) : F64 × Option Error :=
  match ParseFloat s with
  | (_, some err) => (F64.zero false, some (Error.numError err))
  | (x, none) =>
    if x.isNaN then (F64.zero false, some (Error.errorString "NaN"))
    else (Round x digits, none)

/-! ## Specification side: the scaled integer and the reading of decimal text -/

/-- The integer `round(x * 10^digits)` as `doFormat` computes it in float64 arithmetic, before
the conversion to int64; `none` when the product is infinite or NaN. -/
def scaledRound (x : F64) (digits : Int) : Option Int :=
  let r := F64.round (F64.mul x (F64.pow10 digits))
  if r.isFinite then some r.truncInt else none

/-- The number written by a string of decimal digits, most significant first. -/
def digitsValue (ds : List Char) : Nat :=
  ds.foldl (fun acc c => 10 * acc + (c.toNat - 48)) 0

/-- The number written by an unsigned numeral: integer digits, then optionally a point
followed by at least one fraction digit; at least one digit overall. -/
def unsignedValue (s : List Char) : Option ℚ :=
  let ip := s.takeWhile Char.isDigit
  match s.dropWhile Char.isDigit with
  | [] => if ip = [] then none else some (digitsValue ip : ℚ)
  | c :: fp =>
    if c = '.' ∧ fp ≠ [] ∧ fp.all Char.isDigit = true then
      some ((digitsValue ip : ℚ) + (digitsValue fp : ℚ) / (10 : ℚ) ^ fp.length)
    else none

/-- The rational number denoted by a signed decimal numeral. -/
def decimalValue (s : String) : Option ℚ :=
  match s.data with
  | '-' :: r => (unsignedValue r).map (fun v => -v)
  | cs => unsignedValue cs

/-- The characters after the optional leading minus sign. -/
def unsignedPart (s : List Char) : List Char :=
  match s with
  | '-' :: r => r
  | cs => cs

/-- The output grammar: an optional leading `-`, zero or more digits, optionally a `.` followed
by one or more digits, and at least one digit overall. -/
def decimalShape (s : List Char) : Bool :=
  let body := unsignedPart s
  let ip := body.takeWhile Char.isDigit
  match body.dropWhile Char.isDigit with
  | [] => !ip.isEmpty
  | c :: fp => c == '.' && !fp.isEmpty && fp.all Char.isDigit

/-- The characters that follow the first decimal point (none when there is no point). -/
def afterPoint (s : List Char) : List Char := (s.dropWhile (fun c => c != '.')).drop 1

/-! ## Closed forms, sample values and specification-side predicates used by the theorems -/

/-- The bytes of the `k` low decimal digits of `n`, least significant first. -/
def lowBytes (n k : Nat) : List Nat := (List.range k).map (fun t => 48 + n / 10 ^ t % 10)

/-- The bytes of all decimal digits of `m`, least significant first (none for 0). -/
def digitBytes (m : Nat) : List Nat := (Nat.digits 10 m).map (fun d => d + 48)

/-- The output of the digit emission in closed form: sign, integer digits, and the fraction
digits without their trailing zeros (with the point only if some remain). -/
def formatSpec (neg : Bool) (n k : Nat) : List Nat :=
  (if neg then [45] else []) ++ (digitBytes (n / 10 ^ k)).reverse ++
    (if (lowBytes n k).dropWhile (fun b => b == 48) = [] then []
     else 46 :: ((lowBytes n k).dropWhile (fun b => b == 48)).reverse)

/-- The number written by digit bytes, least significant first. -/
def lsdValue (bs : List Nat) : Nat := bs.foldr (fun b acc => (b - 48) + 10 * acc) 0

/-- The integer digits of the output, most significant first. -/
def intChars (n k : Nat) : List Char := (digitBytes (n / 10 ^ k)).reverse.map Char.ofNat

/-- The fraction digits of the output, most significant first, trailing zeros removed. -/
def fracChars (n k : Nat) : List Char :=
  ((lowBytes n k).dropWhile (fun b => b == 48)).reverse.map Char.ofNat

/-- The characters of the output for a non-zero scaled integer of absolute value `n`. -/
def outChars (neg : Bool) (n k : Nat) : List Char :=
  (if neg then ['-'] else []) ++ intChars n k
    ++ (if fracChars n k = [] then [] else '.' :: fracChars n k)

/-- The fraction part of the output as a list: empty, or a point and the fraction digits. -/
def fracPart (n k : Nat) : List Char := if fracChars n k = [] then [] else '.' :: fracChars n k

/-- The float64 `math.Pi`. -/
def f64Pi : F64 := F64.ofFields false 1024 2570638124657944

/-- The float64 nearest to 0.19. -/
def f64_0_19 : F64 := F64.ofFields false 1020 2341871806232658

/-- The float64 nearest to 0.1. -/
def f64_0_1 : F64 := F64.ofFields false 1019 2702159776422298

/-- The float64 nearest to 0.2. -/
def f64_0_2 : F64 := F64.ofFields false 1020 2702159776422298

/-- The float64 nearest to -0.000000001. -/
def f64_neg_1e9th : F64 := F64.ofFields true 993 332103651088021

/-- The float64 -2^63, the smallest int64. -/
def f64MinInt64 : F64 := F64.ofFields true 1086 0

/-- The float64 nearest to -2^63 / 10; its float64 product with 10 is -2^63. -/
def f64MinInt64Tenth : F64 := F64.ofFields true 1082 2702159776422298

/-- The float64 nearest to -0.19. -/
def f64_neg_0_19 : F64 := F64.ofFields true 1020 2341871806232658

/-- The float64 1. -/
def f64One : F64 := F64.ofFields false 1023 0

/-- The float64 262643.83882100467 (0x1.007cf5af3e4b9p+18). -/
def f64RoundTripA : F64 := F64.ofFields false 1041 8587165557945

/-- The float64 262828.65647708287 (0x1.00ab2a03b8746p+18). -/
def f64RoundTripB : F64 := F64.ofFields false 1041 11762308712262

/-- Whether a character code is that of a decimal digit. -/
def isDigitCode (c : Nat) : Bool := decide (48 ≤ c ∧ c ≤ 57)

/-- The text after an optional leading `+` or `-`. -/
def stripSign (cs : List Nat) : List Nat :=
  match cs with
  | c :: r => if c = 43 ∨ c = 45 then r else cs
  | [] => []

/-- The exponent part of a literal: nothing, or `e` or `E`, an optional sign and at least one
digit. -/
def decimalExponent (cs : List Nat) : Bool :=
  match cs with
  | [] => true
  | c :: r => (c == 101 || c == 69) && !(stripSign r).isEmpty && (stripSign r).all isDigitCode

/-- The grammar of decimal and scientific-notation literals, on character codes. -/
def decimalCodes (cs : List Nat) : Bool :=
  let ip := (stripSign cs).takeWhile isDigitCode
  match (stripSign cs).dropWhile isDigitCode with
  | [] => !ip.isEmpty
  | c :: r =>
    if c = 46 then
      (!ip.isEmpty || !(r.takeWhile isDigitCode).isEmpty)
        && decimalExponent (r.dropWhile isDigitCode)
    else !ip.isEmpty && decimalExponent (c :: r)

/-- Whether `s` is a decimal or scientific-notation floating-point literal: an optional sign,
digits with an optional point (at least one digit), and optionally `e` or `E`, an optional
sign and at least one digit. -/
def isDecimalLiteral (s : String) : Bool := decimalCodes (s.data.map Char.toNat)

/-- What `doFormat` does between the digit loop and the final slice, for the value `z` left by
`if z < 0 { neg = true; z = -z }`: the loop terminates, the access `cc[digits+1]` of the
placeholder test and every access `cc[firstNonZero]` of the scan are in bounds, the scan stops
at an index no larger than `k`, where the decimal point is stored, and the final slice
`cc[firstNonZero:]` is in bounds. -/
def scanInBounds (z : Int) (k : Nat) : Prop :=
  ∃ (cc : List Nat) (i : Nat) (cc2 : List Nat) (f0 : Nat),
    digitLoop (z.natAbs + (k : Int).toNat + 2) (k : Int) z 0 [] = some (cc, i)
      ∧ trimPlaceholder (k : Int) i cc = some cc2
      ∧ skipZeros (cc2.length + 1) cc2 0 = some f0
      ∧ f0 ≤ k ∧ cc2.get? k = some 46
      ∧ (if (f0 : Int) = (k : Int) then f0 + 1 else f0) ≤ cc2.length

/-- The test of `scanInBounds` by evaluation. -/
def scanCheck (z : Int) (k : Nat) : Bool :=
  match digitLoop (z.natAbs + (k : Int).toNat + 2) (k : Int) z 0 [] with
  | none => false
  | some (cc, i) =>
    match trimPlaceholder (k : Int) i cc with
    | none => false
    | some cc2 =>
      match skipZeros (cc2.length + 1) cc2 0 with
      | none => false
      | some f0 =>
        decide (f0 ≤ k) && decide (cc2.get? k = some 46)
          && decide ((if (f0 : Int) = (k : Int) then f0 + 1 else f0) ≤ cc2.length)

/-- Go `io.Writer`, as a transition on the state of the sink: `Write(p)` consumes the bytes
`p` and returns the number of bytes written and an error (`none` for `nil`). -/
structure Writer (σ ε : Type) where
  Write : σ → List Nat → σ × Nat × Option ε

/-- `Write` (float.go, lines 128-131): `_, err := w.Write(doFormat(x, digits)); return err`.
The result is the state of the sink after the call and the error returned; `none` when
`doFormat` panics. -/
def Write {σ ε : Type} (w : Writer σ ε) (st : σ) (x : F64) (digits : Int) :
    Option (σ × Option ε) :=
  match doFormat x digits with
  | none => none
  | some b => some ((w.Write st b).1, (w.Write st b).2.2)

/-- A sink that records the argument of every call and answers with `reply`. -/
def logWriter {ε : Type} (reply : List Nat → Nat × Option ε) : Writer (List (List Nat)) ε :=
  ⟨fun log p => (log ++ [p], reply p)⟩

/-- The float64 262215.02887507237 (0x1.0011c1d916d4ep+18). -/
def f64RoundTripC : F64 := F64.ofFields false 1041 1220266782030

/-- The body of `Round` (float.go, lines 57-69) with the value computed for `limit` as a
parameter: `Round x digits` is `RoundWith (clampLimit digits) x digits`. -/
def RoundWith (limit x : F64) (digits : Int) : F64 :=
  let x1 := if F64.lt limit x then limit else if F64.lt x limit.neg then limit.neg else x
  let base := F64.pow10 digits
  F64.div (F64.round (F64.mul x1 base)) base

/-- Magnitude of a finite float64 as a rational number. -/
def F64.absRat (x : F64) : ℚ := (x.mant : ℚ) * (2 : ℚ) ^ x.exp2

/-- The float64 `r` is a correct rounding of the magnitude `q ≥ 0`: with `e` the exponent of
the unit in the last place at `q` (`2 ^ (e + 52) ≤ q < 2 ^ (e + 53)`, or `e = -1074` below the
normal range), the magnitude of `r` is `m * 2 ^ e` for an integer `m` within one half of
`q / 2 ^ e`. -/
def F64.roundsTo (q : ℚ) (r : F64) : Prop :=
  r.isFinite = true ∧ ∃ (e : Int) (m : Nat), -1074 ≤ e
    ∧ |(m : ℚ) - q / (2 : ℚ) ^ e| ≤ 1 / 2
    ∧ q < (2 : ℚ) ^ (e + 53)
    ∧ (-1074 < e → (2 : ℚ) ^ (e + 52) ≤ q)
    ∧ r.absRat = (m : ℚ) * (2 : ℚ) ^ e

/-- The float64 0.15 (0x1.3333333333333p-3). -/
def f64_0_15 : F64 := F64.ofFields false 1020 900719925474099

/-- The values of `clampLimit digits` for `digits` from 0 to 10, as float64 fields. They
are checked against `clampLimit` by evaluation in `clampLimit_table`. -/
def limitTable (digits : Nat) : F64 :=
  match digits with
  | 0 => F64.ofFields false 1074 756936356420268
  | 1 => F64.ofFields false 1070 3913257946694726
  | 2 => F64.ofFields false 1067 2229886431881682
  | 3 => F64.ofFields false 1064 883189220031246
  | 4 => F64.ofFields false 1060 4115262528472291
  | 5 => F64.ofFields false 1057 2391490097303734
  | 6 => F64.ofFields false 1054 1012472152368888
  | 7 => F64.ofFields false 1050 4322115220212518
  | 8 => F64.ofFields false 1047 2556972250695915
  | 9 => F64.ofFields false 1044 1144857875082633
  | 10 => F64.ofFields false 1041 15166374592007
  | n => clampLimit (n : Int)

/-! ## The digit loop in closed form -/

/-! ## The clamp bound by evaluation -/

theorem clampLimit_table (k : Nat) (hk : k ≤ 10) : clampLimit (k : Int) = limitTable k := by
  interval_cases k <;> decide!

theorem clampLimit_lit (d : Int) (h0 : 0 ≤ d) (h1 : d ≤ 10) :
    clampLimit d = limitTable d.toNat := by
  obtain ⟨k, rfl⟩ := Int.eq_ofNat_of_zero_le h0
  rw [Int.toNat_ofNat]
  exact clampLimit_table k (by omega)

theorem Round_table (k : Nat) (hk : k ≤ 10) (x : F64) :
    Round x (k : Int) = RoundWith (limitTable k) x (k : Int) := by
  rw [← clampLimit_table k hk]
  rfl

theorem Round_lit (d : Int) (h0 : 0 ≤ d) (h1 : d ≤ 10) (x : F64) :
    Round x d = RoundWith (limitTable d.toNat) x d := by
  rw [← clampLimit_lit d h0 h1]
  rfl

theorem digitByte_natCast (n : Nat) : digitByte (n : Int) = 48 + n % 10 := by
  unfold digitByte
  rw [Int.tmod_eq_emod (by omega) (by omega)]
  omega

theorem tdiv_natCast (n : Nat) : Int.tdiv (n : Int) 10 = ((n / 10 : Nat) : Int) := by
  rw [Int.ofNat_tdiv]; rfl

theorem lowBytes_succ (n k : Nat) :
    lowBytes n (k + 1) = (48 + n % 10) :: lowBytes (n / 10) k := by
  unfold lowBytes
  rw [List.range_succ_eq_map, List.map_cons, List.map_map]
  simp only [pow_zero, Nat.div_one]
  congr 1
  apply List.map_congr_left
  intro t _
  simp only [Function.comp, pow_succ, Nat.div_div_eq_div_mul]
  rw [Nat.mul_comm]

theorem length_lowBytes (n k : Nat) : (lowBytes n k).length = k := by
  simp [lowBytes]

theorem digitLoop_succ (fuel : Nat) (digits z : Int) (i : Nat) (cc : List Nat) :
    digitLoop (fuel + 1) digits z i cc
      = if z ≠ 0 ∨ (i : Int) ≤ digits then
          digitLoop fuel digits (Int.tdiv z 10) (i + 1)
            ((if (i : Int) = digits then cc ++ [46] else cc) ++ [digitByte z])
        else some (cc, i) := rfl

/-- Iterations with `i < digits`: one low digit each. -/
theorem digitLoop_low (k : Nat) : ∀ (j i : Nat) (n fuel : Nat) (cc : List Nat), i + j = k →
    digitLoop (fuel + j) (k : Int) (n : Int) i cc
      = digitLoop fuel (k : Int) ((n / 10 ^ j : Nat) : Int) k (cc ++ lowBytes n j) := by
  intro j
  induction j with
  | zero =>
    intro i n fuel cc h
    simp only [Nat.add_zero] at h
    subst h
    simp [lowBytes]
  | succ j ih =>
    intro i n fuel cc h
    have hik : (i : Int) ≠ (k : Int) := by omega
    have hle : (i : Int) ≤ (k : Int) := by omega
    rw [show fuel + (j + 1) = (fuel + j) + 1 by omega]
    simp only [digitLoop]
    rw [if_pos (Or.inr hle), if_neg hik, tdiv_natCast, digitByte_natCast,
      ih (i + 1) (n / 10) fuel _ (by omega), lowBytes_succ]
    simp only [List.append_assoc, List.singleton_append, Nat.div_div_eq_div_mul, pow_succ]
    rw [Nat.mul_comm]

/-- Iterations with `i > digits`: the remaining digits of `m`, until `m` is exhausted. -/
theorem digitLoop_high (k : Nat) : ∀ (fuel m i : Nat) (cc : List Nat), k < i → m < fuel →
    digitLoop fuel (k : Int) (m : Int) i cc
      = some (cc ++ digitBytes m, i + (Nat.digits 10 m).length) := by
  intro fuel
  induction fuel with
  | zero => intro m i cc _ h; omega
  | succ fuel ih =>
    intro m i cc hi hm
    simp only [digitLoop]
    by_cases h0 : m = 0
    · subst h0
      have hc : ¬ ((((0 : Nat) : Int) ≠ 0) ∨ (i : Int) ≤ (k : Int)) := by omega
      rw [if_neg hc]
      simp [digitBytes]
    · have hz : ((m : Nat) : Int) ≠ 0 := by omega
      have hik : (i : Int) ≠ (k : Int) := by omega
      rw [if_pos (Or.inl hz), if_neg hik, tdiv_natCast, digitByte_natCast,
        ih (m / 10) (i + 1) _ (by omega) (by omega)]
      have hd : Nat.digits 10 m = m % 10 :: Nat.digits 10 (m / 10) :=
        Nat.digits_def' (by decide) (Nat.pos_of_ne_zero h0)
      simp only [digitBytes, hd, List.map_cons, List.length_cons, List.append_assoc,
        List.singleton_append]
      congr 2
      · rw [Nat.add_comm]
      · omega

theorem digitBytes_pos {m : Nat} (hm : 0 < m) :
    digitBytes m = (48 + m % 10) :: digitBytes (m / 10) := by
  unfold digitBytes
  rw [Nat.digits_def' (by decide) hm, List.map_cons, Nat.add_comm]

/-- The whole loop, started as `doFormat` starts it, on a non-negative `z`. -/
theorem digitLoop_run (n k : Nat) :
    digitLoop (n + k + 2) (k : Int) (n : Int) 0 []
      = some (lowBytes n k ++ 46 :: (48 + n / 10 ^ k % 10) :: digitBytes (n / 10 ^ k / 10),
              k + 1 + (Nat.digits 10 (n / 10 ^ k / 10)).length) := by
  rw [show n + k + 2 = (n + 1 + 1) + k by omega, digitLoop_low k k 0 n (n + 1 + 1) [] (by omega),
    digitLoop_succ]
  have hle : (k : Int) ≤ (k : Int) := le_refl _
  rw [if_pos (Or.inr hle), if_pos rfl, tdiv_natCast, digitByte_natCast]
  have hlt : n / 10 ^ k / 10 < n + 1 := by
    have h1 : n / 10 ^ k / 10 ≤ n / 10 ^ k := Nat.div_le_self _ _
    have h2 : n / 10 ^ k ≤ n := Nat.div_le_self _ _
    omega
  rw [digitLoop_high k (n + 1) (n / 10 ^ k / 10) (k + 1) _ (by omega) hlt]
  simp

theorem get?_append_cons_succ (l : List Nat) (a b : Nat) (t : List Nat) :
    (l ++ a :: b :: t).get? (l.length + 1) = some b := by
  rw [List.get?_eq_getElem?, List.getElem?_append_right (by omega)]
  simp

/-- The placeholder test leaves `low ++ '.' ++ digits of the integer part`. -/
theorem trimPlaceholder_run (n k : Nat) :
    trimPlaceholder (k : Int) (k + 1 + (Nat.digits 10 (n / 10 ^ k / 10)).length)
        (lowBytes n k ++ 46 :: (48 + n / 10 ^ k % 10) :: digitBytes (n / 10 ^ k / 10))
      = some (lowBytes n k ++ 46 :: digitBytes (n / 10 ^ k)) := by
  generalize hm : n / 10 ^ k = m
  unfold trimPlaceholder
  have hidx : ((k : Int) + 1).toNat = (lowBytes n k).length + 1 := by
    rw [length_lowBytes]; omega
  by_cases h0 : m = 0
  · subst h0
    have hi : ((k + 1 + (Nat.digits 10 (0 / 10)).length : Nat) : Int) = (k : Int) + 1 := by simp
    rw [if_pos hi, hidx, get?_append_cons_succ]
    simp [digitBytes, List.take_append_eq_append_take, length_lowBytes]
  · have hpos : 0 < m := Nat.pos_of_ne_zero h0
    rw [digitBytes_pos hpos]
    by_cases hi : ((k + 1 + (Nat.digits 10 (m / 10)).length : Nat) : Int) = (k : Int) + 1
    · rw [if_pos hi, hidx, get?_append_cons_succ]
      have hlen : (Nat.digits 10 (m / 10)).length = 0 := by omega
      have hm10 : m / 10 = 0 := by
        rcases Nat.eq_zero_or_pos (m / 10) with h | h
        · exact h
        · rw [Nat.digits_def' (by decide) h] at hlen
          simp at hlen
      have hne : ¬ (48 + m % 10 = 48) := by omega
      simp only [hne, if_false]
    · rw [if_neg hi]

theorem skipZeros_spec (l : List Nat) :
    ∀ (zs : List Nat) (fuel f c : Nat) (rest : List Nat),
      l.drop f = zs ++ c :: rest → (∀ b ∈ zs, b = 48) → c ≠ 48 → zs.length < fuel →
      skipZeros fuel l f = some (f + zs.length) := by
  intro zs
  induction zs with
  | nil =>
    intro fuel f c rest hd _ hc hf
    obtain ⟨fuel, rfl⟩ : ∃ g, fuel = g + 1 := ⟨fuel - 1, by simp at hf; omega⟩
    have hget : l[f]? = some c := by
      rw [← List.head?_drop, hd]; rfl
    simp [skipZeros, hget, hc]
  | cons z zs ih =>
    intro fuel f c rest hd hz hc hf
    obtain ⟨fuel, rfl⟩ : ∃ g, fuel = g + 1 := ⟨fuel - 1, by simp at hf; omega⟩
    have hz48 : z = 48 := hz z (List.mem_cons_self _ _)
    have hget : l[f]? = some 48 := by
      rw [← List.head?_drop, hd, hz48]; rfl
    have hd2 : l.drop (f + 1) = zs ++ c :: rest := by
      rw [← List.drop_drop 1 f l, hd]; rfl
    have := ih fuel (f + 1) c rest hd2 (fun b hb => hz b (List.mem_cons_of_mem _ hb)) hc
      (by simp at hf; omega)
    simp only [skipZeros, List.get?_eq_getElem?, hget, if_true, this, List.length_cons]
    congr 1; omega

theorem skipZeros_run (low hi : List Nat) :
    skipZeros ((low ++ 46 :: hi).length + 1) (low ++ 46 :: hi) 0
      = some (low.takeWhile (fun b => b == 48)).length := by
  have hsplit := List.takeWhile_append_dropWhile (fun b => b == 48) low
  have hz : ∀ b ∈ low.takeWhile (fun b => b == 48), b = 48 := by
    intro b hb
    have := List.mem_takeWhile_imp hb
    simpa using this
  have hlen : (low.takeWhile (fun b => b == 48)).length ≤ low.length := by
    have := congrArg List.length hsplit
    rw [List.length_append] at this
    omega
  cases hdw : low.dropWhile (fun b => b == 48) with
  | nil =>
    have h := skipZeros_spec (low ++ 46 :: hi) (low.takeWhile (fun b => b == 48))
      ((low ++ 46 :: hi).length + 1) 0 46 hi
      (by rw [List.drop_zero]; conv_lhs => rw [← hsplit, hdw]
          simp)
      hz (by decide) (by simp; omega)
    simpa using h
  | cons c rest =>
    have hc : c ≠ 48 := by
      have := List.head_dropWhile_not (fun b => b == 48) low (by rw [hdw]; simp)
      simp only [hdw, List.head_cons] at this
      simpa using this
    have h := skipZeros_spec (low ++ 46 :: hi) (low.takeWhile (fun b => b == 48))
      ((low ++ 46 :: hi).length + 1) 0 c (rest ++ 46 :: hi)
      (by rw [List.drop_zero]; conv_lhs => rw [← hsplit, hdw]
          simp)
      hz hc (by simp; omega)
    simpa using h

/-- The digit emission on a positive `n` gives the closed form. -/
theorem emitDigits_natCast (neg : Bool) (n k : Nat) :
    emitDigits neg (n : Int) (k : Int) = some (formatSpec neg n k) := by
  unfold emitDigits
  have hfuel : (n : Int).natAbs + (k : Int).toNat + 2 = n + k + 2 := by simp
  rw [hfuel, digitLoop_run]
  simp only [trimPlaceholder_run, skipZeros_run]
  have hsplit := List.takeWhile_append_dropWhile (fun b => b == 48) (lowBytes n k)
  have hlk := length_lowBytes n k
  have hlen : (List.takeWhile (fun b => b == 48) (lowBytes n k)).length
      + (List.dropWhile (fun b => b == 48) (lowBytes n k)).length = k := by
    rw [← List.length_append, hsplit, hlk]
  by_cases hf : List.dropWhile (fun b => b == 48) (lowBytes n k) = []
  · have hk : (List.takeWhile (fun b => b == 48) (lowBytes n k)).length = k := by
      rw [hf] at hlen; simpa using hlen
    have hki : (((List.takeWhile (fun b => b == 48) (lowBytes n k)).length : Nat) : Int)
        = (k : Int) := by rw [hk]
    simp only [hki, if_true, List.length_append, List.length_cons, hlk]
    rw [if_pos (by rw [hk]; omega), hk]
    have hdrop : List.drop (k + 1) (lowBytes n k ++ 46 :: digitBytes (n / 10 ^ k))
        = digitBytes (n / 10 ^ k) := by
      have e : lowBytes n k ++ 46 :: digitBytes (n / 10 ^ k)
          = (lowBytes n k ++ [46]) ++ digitBytes (n / 10 ^ k) := by simp
      rw [e]
      exact List.drop_left' (by simp [hlk])
    rw [hdrop]
    unfold formatSpec
    rw [if_pos hf]
    cases neg <;> simp
  · have hk : (List.takeWhile (fun b => b == 48) (lowBytes n k)).length < k := by
      have : 0 < (List.dropWhile (fun b => b == 48) (lowBytes n k)).length :=
        List.length_pos.mpr hf
      omega
    have hki : ¬ ((((List.takeWhile (fun b => b == 48) (lowBytes n k)).length : Nat) : Int)
        = (k : Int)) := by omega
    simp only [hki, if_false, List.length_append, List.length_cons, hlk]
    rw [if_pos (by omega)]
    have hdrop : List.drop (List.takeWhile (fun b => b == 48) (lowBytes n k)).length
          (lowBytes n k ++ 46 :: digitBytes (n / 10 ^ k))
        = List.dropWhile (fun b => b == 48) (lowBytes n k) ++ 46 :: digitBytes (n / 10 ^ k) := by
      have e : lowBytes n k ++ 46 :: digitBytes (n / 10 ^ k)
          = List.takeWhile (fun b => b == 48) (lowBytes n k)
            ++ (List.dropWhile (fun b => b == 48) (lowBytes n k)
              ++ 46 :: digitBytes (n / 10 ^ k)) := by
        rw [← List.append_assoc, hsplit]
      rw [e]
      exact List.drop_left' rfl
    rw [hdrop]
    unfold formatSpec
    rw [if_neg hf]
    cases neg <;> simp

theorem wrapInt64_of_lt (n : Nat) (h : (n : Int) < 2 ^ 63) : wrapInt64 (n : Int) = n := by
  unfold wrapInt64
  norm_num at h ⊢
  omega

/-- `formatInt64` on a positive int64. -/
theorem formatInt64_pos (n k : Nat) (hn : 0 < n) :
    formatInt64 (n : Int) (k : Int) = some (formatSpec false n k) := by
  unfold formatInt64
  have h0 : ¬ ((n : Int) = 0) := by omega
  have h1 : ¬ ((n : Int) < 0) := by omega
  rw [if_neg h0, if_neg h1]
  simp only [h1, decide_False]
  exact emitDigits_natCast false n k

/-- `formatInt64` on a negative int64 other than the smallest one. -/
theorem formatInt64_neg (n k : Nat) (hn : 0 < n) (h : (n : Int) < 2 ^ 63) :
    formatInt64 (-(n : Int)) (k : Int) = some (formatSpec true n k) := by
  unfold formatInt64
  have h0 : ¬ (-(n : Int) = 0) := by omega
  have h1 : -(n : Int) < 0 := by omega
  rw [if_neg h0, if_pos h1, neg_neg, wrapInt64_of_lt n h]
  simp only [h1, decide_True]
  exact emitDigits_natCast true n k

/-! ## Bytes and characters of the closed form -/

theorem char_of_digitByte (b : Nat) (h1 : 48 ≤ b) (h2 : b ≤ 57) :
    (Char.ofNat b).isDigit = true ∧ (Char.ofNat b).toNat = b ∧ Char.ofNat b ≠ '.'
      ∧ Char.ofNat b ≠ '-' ∧ (Char.ofNat b = '0' → b = 48) := by
  interval_cases b <;> decide

theorem lowBytes_digit (n k : Nat) : ∀ b ∈ lowBytes n k, 48 ≤ b ∧ b ≤ 57 := by
  intro b hb
  simp only [lowBytes, List.mem_map, List.mem_range] at hb
  obtain ⟨t, _, rfl⟩ := hb
  omega

theorem digitBytes_digit (m : Nat) : ∀ b ∈ digitBytes m, 48 ≤ b ∧ b ≤ 57 := by
  intro b hb
  simp only [digitBytes, List.mem_map] at hb
  obtain ⟨d, hd, rfl⟩ := hb
  have := Nat.digits_lt_base (by decide : 1 < 10) hd
  omega

theorem digitsValue_append_singleton (cs : List Char) (c : Char) :
    digitsValue (cs ++ [c]) = 10 * digitsValue cs + (c.toNat - 48) := by
  simp [digitsValue, List.foldl_append]

theorem digitsValue_reverse_map (bs : List Nat) (h : ∀ b ∈ bs, 48 ≤ b ∧ b ≤ 57) :
    digitsValue (bs.reverse.map Char.ofNat) = lsdValue bs := by
  induction bs with
  | nil => rfl
  | cons b bs ih =>
    have hb := h b (List.mem_cons_self _ _)
    have ih' := ih (fun c hc => h c (List.mem_cons_of_mem _ hc))
    rw [List.reverse_cons, List.map_append, List.map_singleton, digitsValue_append_singleton,
      ih', (char_of_digitByte b hb.1 hb.2).2.1]
    simp only [lsdValue, List.foldr_cons]
    omega

theorem lsdValue_digitBytes (m : Nat) : lsdValue (digitBytes m) = m := by
  have key : ∀ L : List Nat, lsdValue (L.map (fun d => d + 48)) = Nat.ofDigits 10 L := by
    intro L
    induction L with
    | nil => rfl
    | cons d L ih =>
      simp only [lsdValue, List.map_cons, List.foldr_cons, Nat.ofDigits_cons] at ih ⊢
      rw [ih]
      simp
  rw [digitBytes, key, Nat.ofDigits_digits]

theorem lsdValue_lowBytes : ∀ (k n : Nat), lsdValue (lowBytes n k) = n % 10 ^ k := by
  intro k
  induction k with
  | zero => intro n; simp [lowBytes, lsdValue, Nat.mod_one]
  | succ k ih =>
    intro n
    rw [lowBytes_succ]
    simp only [lsdValue, List.foldr_cons] at ih ⊢
    rw [ih (n / 10), pow_succ', Nat.mod_mul]
    omega

theorem lsdValue_zeros_append (zs L : List Nat) (hz : ∀ b ∈ zs, b = 48) :
    lsdValue (zs ++ L) = 10 ^ zs.length * lsdValue L := by
  induction zs with
  | nil => simp
  | cons z zs ih =>
    have hz0 : z = 48 := hz z (List.mem_cons_self _ _)
    have ih' := ih (fun b hb => hz b (List.mem_cons_of_mem _ hb))
    simp only [lsdValue, List.cons_append, List.foldr_cons, List.length_cons] at ih' ⊢
    rw [ih', hz0, pow_succ]
    ring

theorem formatSpec_map (neg : Bool) (n k : Nat) :
    (formatSpec neg n k).map Char.ofNat
      = (if neg then ['-'] else []) ++ intChars n k
          ++ (if fracChars n k = [] then [] else '.' :: fracChars n k) := by
  have h45 : Char.ofNat 45 = '-' := by decide
  have h46 : Char.ofNat 46 = '.' := by decide
  unfold formatSpec intChars fracChars
  by_cases hf : (lowBytes n k).dropWhile (fun b => b == 48) = []
  · cases neg <;> simp [hf, h45]
  · cases neg <;> simp [hf, h45, h46]

theorem intChars_isDigit (n k : Nat) : ∀ c ∈ intChars n k, c.isDigit = true := by
  intro c hc
  simp only [intChars, List.mem_map, List.mem_reverse] at hc
  obtain ⟨b, hb, rfl⟩ := hc
  have := digitBytes_digit _ b hb
  exact (char_of_digitByte b this.1 this.2).1

theorem dropWhile_digit (n k : Nat) :
    ∀ b ∈ (lowBytes n k).dropWhile (fun b => b == 48), 48 ≤ b ∧ b ≤ 57 := by
  intro b hb
  exact lowBytes_digit n k b ((List.dropWhile_sublist _).subset hb)

theorem fracChars_isDigit (n k : Nat) : ∀ c ∈ fracChars n k, c.isDigit = true := by
  intro c hc
  simp only [fracChars, List.mem_map, List.mem_reverse] at hc
  obtain ⟨b, hb, rfl⟩ := hc
  have := dropWhile_digit n k b hb
  exact (char_of_digitByte b this.1 this.2).1

theorem fracChars_length_le (n k : Nat) : (fracChars n k).length ≤ k := by
  simp only [fracChars, List.length_map, List.length_reverse]
  have := (List.dropWhile_sublist (fun b => b == 48) (l := lowBytes n k)).length_le
  rw [length_lowBytes] at this
  exact this

theorem digitsValue_intChars (n k : Nat) : digitsValue (intChars n k) = n / 10 ^ k := by
  rw [intChars, digitsValue_reverse_map _ (digitBytes_digit _), lsdValue_digitBytes]

theorem digitsValue_fracChars (n k : Nat) :
    digitsValue (fracChars n k) * 10 ^ (k - (fracChars n k).length) = n % 10 ^ k := by
  rw [fracChars, digitsValue_reverse_map _ (dropWhile_digit n k)]
  have hsplit := List.takeWhile_append_dropWhile (fun b => b == 48) (lowBytes n k)
  have hz : ∀ b ∈ (lowBytes n k).takeWhile (fun b => b == 48), b = 48 := by
    intro b hb
    simpa using List.mem_takeWhile_imp hb
  have hv := lsdValue_zeros_append _ ((lowBytes n k).dropWhile (fun b => b == 48)) hz
  rw [hsplit, lsdValue_lowBytes] at hv
  have hlen := congrArg List.length hsplit
  rw [List.length_append, length_lowBytes] at hlen
  simp only [List.length_map, List.length_reverse]
  rw [hv, Nat.mul_comm]
  congr 2
  omega

theorem fracChars_eq_nil_iff (n k : Nat) : fracChars n k = [] ↔ n % 10 ^ k = 0 := by
  constructor
  · intro h
    have := digitsValue_fracChars n k
    rw [h] at this
    simpa [digitsValue] using this.symm
  · intro h
    by_contra hne
    have hv := digitsValue_fracChars n k
    rw [h] at hv
    have hd : (lowBytes n k).dropWhile (fun b => b == 48) ≠ [] := by
      intro h0; apply hne; simp [fracChars, h0]
    obtain ⟨c, rest, hcr⟩ := List.exists_cons_of_ne_nil hd
    have hc48 : c ≠ 48 := by
      have := List.head_dropWhile_not (fun b => b == 48) (lowBytes n k) (by rw [hcr]; simp)
      simp only [hcr, List.head_cons] at this
      simpa using this
    have hcd := dropWhile_digit n k c (by rw [hcr]; exact List.mem_cons_self _ _)
    have hval : lsdValue ((lowBytes n k).dropWhile (fun b => b == 48)) ≠ 0 := by
      rw [hcr]; simp only [lsdValue, List.foldr_cons]; omega
    rw [fracChars, digitsValue_reverse_map _ (dropWhile_digit n k)] at hv
    rcases Nat.mul_eq_zero.mp hv with h1 | h1
    · exact hval h1
    · exact (pow_ne_zero _ (by decide)) h1

theorem fracChars_getLast_ne_zero (n k : Nat) (c : Char)
    (h : (fracChars n k).getLast? = some c) : c ≠ '0' ∧ c.isDigit = true := by
  have hmem : c ∈ fracChars n k := List.mem_of_getLast?_eq_some h
  refine ⟨?_, fracChars_isDigit n k c hmem⟩
  simp only [fracChars, List.map_reverse, List.getLast?_reverse, List.head?_map] at h
  cases hd : (lowBytes n k).dropWhile (fun b => b == 48) with
  | nil => simp [hd] at h
  | cons b rest =>
    simp only [hd, List.head?_cons, Option.map_some', Option.some.injEq] at h
    have hb48 : b ≠ 48 := by
      have := List.head_dropWhile_not (fun b => b == 48) (lowBytes n k) (by rw [hd]; simp)
      simp only [hd, List.head_cons] at this
      simpa using this
    have hbd := dropWhile_digit n k b (by rw [hd]; exact List.mem_cons_self _ _)
    intro hc0
    rw [← h] at hc0
    exact hb48 ((char_of_digitByte b hbd.1 hbd.2).2.2.2.2 hc0)

theorem intChars_eq_nil_iff (n k : Nat) : intChars n k = [] ↔ n < 10 ^ k := by
  simp only [intChars, digitBytes, List.map_eq_nil_iff, List.reverse_eq_nil_iff,
    Nat.digits_eq_nil_iff_eq_zero]
  exact Nat.div_eq_zero_iff (pow_pos (by decide) k)

theorem intChars_head_ne_zero (n k : Nat) : (intChars n k).head? ≠ some '0' := by
  intro h
  have hne : Nat.digits 10 (n / 10 ^ k) ≠ [] := by
    intro h0; simp [intChars, digitBytes, h0] at h
  have hm : n / 10 ^ k ≠ 0 := by
    intro h0; apply hne; rw [h0]; exact Nat.digits_zero 10
  have hlast := Nat.getLast_digit_ne_zero 10 hm
  simp only [intChars, digitBytes, List.map_reverse, List.head?_reverse, List.getLast?_map,
    List.getLast?_eq_getLast _ hne, Option.map_some', Option.some.injEq] at h
  have hlt := Nat.digits_lt_base (by decide : 1 < 10) (List.getLast_mem hne)
  have := (char_of_digitByte _ (by omega) (by omega)).2.2.2.2 h
  omega

/-! ## `Format` in closed form -/

theorem scaledInt64_eq (x : F64) (d z : Int) (hz : scaledRound x d = some z)
    (h1 : -2 ^ 63 ≤ z) (h2 : z < 2 ^ 63) : scaledInt64 x d = z := by
  unfold scaledRound at hz
  unfold scaledInt64 F64.toInt64
  by_cases hf : (F64.round (F64.mul x (F64.pow10 d))).isFinite = true
  · simp only [hf, if_true, Option.some.injEq] at hz
    norm_num at h1 h2
    rw [if_pos ⟨hf, by rw [hz]; exact h1, by rw [hz]; exact h2⟩, hz]
  · simp [hf] at hz

theorem Format_zero (x : F64) (d : Int) (hz : scaledRound x d = some 0) :
    Format x d = some "0" := by
  have h := scaledInt64_eq x d 0 hz (by norm_num) (by norm_num)
  simp only [Format, doFormat, h, formatInt64, if_true, Option.map_some']
  rfl

theorem Format_closed (x : F64) (k : Nat) (z : Int) (hz : scaledRound x (k : Int) = some z)
    (h0 : z ≠ 0) (hfit : |z| < 2 ^ 63) :
    Format x (k : Int) = some (String.mk (outChars (decide (z < 0)) z.natAbs k)) := by
  have habs := abs_lt.mp hfit
  have h := scaledInt64_eq x k z hz (le_of_lt habs.1) habs.2
  have hn : 0 < z.natAbs := Int.natAbs_pos.mpr h0
  simp only [Format, doFormat, h]
  by_cases hneg : z < 0
  · have hzn : z = -((z.natAbs : Nat) : Int) := by omega
    have hlt : ((z.natAbs : Nat) : Int) < 2 ^ 63 := by
      have := habs.1
      norm_num at this ⊢
      omega
    have hfmt := formatInt64_neg z.natAbs k hn hlt
    rw [← hzn] at hfmt
    simp only [hfmt, Option.map_some', bytesToString, formatSpec_map, hneg, decide_True, outChars]
  · have hzn : z = ((z.natAbs : Nat) : Int) := by omega
    have hfmt := formatInt64_pos z.natAbs k hn
    rw [← hzn] at hfmt
    simp only [hfmt, Option.map_some', bytesToString, formatSpec_map, hneg, decide_False, outChars]

theorem takeWhile_dropWhile_digits (ic fp : List Char) (h1 : ∀ c ∈ ic, c.isDigit = true)
    (h2 : ∀ c, fp.head? = some c → c.isDigit = false) :
    (ic ++ fp).takeWhile Char.isDigit = ic ∧ (ic ++ fp).dropWhile Char.isDigit = fp := by
  induction ic with
  | nil =>
    cases fp with
    | nil => simp
    | cons c rest =>
      have := h2 c rfl
      simp [List.takeWhile, List.dropWhile, this]
  | cons a ic ih =>
    have ha := h1 a (List.mem_cons_self _ _)
    have ih' := ih (fun c hc => h1 c (List.mem_cons_of_mem _ hc))
    simp [List.takeWhile, List.dropWhile, ha, ih'.1, ih'.2]

theorem fracPart_head (n k : Nat) : ∀ c, (fracPart n k).head? = some c → c.isDigit = false := by
  intro c hc
  unfold fracPart at hc
  by_cases hf : fracChars n k = []
  · simp [hf] at hc
  · simp only [hf, if_false, List.head?_cons, Option.some.injEq] at hc
    rw [← hc]; decide

theorem intChars_ne_nil_of_frac_nil (n k : Nat) (hn : 0 < n) (hf : fracChars n k = []) :
    intChars n k ≠ [] := by
  intro hi
  have h1 := (intChars_eq_nil_iff n k).mp hi
  have h2 := (fracChars_eq_nil_iff n k).mp hf
  rw [Nat.mod_eq_of_lt h1] at h2
  omega

theorem outChars_eq (neg : Bool) (n k : Nat) :
    outChars neg n k = (if neg then ['-'] else []) ++ (intChars n k ++ fracPart n k) := by
  simp [outChars, fracPart]

theorem body_head_ne_minus (n k : Nat) : (intChars n k ++ fracPart n k).head? ≠ some '-' := by
  intro h
  cases hi : intChars n k with
  | nil =>
    rw [hi, List.nil_append] at h
    unfold fracPart at h
    by_cases hf : fracChars n k = []
    · simp [hf] at h
    · simp [hf] at h
  | cons c rest =>
    rw [hi] at h
    simp only [List.cons_append, List.head?_cons, Option.some.injEq] at h
    have := intChars_isDigit n k c (by rw [hi]; exact List.mem_cons_self _ _)
    rw [h] at this
    exact absurd this (by decide)

theorem unsignedValue_body (n k : Nat) (hn : 0 < n) :
    unsignedValue (intChars n k ++ fracPart n k) = some ((n : ℚ) / (10 : ℚ) ^ k) := by
  obtain ⟨ht, hd⟩ := takeWhile_dropWhile_digits (intChars n k) (fracPart n k)
    (intChars_isDigit n k) (fracPart_head n k)
  unfold unsignedValue
  simp only [ht, hd]
  by_cases hf : fracChars n k = []
  · have hne := intChars_ne_nil_of_frac_nil n k hn hf
    have hdvd : 10 ^ k ∣ n := Nat.dvd_of_mod_eq_zero ((fracChars_eq_nil_iff n k).mp hf)
    simp only [fracPart, hf, if_true, hne, if_false, digitsValue_intChars]
    congr 1
    have h10 : ((10 ^ k : ℕ) : ℚ) ≠ 0 := by positivity
    rw [Nat.cast_div hdvd h10]
    push_cast
    rfl
  · have hall : (fracChars n k).all Char.isDigit = true := by
      rw [List.all_eq_true]; exact fracChars_isDigit n k
    simp only [fracPart, hf, if_false, hall, and_self, ne_eq, not_false_eq_true, if_true,
      digitsValue_intChars]
    congr 1
    have hv := digitsValue_fracChars n k
    have hlen := fracChars_length_le n k
    have hn' : (n : ℚ) = (10 : ℚ) ^ k * ((n / 10 ^ k : ℕ) : ℚ) + ((n % 10 ^ k : ℕ) : ℚ) := by
      exact_mod_cast (Nat.div_add_mod n (10 ^ k)).symm
    have hr : ((n % 10 ^ k : ℕ) : ℚ)
        = (digitsValue (fracChars n k) : ℚ) * (10 : ℚ) ^ (k - (fracChars n k).length) := by
      exact_mod_cast hv.symm
    have hp : (10 : ℚ) ^ k
        = (10 : ℚ) ^ (fracChars n k).length * (10 : ℚ) ^ (k - (fracChars n k).length) := by
      rw [← pow_add]; congr 1; omega
    rw [hn', hr]
    have h1 : ((10 : ℚ) ^ (fracChars n k).length) ≠ 0 := by positivity
    have h2 : ((10 : ℚ) ^ (k - (fracChars n k).length)) ≠ 0 := by positivity
    rw [hp]
    field_simp
    ring

theorem decimalValue_of_head (cs : List Char) (h : cs.head? ≠ some '-') :
    decimalValue (String.mk cs) = unsignedValue cs := by
  unfold decimalValue
  split
  · rename_i r heq
    simp only at heq
    rw [heq] at h
    simp at h
  · rfl

theorem decimalValue_outChars (neg : Bool) (n k : Nat) (hn : 0 < n) :
    decimalValue (String.mk (outChars neg n k))
      = some ((if neg then -1 else 1) * ((n : ℚ) / (10 : ℚ) ^ k)) := by
  rw [outChars_eq]
  cases neg
  · simp only [Bool.false_eq_true, if_false, List.nil_append, one_mul]
    rw [decimalValue_of_head _ (body_head_ne_minus n k), unsignedValue_body n k hn]
  · simp only [if_true, List.singleton_append]
    unfold decimalValue
    simp only [unsignedValue_body n k hn, Option.map_some']
    congr 1
    ring

/-! ## Claims -/

/-- C3. Value correctness of the formatter: for `k ≤ 10` and every `x` whose scaled rounding
`z = round(x * 10^k)` (as `doFormat` computes it) satisfies `|z| < 2^63`, `Format(x, k)` returns
a text that, read as a signed decimal numeral, denotes exactly `z / 10^k`. -/
theorem C3_format_value (x : F64) (k : Nat) (z : Int) (hk : k ≤ 10)
    (hz : scaledRound x (k : Int) = some z) (hfit : |z| < 2 ^ 63) :
    ∃ s : String, Format x (k : Int) = some s
      ∧ decimalValue s = some ((z : ℚ) / (10 : ℚ) ^ k) := by
  by_cases h0 : z = 0
  · subst h0
    refine ⟨"0", Format_zero x k hz, ?_⟩
    have hd : ("0" : String).data = ['0'] := rfl
    have hdig : Char.isDigit '0' = true := by decide
    simp [decimalValue, hd, unsignedValue, List.takeWhile, List.dropWhile, hdig, digitsValue]
  · refine ⟨_, Format_closed x k z hz h0 hfit, ?_⟩
    rw [decimalValue_outChars _ _ _ (Int.natAbs_pos.mpr h0)]
    congr 1
    by_cases hneg : z < 0
    · have hzn : (z : ℚ) = -((z.natAbs : ℕ) : ℚ) := by
        have h1 : z = -((z.natAbs : ℕ) : Int) := by omega
        have h2 : ((-((z.natAbs : ℕ) : Int) : Int) : ℚ) = -((z.natAbs : ℕ) : ℚ) := by
          rw [Int.cast_neg, Int.cast_natCast]
        rw [← h2, ← h1]
      simp only [hneg, decide_True, if_true]
      rw [hzn]; ring
    · have hzn : (z : ℚ) = ((z.natAbs : ℕ) : ℚ) := by
        have h1 : z = ((z.natAbs : ℕ) : Int) := by omega
        have h2 : ((((z.natAbs : ℕ) : Int) : Int) : ℚ) = ((z.natAbs : ℕ) : ℚ) :=
          Int.cast_natCast _
        rw [← h2, ← h1]
      simp only [hneg, decide_False, Bool.false_eq_true, if_false]
      rw [hzn]; ring

/-- C3, at `Format(pi, 5) = "3.14159"` and `Format(0.19, 1) = ".2"`. -/
theorem C3_format_value_witness :
    Format f64Pi 5 = some "3.14159" ∧ Format f64_0_19 1 = some ".2"
      ∧ ∃ s : String, Format f64Pi ((5 : Nat) : Int) = some s
          ∧ decimalValue s = some (((314159 : Int) : ℚ) / (10 : ℚ) ^ 5) :=
  ⟨by decide!, by decide!,
    C3_format_value f64Pi 5 314159 (by decide) (by decide!) (by norm_num)⟩

/-- C4. Zero canonicalization: for `k ≤ 10`, `Format(0, k)` and `Format(-0, k)` are `"0"`, and
so is `Format(x, k)` whenever `round(x * 10^k) = 0`: one byte, no sign, no decimal point. -/
theorem C4_zero_canonical (k : Nat) (hk : k ≤ 10) :
    Format (F64.zero false) (k : Int) = some "0" ∧ Format (F64.zero true) (k : Int) = some "0"
      ∧ ∀ x : F64, scaledRound x (k : Int) = some 0 → Format x (k : Int) = some "0" := by
  refine ⟨?_, ?_, fun x hx => Format_zero x k hx⟩
  · interval_cases k <;> decide!
  · interval_cases k <;> decide!

/-- C4, at `Format(0.1, 0)`, at a small negative `x` with five digits, and at `-0`. -/
theorem C4_zero_canonical_witness :
    Format f64_0_1 0 = some "0"
      ∧ scaledRound f64_neg_1e9th ((5 : Nat) : Int) = some 0
      ∧ Format f64_neg_1e9th ((5 : Nat) : Int) = some "0"
      ∧ Format (F64.zero true) ((5 : Nat) : Int) = some "0" :=
  ⟨by decide!, by decide!,
    (C4_zero_canonical 5 (by decide)).2.2 f64_neg_1e9th (by decide!),
    (C4_zero_canonical 5 (by decide)).2.1⟩

theorem digit_ne_zero_mem (c : Char) (h1 : c.isDigit = true) (h2 : c ≠ '0') :
    c ∈ ['1', '2', '3', '4', '5', '6', '7', '8', '9'] := by
  have hb : 48 ≤ c.toNat ∧ c.toNat ≤ 57 := by
    simp only [Char.isDigit, Bool.and_eq_true, decide_eq_true_eq] at h1
    have e1 : c.toNat = c.val.toNat := rfl
    have a := h1.1
    have b := h1.2
    rw [ge_iff_le, UInt32.le_def] at a
    rw [UInt32.le_def] at b
    simp only [e1]
    exact ⟨a, b⟩
  have hc : c = Char.ofNat c.toNat := (Char.ofNat_toNat c).symm
  generalize c.toNat = n at hb hc
  obtain ⟨hb1, hb2⟩ := hb
  subst hc
  interval_cases n
  · exact absurd rfl h2
  all_goals decide

theorem mem_outChars_point (neg : Bool) (n k : Nat) (h : '.' ∈ outChars neg n k) :
    fracChars n k ≠ [] := by
  intro hf
  have hform : outChars neg n k = (if neg then ['-'] else []) ++ intChars n k := by
    simp [outChars, hf]
  rw [hform, List.mem_append] at h
  rcases h with h | h
  · cases neg
    · simp at h
    · simp at h
  · have := intChars_isDigit n k '.' h
    exact absurd this (by decide)

theorem getLast?_outChars (neg : Bool) (n k : Nat) (hf : fracChars n k ≠ []) :
    (outChars neg n k).getLast? = (fracChars n k).getLast? := by
  simp only [outChars, hf, if_false]
  rw [List.getLast?_append_of_ne_nil _ (by simp)]
  obtain ⟨a, r, har⟩ := List.exists_cons_of_ne_nil hf
  rw [har, List.getLast?_cons_cons]

/-- C5, as amended. No trailing zeros: for `k ≤ 10` and every `x` whose scaled rounding `z`
satisfies `|z| < 2^63`, if `Format(x, k)` contains a decimal point then its last byte is one of
the digits `1` to `9` (so the text ends neither in `0` after a point nor in the point). -/
theorem C5_no_trailing_zero (x : F64) (k : Nat) (z : Int) (hk : k ≤ 10)
    (hz : scaledRound x (k : Int) = some z) (hfit : |z| < 2 ^ 63) :
    ∃ s : String, Format x (k : Int) = some s
      ∧ ('.' ∈ s.data →
          ∃ c, s.data.getLast? = some c ∧ c ∈ ['1', '2', '3', '4', '5', '6', '7', '8', '9']) := by
  by_cases h0 : z = 0
  · subst h0
    refine ⟨"0", Format_zero x k hz, ?_⟩
    intro h
    exact absurd h (by decide)
  · refine ⟨_, Format_closed x k z hz h0 hfit, ?_⟩
    intro h
    have hf := mem_outChars_point _ _ _ h
    obtain ⟨c, hc⟩ : ∃ c, (fracChars z.natAbs k).getLast? = some c := by
      cases hl : (fracChars z.natAbs k).getLast? with
      | none => exact absurd (List.getLast?_eq_none_iff.mp hl) hf
      | some c => exact ⟨c, rfl⟩
    refine ⟨c, ?_, ?_⟩
    · show (outChars _ _ _).getLast? = some c
      rw [getLast?_outChars _ _ _ hf, hc]
    · have := fracChars_getLast_ne_zero _ _ c hc
      exact digit_ne_zero_mem c this.2 this.1

/-- C5, at `Format(pi, 2) = "3.14"`; and `Format(1, 5) = "1"` has no point at all. -/
theorem C5_no_trailing_zero_witness :
    Format f64Pi 2 = some "3.14" ∧ Format f64One 5 = some "1"
      ∧ ∃ s : String, Format f64Pi ((2 : Nat) : Int) = some s
        ∧ ('.' ∈ s.data →
          ∃ c, s.data.getLast? = some c ∧ c ∈ ['1', '2', '3', '4', '5', '6', '7', '8', '9']) :=
  ⟨by decide!, by decide!,
    C5_no_trailing_zero f64Pi 2 314 (by decide) (by decide!) (by norm_num)⟩

/-- C5 as stated fails at the smallest int64: for `x` the float64 nearest to `-2^63 / 10` and
`k = 1`, `round(x * 10) = -2^63` fits in int64, yet the text contains `.` and ends in `(`. -/
theorem C5_counterexample :
    scaledRound f64MinInt64Tenth 1 = some (-9223372036854775808)
      ∧ ∃ s : String, Format f64MinInt64Tenth 1 = some s ∧ '.' ∈ s.data
          ∧ s.data.getLast? = some '(' :=
  ⟨by decide!,
    bytesToString [45, 39, 46, 46, 45, 45, 41, 46, 48, 45, 42, 40, 43, 44, 41, 41, 43, 40, 48,
      46, 40],
    by decide!, by decide!, by decide!⟩

theorem digit_mem (c : Char) (h1 : c.isDigit = true) :
    c ∈ ['0', '1', '2', '3', '4', '5', '6', '7', '8', '9'] := by
  by_cases h0 : c = '0'
  · subst h0; decide
  · exact List.mem_cons_of_mem _ (digit_ne_zero_mem c h1 h0)

theorem unsignedPart_of_head (cs : List Char) (h : cs.head? ≠ some '-') :
    unsignedPart cs = cs := by
  unfold unsignedPart
  split
  · rename_i r
    simp at h
  · rfl

theorem unsignedPart_outChars (neg : Bool) (n k : Nat) :
    unsignedPart (outChars neg n k) = intChars n k ++ fracPart n k := by
  rw [outChars_eq]
  cases neg
  · simp only [Bool.false_eq_true, if_false, List.nil_append]
    exact unsignedPart_of_head _ (body_head_ne_minus n k)
  · rfl

theorem decimalShape_outChars (neg : Bool) (n k : Nat) (hn : 0 < n) :
    decimalShape (outChars neg n k) = true := by
  obtain ⟨ht, hd⟩ := takeWhile_dropWhile_digits (intChars n k) (fracPart n k)
    (intChars_isDigit n k) (fracPart_head n k)
  unfold decimalShape
  simp only [unsignedPart_outChars, ht, hd]
  by_cases hf : fracChars n k = []
  · have hne := intChars_ne_nil_of_frac_nil n k hn hf
    simp [fracPart, hf, hne]
  · have hall : (fracChars n k).all Char.isDigit = true := by
      rw [List.all_eq_true]; exact fracChars_isDigit n k
    simp [fracPart, hf, hall]

theorem mem_outChars (neg : Bool) (n k : Nat) (c : Char) (h : c ∈ outChars neg n k) :
    c ∈ ['0', '1', '2', '3', '4', '5', '6', '7', '8', '9', '.', '-'] := by
  have hdig : ∀ d : Char, d.isDigit = true →
      d ∈ ['0', '1', '2', '3', '4', '5', '6', '7', '8', '9', '.', '-'] := by
    intro d hd
    have := digit_mem d hd
    simp only [List.mem_cons] at this ⊢
    tauto
  simp only [outChars, List.mem_append] at h
  rcases h with (h | h) | h
  · cases neg
    · simp at h
    · simp only [if_true, List.mem_singleton] at h
      subst h; decide
  · exact hdig c (intChars_isDigit n k c h)
  · by_cases hf : fracChars n k = []
    · simp [hf] at h
    · simp only [hf, if_false, List.mem_cons] at h
      rcases h with h | h
      · subst h; decide
      · exact hdig c (fracChars_isDigit n k c h)

theorem shape_excludes (cs : List Char) (h : decimalShape cs = true) :
    cs ≠ [] ∧ cs ≠ ['-'] ∧ cs ≠ ['.'] ∧ cs ≠ ['-', '.'] := by
  refine ⟨?_, ?_, ?_, ?_⟩ <;> (intro e; subst e; revert h; decide)

/-- C6, as amended. Output grammar: for `k ≤ 10` and every `x` whose scaled rounding `z`
satisfies `|z| < 2^63`, `Format(x, k)` has the shape optional `-`, digits, optional `.` followed
by one or more digits, with at least one digit; every byte is one of `0123456789.-`, so it
contains no `e` or `E` and is none of the texts `""`, `"-"`, `"."`, `"-."`. -/
theorem C6_output_grammar (x : F64) (k : Nat) (z : Int) (hk : k ≤ 10)
    (hz : scaledRound x (k : Int) = some z) (hfit : |z| < 2 ^ 63) :
    ∃ s : String, Format x (k : Int) = some s
      ∧ decimalShape s.data = true
      ∧ (∀ c ∈ s.data, c ∈ ['0', '1', '2', '3', '4', '5', '6', '7', '8', '9', '.', '-'])
      ∧ 'e' ∉ s.data ∧ 'E' ∉ s.data
      ∧ s.data ≠ [] ∧ s.data ≠ ['-'] ∧ s.data ≠ ['.'] ∧ s.data ≠ ['-', '.'] := by
  have key : ∀ cs : List Char, decimalShape cs = true →
      (∀ c ∈ cs, c ∈ ['0', '1', '2', '3', '4', '5', '6', '7', '8', '9', '.', '-']) →
      decimalShape cs = true
      ∧ (∀ c ∈ cs, c ∈ ['0', '1', '2', '3', '4', '5', '6', '7', '8', '9', '.', '-'])
      ∧ 'e' ∉ cs ∧ 'E' ∉ cs ∧ cs ≠ [] ∧ cs ≠ ['-'] ∧ cs ≠ ['.'] ∧ cs ≠ ['-', '.'] := by
    intro cs h1 h2
    refine ⟨h1, h2, ?_, ?_, shape_excludes cs h1⟩
    · intro he; exact absurd (h2 _ he) (by decide)
    · intro he; exact absurd (h2 _ he) (by decide)
  by_cases h0 : z = 0
  · subst h0
    exact ⟨"0", Format_zero x k hz, key _ (by decide) (by decide)⟩
  · exact ⟨_, Format_closed x k z hz h0 hfit,
      key _ (decimalShape_outChars _ _ _ (Int.natAbs_pos.mpr h0)) (mem_outChars _ _ _)⟩

/-- C6, at `Format(-0.19, 1) = "-.2"`. -/
theorem C6_output_grammar_witness :
    Format f64_neg_0_19 1 = some "-.2"
      ∧ ∃ s : String, Format f64_neg_0_19 ((1 : Nat) : Int) = some s
        ∧ decimalShape s.data = true
        ∧ (∀ c ∈ s.data, c ∈ ['0', '1', '2', '3', '4', '5', '6', '7', '8', '9', '.', '-'])
        ∧ 'e' ∉ s.data ∧ 'E' ∉ s.data
        ∧ s.data ≠ [] ∧ s.data ≠ ['-'] ∧ s.data ≠ ['.'] ∧ s.data ≠ ['-', '.'] :=
  ⟨by decide!, C6_output_grammar f64_neg_0_19 1 (-2) (by decide) (by decide!) (by norm_num)⟩

/-- C6 as stated fails at the smallest int64: for `x = -2^63` and `k = 0`,
`round(x * 1) = -2^63` fits in int64, yet the text is not of the stated shape and contains the
byte `(`. -/
theorem C6_counterexample :
    scaledRound f64MinInt64 0 = some (-9223372036854775808)
      ∧ ∃ s : String, Format f64MinInt64 0 = some s ∧ decimalShape s.data = false
          ∧ '(' ∈ s.data :=
  ⟨by decide!,
    bytesToString [45, 39, 46, 46, 45, 45, 41, 46, 48, 45, 42, 40, 43, 44, 41, 41, 43, 40, 48,
      40],
    by decide!, by decide!, by decide!⟩

theorem dropWhile_append_of_all (p : Char → Bool) (pre fp : List Char)
    (h : ∀ c ∈ pre, p c = true) : (pre ++ fp).dropWhile p = fp.dropWhile p := by
  induction pre with
  | nil => rfl
  | cons a pre ih =>
    have ha := h a (List.mem_cons_self _ _)
    simp [List.dropWhile, ha, ih (fun c hc => h c (List.mem_cons_of_mem _ hc))]

theorem afterPoint_outChars (neg : Bool) (n k : Nat) :
    afterPoint (outChars neg n k) = fracChars n k := by
  have hpre : ∀ c ∈ (if neg then ['-'] else []) ++ intChars n k, (c != '.') = true := by
    intro c hc
    rw [List.mem_append] at hc
    rcases hc with hc | hc
    · cases neg
      · simp at hc
      · simp only [if_true, List.mem_singleton] at hc
        subst hc; decide
    · have := intChars_isDigit n k c hc
      by_cases hp : c = '.'
      · subst hp; exact absurd this (by decide)
      · simpa using hp
  unfold afterPoint outChars
  rw [dropWhile_append_of_all _ _ _ hpre]
  by_cases hf : fracChars n k = []
  · simp [hf]
  · simp [hf, List.dropWhile]

/-- C7, as amended. For `k ≤ 10` and every `x` whose scaled rounding `z` satisfies
`|z| < 2^63`, at most `k` bytes follow the decimal point of `Format(x, k)`; for `k = 0` the text
contains no decimal point. -/
theorem C7_fraction_length (x : F64) (k : Nat) (z : Int) (hk : k ≤ 10)
    (hz : scaledRound x (k : Int) = some z) (hfit : |z| < 2 ^ 63) :
    ∃ s : String, Format x (k : Int) = some s
      ∧ (afterPoint s.data).length ≤ k ∧ (k = 0 → '.' ∉ s.data) := by
  by_cases h0 : z = 0
  · subst h0
    refine ⟨"0", Format_zero x k hz, ?_, ?_⟩
    · have : afterPoint ("0" : String).data = [] := by decide
      rw [this]; exact Nat.zero_le _
    · intro _; decide
  · refine ⟨_, Format_closed x k z hz h0 hfit, ?_, ?_⟩
    · show (afterPoint (outChars _ _ _)).length ≤ k
      rw [afterPoint_outChars]
      exact fracChars_length_le _ _
    · intro hk0 hmem
      have hf := mem_outChars_point _ _ _ hmem
      have hlen := fracChars_length_le z.natAbs k
      have hl0 : (fracChars z.natAbs k).length = 0 := by omega
      exact hf (List.length_eq_zero.mp hl0)

/-- C7, at `Format(pi, 4) = "3.1416"` and `Format(pi, 0) = "3"`. -/
theorem C7_fraction_length_witness :
    Format f64Pi 4 = some "3.1416" ∧ Format f64Pi 0 = some "3"
      ∧ ∃ s : String, Format f64Pi ((4 : Nat) : Int) = some s
        ∧ (afterPoint s.data).length ≤ 4 ∧ (4 = 0 → '.' ∉ s.data) :=
  ⟨by decide!, by decide!,
    C7_fraction_length f64Pi 4 31416 (by decide) (by decide!) (by norm_num)⟩

/-- C7 as stated fails at the smallest int64: for `x = -2^63` and `k = 0`,
`round(x * 1) = -2^63` fits in int64, yet the text contains the byte `.`, followed by 17 more
bytes, two of them digits. -/
theorem C7_counterexample :
    scaledRound f64MinInt64 0 = some (-9223372036854775808)
      ∧ ∃ s : String, Format f64MinInt64 0 = some s ∧ '.' ∈ s.data
          ∧ (afterPoint s.data).length = 17
          ∧ ((afterPoint s.data).filter Char.isDigit).length = 2 :=
  ⟨by decide!,
    bytesToString [45, 39, 46, 46, 45, 45, 41, 46, 48, 45, 42, 40, 43, 44, 41, 41, 43, 40, 48,
      40],
    by decide!, by decide!, by decide!, by decide!⟩

theorem exists_of_check {α : Type} (o : Option α) (p : α → Bool)
    (h : o.map p = some true) : ∃ a, o = some a ∧ p a = true := by
  cases o with
  | none => simp at h
  | some a => exact ⟨a, rfl, by simpa using h⟩

/-- At the smallest int64 the byte after the sign is `'` for every `k ≤ 10`. -/
theorem minInt64_head (k : Nat) (hk : k ≤ 10) :
    ((formatInt64 (-9223372036854775808) (k : Int)).map bytesToString).map
      (fun s => decide ((unsignedPart s.data).head? = some (Char.ofNat 39))) = some true := by
  interval_cases k <;> decide!

/-- C8. No leading zero: for `k ≤ 10` and every `x` whose scaled rounding `z` fits in int64,
the text of `Format(x, k)` after its optional sign begins with `0` only if the whole text is
`"0"`; when `0 < |z| < 10^k` the integer part is empty: the text begins with `.`, or with `-.`
when `z` is negative. -/
theorem C8_no_leading_zero (x : F64) (k : Nat) (z : Int) (hk : k ≤ 10)
    (hz : scaledRound x (k : Int) = some z) (hfit : -2 ^ 63 ≤ z ∧ z < 2 ^ 63) :
    ∃ s : String, Format x (k : Int) = some s
      ∧ ((unsignedPart s.data).head? = some '0' → s = "0")
      ∧ (0 < z → z < 10 ^ k → s.data.head? = some '.')
      ∧ (z < 0 → -10 ^ k < z → s.data.take 2 = ['-', '.']) := by
  by_cases hmin : z = -9223372036854775808
  · subst hmin
    have h := scaledInt64_eq x k _ hz hfit.1 hfit.2
    obtain ⟨s, hs, hp⟩ := exists_of_check _ _ (minInt64_head k hk)
    refine ⟨s, ?_, ?_, ?_, ?_⟩
    · simp only [Format, doFormat, h]; exact hs
    · intro h0
      simp only [decide_eq_true_eq] at hp
      rw [hp] at h0
      exact absurd h0 (by decide)
    · intro hpos; norm_num at hpos
    · intro _ hlt
      have h10 : (10 : Int) ^ k ≤ 10 ^ 10 := pow_le_pow_right₀ (by norm_num) hk
      norm_num at hlt h10
      omega
  · have habs : |z| < 2 ^ 63 := by
      rw [abs_lt]
      have h1 := hfit.1
      have h2 := hfit.2
      norm_num at h1 h2 ⊢
      omega
    by_cases h0 : z = 0
    · subst h0
      exact ⟨"0", Format_zero x k hz, fun _ => rfl, fun h => absurd h (by decide),
        fun h => absurd h (by decide)⟩
    · refine ⟨_, Format_closed x k z hz h0 habs, ?_, ?_, ?_⟩
      · intro hh
        exfalso
        change (unsignedPart (outChars _ _ _)).head? = some '0' at hh
        rw [unsignedPart_outChars] at hh
        cases hi : intChars z.natAbs k with
        | nil =>
          rw [hi, List.nil_append] at hh
          have := fracPart_head z.natAbs k '0' hh
          exact absurd this (by decide)
        | cons c rest =>
          have hne := intChars_head_ne_zero z.natAbs k
          rw [hi] at hh hne
          simp only [List.cons_append, List.head?_cons] at hh hne
          exact hne hh
      · intro hpos hlt
        have hn : z.natAbs < 10 ^ k := by
          have h1 : ((z.natAbs : Nat) : Int) = z := by omega
          have : ((z.natAbs : Nat) : Int) < ((10 ^ k : Nat) : Int) := by
            rw [h1]; push_cast; exact hlt
          exact Int.ofNat_lt.mp this
        have hi := (intChars_eq_nil_iff z.natAbs k).mpr hn
        have hf : fracChars z.natAbs k ≠ [] := by
          intro hf
          exact intChars_ne_nil_of_frac_nil _ _ (Int.natAbs_pos.mpr h0) hf hi
        have hneg : ¬ z < 0 := by omega
        show (outChars _ _ _).head? = some '.'
        simp [outChars, hi, hf, hneg]
      · intro hneg hlt
        have hn : z.natAbs < 10 ^ k := by
          have h1 : ((z.natAbs : Nat) : Int) = -z := by omega
          have : ((z.natAbs : Nat) : Int) < ((10 ^ k : Nat) : Int) := by
            rw [h1]; push_cast; linarith
          exact Int.ofNat_lt.mp this
        have hi := (intChars_eq_nil_iff z.natAbs k).mpr hn
        have hf : fracChars z.natAbs k ≠ [] := by
          intro hf
          exact intChars_ne_nil_of_frac_nil _ _ (Int.natAbs_pos.mpr h0) hf hi
        show (outChars _ _ _).take 2 = ['-', '.']
        simp [outChars, hi, hf, hneg]

/-- C8, at `Format(0.1, 1) = ".1"` and `Format(-0.19, 1) = "-.2"`. -/
theorem C8_no_leading_zero_witness :
    Format f64_0_1 1 = some ".1" ∧ Format f64_neg_0_19 1 = some "-.2"
      ∧ ∃ s : String, Format f64_0_1 ((1 : Nat) : Int) = some s
        ∧ ((unsignedPart s.data).head? = some '0' → s = "0")
        ∧ ((0 : Int) < 1 → (1 : Int) < 10 ^ 1 → s.data.head? = some '.')
        ∧ ((1 : Int) < 0 → -10 ^ 1 < (1 : Int) → s.data.take 2 = ['-', '.']) :=
  ⟨by decide!, by decide!,
    C8_no_leading_zero f64_0_1 1 1 (by decide) (by decide!) (by norm_num)⟩

/-! ## Decimal literals are accepted by the primitive -/

theorem readMantissa_digit (c : Nat) (cs : List Nat) (st : MantState)
    (hc : 48 ≤ c ∧ c ≤ 57) :
    ∃ st1 : MantState, readMantissa false (c :: cs) st = readMantissa false cs st1
      ∧ st1.sawdot = st.sawdot ∧ st1.underscores = st.underscores ∧ st1.sawdigits = true := by
  have h95 : ¬ c = 95 := by omega
  have h46 : ¬ c = 46 := by omega
  by_cases h0 : c = 48 ∧ st.nd = 0
  · refine ⟨{ st with sawdigits := true, dp := st.dp - 1 }, ?_, rfl, rfl, rfl⟩
    rw [readMantissa, if_neg h95, if_neg h46, if_pos hc, if_pos h0]
  · refine ⟨{ st with sawdigits := true, nd := st.nd + 1,
                      mant := st.mant * (if false = true then 16 else 10) + (c - 48) },
      ?_, rfl, rfl, rfl⟩
    rw [readMantissa, if_neg h95, if_neg h46, if_pos hc, if_neg h0]

theorem readMantissa_digits : ∀ (ds rest : List Nat) (st : MantState),
    (∀ c ∈ ds, isDigitCode c = true) →
    ∃ st' : MantState, readMantissa false (ds ++ rest) st = readMantissa false rest st'
      ∧ st'.sawdot = st.sawdot ∧ st'.underscores = st.underscores
      ∧ st'.sawdigits = (st.sawdigits || !ds.isEmpty) := by
  intro ds
  induction ds with
  | nil => intro rest st _; exact ⟨st, rfl, rfl, rfl, by simp⟩
  | cons c ds ih =>
    intro rest st h
    have hc := h c (List.mem_cons_self _ _)
    simp only [isDigitCode, decide_eq_true_eq] at hc
    obtain ⟨st1, a1, a2, a3, a4⟩ := readMantissa_digit c (ds ++ rest) st hc
    obtain ⟨st', e1, e2, e3, e4⟩ := ih rest st1 (fun d hd => h d (List.mem_cons_of_mem _ hd))
    refine ⟨st', ?_, ?_, ?_, ?_⟩
    · rw [List.cons_append, a1, e1]
    · rw [e2, a2]
    · rw [e3, a3]
    · rw [e4, a4]; simp

theorem readMantissa_stop (c : Nat) (r : List Nat) (st : MantState) (hc : c = 101 ∨ c = 69) :
    readMantissa false (c :: r) st = (st, c :: r) := by
  rcases hc with rfl | rfl <;> simp [readMantissa]

theorem readExpDigits_all : ∀ (ds : List Nat) (e : Nat) (u : Bool),
    (∀ c ∈ ds, isDigitCode c = true) → ∃ e', readExpDigits ds e u = (e', u, []) := by
  intro ds
  induction ds with
  | nil => intro e u _; exact ⟨e, rfl⟩
  | cons c ds ih =>
    intro e u h
    have hc := h c (List.mem_cons_self _ _)
    simp only [isDigitCode, decide_eq_true_eq] at hc
    obtain ⟨e', he⟩ := ih (if e < 10000 then e * 10 + (c - 48) else e) u
      (fun d hd => h d (List.mem_cons_of_mem _ hd))
    exact ⟨e', by simp only [readExpDigits, hc, and_self, if_true, he]⟩

theorem decimalExponent_cases (cs : List Nat) (h : decimalExponent cs = true) :
    cs = [] ∨ ∃ c r, cs = c :: r ∧ (c = 101 ∨ c = 69) ∧ stripSign r ≠ []
      ∧ ∀ d ∈ stripSign r, isDigitCode d = true := by
  cases cs with
  | nil => exact Or.inl rfl
  | cons c r =>
    right
    simp only [decimalExponent, Bool.and_eq_true, Bool.or_eq_true, beq_iff_eq,
      Bool.not_eq_true', List.isEmpty_eq_false, List.all_eq_true] at h
    exact ⟨c, r, rfl, h.1.1, by simpa using h.1.2, h.2⟩

/-- What the digit loop of `readFloat` does on the body of a decimal literal. -/
theorem readMantissa_literal (cs : List Nat) (h : decimalCodes cs = true) :
    ∃ (st : MantState) (r2 : List Nat),
      readMantissa false (stripSign cs) ⟨false, false, false, 0, 0, 0⟩ = (st, r2)
        ∧ st.sawdigits = true ∧ st.underscores = false ∧ decimalExponent r2 = true := by
  have hsplit := List.takeWhile_append_dropWhile isDigitCode (stripSign cs)
  have hip : ∀ c ∈ (stripSign cs).takeWhile isDigitCode, isDigitCode c = true :=
    fun c hc => List.mem_takeWhile_imp hc
  unfold decimalCodes at h
  simp only at h
  obtain ⟨st1, e1, d1, u1, g1⟩ := readMantissa_digits _ ((stripSign cs).dropWhile isDigitCode)
    ⟨false, false, false, 0, 0, 0⟩ hip
  rw [hsplit] at e1
  cases hr1 : (stripSign cs).dropWhile isDigitCode with
  | nil =>
    rw [hr1] at h e1
    simp only [Bool.not_eq_true', List.isEmpty_eq_false] at h
    refine ⟨st1, [], ?_, ?_, u1, rfl⟩
    · rw [e1]; rfl
    · rw [g1]; simpa using h
  | cons c r =>
    rw [hr1] at h e1
    by_cases hc : c = 46
    · subst hc
      simp only [if_true, Bool.and_eq_true, Bool.or_eq_true, Bool.not_eq_true',
        List.isEmpty_eq_false] at h
      have hsp2 := List.takeWhile_append_dropWhile isDigitCode r
      have hfp : ∀ c ∈ r.takeWhile isDigitCode, isDigitCode c = true :=
        fun c hc => List.mem_takeWhile_imp hc
      have hdot : readMantissa false (46 :: r) st1
          = readMantissa false r { st1 with sawdot := true, dp := st1.nd } := by
        simp [readMantissa, d1]
      obtain ⟨st2, e2, _, u2, g2⟩ := readMantissa_digits _ (r.dropWhile isDigitCode)
        { st1 with sawdot := true, dp := st1.nd } hfp
      rw [hsp2] at e2
      have hstop : readMantissa false (r.dropWhile isDigitCode) st2
          = (st2, r.dropWhile isDigitCode) := by
        rcases decimalExponent_cases _ h.2 with h0 | ⟨c, r3, hcr, hce, _, _⟩
        · rw [h0]; rfl
        · rw [hcr]; exact readMantissa_stop c r3 st2 hce
      refine ⟨st2, r.dropWhile isDigitCode, ?_, ?_, ?_, h.2⟩
      · rw [e1, hdot, e2, hstop]
      · rw [g2]
        simp only [g1]
        rcases h.1 with h1 | h1
        · simp [h1]
        · simp [h1]
      · rw [u2]; exact u1
    · simp only [hc, if_false, Bool.and_eq_true, Bool.not_eq_true',
        List.isEmpty_eq_false] at h
      rcases decimalExponent_cases _ h.2 with h0 | ⟨c', r3, hcr, hce, _, _⟩
      · exact absurd h0 (by simp)
      · simp only [List.cons.injEq] at hcr
        obtain ⟨rfl, rfl⟩ := hcr
        refine ⟨st1, c :: r, ?_, ?_, u1, h.2⟩
        · rw [e1]; exact readMantissa_stop c r st1 hce
        · rw [g1]; simpa using h.1

theorem literal_head (cs : List Nat) (h : decimalCodes cs = true) :
    ∃ c r, stripSign cs = c :: r ∧ (isDigitCode c = true ∨ c = 46) := by
  unfold decimalCodes at h
  cases hb : stripSign cs with
  | nil => rw [hb] at h; simp at h
  | cons c r =>
    refine ⟨c, r, rfl, ?_⟩
    by_cases hd : isDigitCode c = true
    · exact Or.inl hd
    · right
      rw [hb] at h
      simp only [List.takeWhile, List.dropWhile, hd] at h
      by_contra hc
      simp [hc] at h

theorem literal_second (cs : List Nat) (h : decimalCodes cs = true) (c1 : Nat) (r : List Nat)
    (hb : stripSign cs = 48 :: c1 :: r) :
    isDigitCode c1 = true ∨ c1 = 46 ∨ c1 = 101 ∨ c1 = 69 := by
  unfold decimalCodes at h
  rw [hb] at h
  by_cases hd : isDigitCode c1 = true
  · exact Or.inl hd
  · right
    have h48 : isDigitCode 48 = true := by decide
    simp only [List.takeWhile, List.dropWhile, h48, hd] at h
    by_cases hc : c1 = 46
    · exact Or.inl hc
    · right
      simp only [hc, if_false, Bool.and_eq_true] at h
      rcases decimalExponent_cases _ h.2 with h0 | ⟨c', r3, hcr, hce, _, _⟩
      · exact absurd h0 (by simp)
      · simp only [List.cons.injEq] at hcr
        rw [hcr.1]; exact hce

theorem lower_ne_x (c : Nat) (h : isDigitCode c = true ∨ c = 46 ∨ c = 101 ∨ c = 69) :
    lower c ≠ 120 := by
  rcases h with h | rfl | rfl | rfl
  · simp only [isDigitCode, decide_eq_true_eq] at h
    obtain ⟨h1, h2⟩ := h
    interval_cases c <;> decide
  · decide
  · decide
  · decide

theorem literal_not_hex (cs : List Nat) (h : decimalCodes cs = true) :
    (match stripSign cs with
      | c0 :: c1 :: _ :: _ => decide (c0 = 48 ∧ lower c1 = 120)
      | _ => false) = false := by
  split
  · rename_i c0 c1 c2 r hb
    simp only [decide_eq_false_iff_not, not_and]
    intro h0
    subst h0
    exact lower_ne_x c1 (literal_second cs h c1 (c2 :: r) hb)
  · rfl

/-- `readFloat` accepts every decimal or scientific-notation literal. -/
theorem readFloat_literal (cs : List Nat) (h : decimalCodes cs = true) :
    ∃ l, readFloat cs = some l := by
  obtain ⟨st, r2, hrm, hsd, hus, hex⟩ := readMantissa_literal cs h
  have hhex := literal_not_hex cs h
  obtain ⟨c', r', hhead, _⟩ := literal_head cs h
  cases cs with
  | nil => simp [stripSign] at hhead
  | cons c rest =>
    have hs1 : (if c = 43 ∨ c = 45 then rest else c :: rest) = stripSign (c :: rest) := rfl
    unfold readFloat
    simp only [hs1, hhex, Bool.false_eq_true, if_false, hrm, hsd, hus]
    rcases decimalExponent_cases _ hex with h0 | ⟨c3, s4, hcr, hce, hne, hdig⟩
    · subst h0
      simp
    · subst hcr
      have hl : lower c3 = 101 := by rcases hce with rfl | rfl <;> decide
      simp only [hl, if_true]
      cases s4 with
      | nil => simp [stripSign] at hne
      | cons c4 s5 =>
        have hs6 : (if c4 = 43 ∨ c4 = 45 then s5 else c4 :: s5) = stripSign (c4 :: s5) := rfl
        simp only [hs6]
        obtain ⟨c6, r6, h6⟩ := List.exists_cons_of_ne_nil hne
        have hc6 := hdig c6 (by rw [h6]; exact List.mem_cons_self _ _)
        simp only [isDigitCode, decide_eq_true_eq] at hc6
        obtain ⟨e', he'⟩ := readExpDigits_all (stripSign (c4 :: s5)) 0 false hdig
        rw [h6] at he' ⊢
        have hc6' : ¬ (c6 < 48 ∨ 57 < c6) := by omega
        simp [hc6', he']

theorem special_literal (cs : List Nat) (h : decimalCodes cs = true) : special cs = none := by
  obtain ⟨c', r', hhead, hc'⟩ := literal_head cs h
  have hnot : ∀ c : Nat, (isDigitCode c = true ∨ c = 46) →
      c ≠ 43 ∧ c ≠ 45 ∧ c ≠ 105 ∧ c ≠ 73 ∧ c ≠ 110 ∧ c ≠ 78 ∧ ¬ (65 ≤ c ∧ c ≤ 90) := by
    intro c hc
    rcases hc with hc | rfl
    · simp only [isDigitCode, decide_eq_true_eq] at hc
      omega
    · decide
  cases cs with
  | nil => simp [stripSign] at hhead
  | cons c rest =>
    by_cases hsign : c = 43 ∨ c = 45
    · have hb : rest = c' :: r' := by
        simp only [stripSign, hsign, if_true] at hhead
        exact hhead
      have hn := hnot c' hc'
      have hlen : infinityLen rest = 0 := by
        rw [hb]
        simp [infinityLen, commonPrefixLenIgnoreCase, hn.2.2.2.2.2.2, hn.2.2.1]
      simp [special, hsign, hlen]
    · have hb : c = c' := by
        simp only [stripSign, hsign, if_false, List.cons.injEq] at hhead
        exact hhead.1
      have hn := hnot c (by rw [hb]; exact hc')
      simp [special, hsign, hn.2.2.1, hn.2.2.2.1, hn.2.2.2.2.1, hn.2.2.2.2.2.1]

/-- On a decimal or scientific-notation literal the primitive reports no `ErrSyntax`: it
either succeeds or reports `ErrRange`, with the value ±Inf. -/
theorem ParseFloat_literal (s : String) (h : isDecimalLiteral s = true) :
    (ParseFloat s).2 = none
      ∨ ((ParseFloat s).2 = some ⟨"ParseFloat", s, ErrKind.ErrRange⟩
          ∧ (ParseFloat s).1.isInf = true) := by
  unfold isDecimalLiteral at h
  obtain ⟨l, hl⟩ := readFloat_literal _ h
  unfold ParseFloat
  simp only [special_literal _ h, hl]
  by_cases hinf : l.toF64.isInf = true
  · right; simp [hinf]
  · left; simp [hinf]

/-- C9, as amended. `Parse(s, k)` fails with the error of the float-parsing primitive exactly
when the primitive reports one (`ErrSyntax` or `ErrRange`), and then returns the value 0; on a
syntactically valid decimal or scientific-notation literal the only error it can fail with is
the primitive's `ErrRange`; whenever the primitive yields a non-NaN value `x` without error,
`Parse(s, k)` returns `Round(x, k)` with no error. -/
theorem C9_parse_result (s : String) (digits : Int) :
    (∀ e : NumError, (Parse s digits).2 = some (Error.numError e) ↔ (ParseFloat s).2 = some e)
      ∧ (∀ e : NumError, (ParseFloat s).2 = some e →
          Parse s digits = (F64.zero false, some (Error.numError e))
            ∧ e.Func = "ParseFloat" ∧ e.Num = s
            ∧ (e.Err = ErrKind.ErrSyntax ∨ e.Err = ErrKind.ErrRange))
      ∧ (isDecimalLiteral s = true →
          ∀ e : NumError, (Parse s digits).2 = some (Error.numError e) →
            e.Err = ErrKind.ErrRange)
      ∧ (∀ x : F64, ParseFloat s = (x, none) → x.isNaN = false →
          Parse s digits = (Round x digits, none)) := by
  have hiff : ∀ e : NumError,
      (Parse s digits).2 = some (Error.numError e) ↔ (ParseFloat s).2 = some e := by
    intro e
    unfold Parse
    rcases hpf : ParseFloat s with ⟨x, _ | err⟩
    · by_cases hn : x.isNaN = true <;> simp [hn]
    · simp
  refine ⟨hiff, ?_, ?_, ?_⟩
  · intro e he
    refine ⟨?_, ?_⟩
    · unfold Parse
      rcases hpf : ParseFloat s with ⟨x, _ | err⟩
      · rw [hpf] at he; simp at he
      · rw [hpf] at he
        simp only [Option.some.injEq] at he
        simp [he]
    · unfold ParseFloat at he
      simp only at he
      split at he
      · split at he
        · simp at he
        · simp only [Option.some.injEq] at he
          subst he
          exact ⟨rfl, rfl, Or.inl rfl⟩
      · split at he
        · simp only [Option.some.injEq] at he
          subst he
          exact ⟨rfl, rfl, Or.inl rfl⟩
        · split at he
          · simp only [Option.some.injEq] at he
            subst he
            exact ⟨rfl, rfl, Or.inr rfl⟩
          · simp at he
  · intro hlit e he
    have hpf := (hiff e).mp he
    rcases ParseFloat_literal s hlit with h | ⟨h, _⟩
    · rw [h] at hpf; simp at hpf
    · rw [h] at hpf
      simp only [Option.some.injEq] at hpf
      rw [← hpf]
  · intro x hx hn
    unfold Parse
    rw [hx]
    simp [hn]

/-- C9, at `Parse(".2", 1) = 0.2`, at the malformed text `"1.2.3"`, and at the literal
`"1e999"`, on which the failure is the range error. -/
theorem C9_parse_result_witness :
    Parse ".2" 1 = (f64_0_2, none)
      ∧ Parse "1.2.3" 1
          = (F64.zero false, some (Error.numError ⟨"ParseFloat", "1.2.3", ErrKind.ErrSyntax⟩))
      ∧ Parse ".2" 1 = (Round f64_0_2 1, none)
      ∧ (⟨"ParseFloat", "1e999", ErrKind.ErrRange⟩ : NumError).Err = ErrKind.ErrRange :=
  ⟨by unfold Parse; simp only [Round_lit 1 (by decide) (by decide)]; decide!, by decide!,
    (C9_parse_result ".2" 1).2.2.2 f64_0_2 (by decide!) (by decide!),
    (C9_parse_result "1e999" 1).2.2.1 (by decide!) _ (by decide!)⟩

/-- C9 as stated fails in both directions: `"1e400"` is a scientific-notation literal and
`Parse` fails on it with the primitive's range error; `"Inf"` and the hexadecimal `"0x1p-2"`
are not decimal or scientific-notation literals and `Parse` returns a value for them; `"nan"`
is not such a literal either and `Parse` fails on it with an error that is not the
primitive's. -/
theorem C9_counterexample :
    isDecimalLiteral "1e400" = true
      ∧ Parse "1e400" 2
          = (F64.zero false, some (Error.numError ⟨"ParseFloat", "1e400", ErrKind.ErrRange⟩))
      ∧ isDecimalLiteral "Inf" = false ∧ (Parse "Inf" 2).2 = none
      ∧ isDecimalLiteral "0x1p-2" = false
      ∧ Parse "0x1p-2" 2 = (F64.ofFields false 1021 0, none)
      ∧ isDecimalLiteral "nan" = false
      ∧ Parse "nan" 2 = (F64.zero false, some (Error.errorString "NaN")) :=
  ⟨by decide!, by decide!, by decide!, by decide!, by decide!,
    by unfold Parse; simp only [Round_lit 2 (by decide) (by decide)]; decide!, by decide!,
    by decide!⟩

/-- C10. NaN rejection: whenever the float-parsing primitive lexes `s` to NaN, `Parse(s, k)`
returns the value 0 (not NaN) together with the error `errors.New("NaN")`, which is non-nil and
is not an error of the primitive. -/
theorem C10_nan_rejected (s : String) (digits : Int) (x : F64)
    (hx : ParseFloat s = (x, none)) (hnan : x.isNaN = true) :
    Parse s digits = (F64.zero false, some (Error.errorString "NaN"))
      ∧ (Parse s digits).1.isNaN = false
      ∧ (Parse s digits).2 ≠ none
      ∧ ∀ e : NumError, (Parse s digits).2 ≠ some (Error.numError e) := by
  have h : Parse s digits = (F64.zero false, some (Error.errorString "NaN")) := by
    unfold Parse
    rw [hx]
    simp [hnan]
  rw [h]
  refine ⟨rfl, by decide, by simp, ?_⟩
  intro e
  simp

/-- C10, at `"nan"` (and `"NaN"` lexes to NaN as well). -/
theorem C10_nan_rejected_witness :
    ParseFloat "NaN" = (F64.nan, none)
      ∧ Parse "nan" 3 = (F64.zero false, some (Error.errorString "NaN"))
      ∧ (Parse "nan" 3).1.isNaN = false
      ∧ (Parse "nan" 3).2 ≠ none
      ∧ ∀ e : NumError, (Parse "nan" 3).2 ≠ some (Error.numError e) :=
  ⟨by decide!, C10_nan_rejected "nan" 3 F64.nan (by decide!) (by decide!)⟩

/-- C1 fails on the code: for `x = 262643.83882100467` and `k = 10`, which is below the clamp
bound, `r = Round(x, 10) = 262643.8388210047`, `Format(r, 10) = "262643.8388210048"`, and
`Parse` of that text returns `262643.8388210048`, which differs from `r`. -/
theorem C1_roundtrip_fails :
    f64RoundTripA.isNaN = false
      ∧ F64.lt (clampLimit 10) f64RoundTripA = false
      ∧ Round f64RoundTripA 10 = F64.ofFields false 1041 8587165557946
      ∧ Format (F64.ofFields false 1041 8587165557946) 10 = some "262643.8388210048"
      ∧ Parse "262643.8388210048" 10 = (F64.ofFields false 1041 8587165557947, none)
      ∧ F64.eq (F64.ofFields false 1041 8587165557947)
          (F64.ofFields false 1041 8587165557946) = false :=
  ⟨by decide!, by rw [clampLimit_lit 10 (by decide) (by decide)]; decide!,
    by simp only [Round_lit 10 (by decide) (by decide)]; decide!, by decide!,
    by unfold Parse; simp only [Round_lit 10 (by decide) (by decide)]; decide!,
    by decide!⟩

/-- C2 fails on the code: for `x = 262828.65647708287` and `k = 10`, which is below the clamp
bound, `Format(x, 10) = "262828.6564770829"` and `Parse` of that text returns
`262828.656477083`, while `Round(x, 10) = 262828.6564770829`. -/
theorem C2_parse_format_differs_from_round :
    f64RoundTripB.isNaN = false
      ∧ F64.lt (clampLimit 10) f64RoundTripB = false
      ∧ Format f64RoundTripB 10 = some "262828.6564770829"
      ∧ Parse "262828.6564770829" 10 = (F64.ofFields false 1041 11762308712264, none)
      ∧ Round f64RoundTripB 10 = F64.ofFields false 1041 11762308712263
      ∧ F64.eq (F64.ofFields false 1041 11762308712264)
          (F64.ofFields false 1041 11762308712263) = false :=
  ⟨by decide!, by rw [clampLimit_lit 10 (by decide) (by decide)]; decide!, by decide!,
    by unfold Parse; simp only [Round_lit 10 (by decide) (by decide)]; decide!,
    by simp only [Round_lit 10 (by decide) (by decide)]; decide!, by decide!⟩

/-! ## Sign and precision of the emitted text -/

theorem formatSpec_true (n k : Nat) : formatSpec true n k = 45 :: formatSpec false n k := by
  simp [formatSpec]

theorem not_mem_formatSpec_false (n k : Nat) : 45 ∉ formatSpec false n k := by
  intro h
  simp only [formatSpec, Bool.false_eq_true, if_false, List.nil_append, List.mem_append,
    List.mem_reverse] at h
  rcases h with h | h
  · have := digitBytes_digit _ 45 h
    omega
  · by_cases hf : (lowBytes n k).dropWhile (fun b => b == 48) = []
    · simp [hf] at h
    · simp only [hf, if_false, List.mem_cons, List.mem_reverse] at h
      rcases h with h | h
      · omega
      · have := dropWhile_digit n k 45 h
        omega

theorem formatSpec_ten (neg : Bool) (n k : Nat) :
    formatSpec neg (10 * n) (k + 1) = formatSpec neg n k := by
  have hdiv : 10 * n / 10 ^ (k + 1) = n / 10 ^ k := by
    rw [pow_succ', Nat.mul_div_mul_left _ _ (by decide : 0 < 10)]
  have hlow : (lowBytes (10 * n) (k + 1)).dropWhile (fun b => b == 48)
      = (lowBytes n k).dropWhile (fun b => b == 48) := by
    rw [lowBytes_succ]
    have h1 : 10 * n % 10 = 0 := by omega
    have h2 : 10 * n / 10 = n := by omega
    rw [h1, h2]
    simp [List.dropWhile]
  unfold formatSpec
  rw [hdiv, hlow]

/-- At the smallest int64 the text begins with the sign for every `k ≤ 10`. -/
theorem minInt64_sign (k : Nat) (hk : k ≤ 10) :
    ((formatInt64 (-9223372036854775808) (k : Int)).map bytesToString).map
      (fun s => decide (s.data.head? = some '-')) = some true := by
  interval_cases k <;> decide!

/-- C16. Sign handling: for `k ≤ 10` and every integer `z` with `0 < z < 2^63`, the text
emitted for `-z` is `-` followed by the text emitted for `z`, which contains no `-`; hence, for
every `x` whose scaled rounding fits in int64, `Format(x, k)` begins with `-` if and only if
that scaled rounding is negative. -/
theorem C16_sign_handling (k : Nat) (hk : k ≤ 10) :
    (∀ z : Int, 0 < z → z < 2 ^ 63 →
        ∃ b : List Nat, formatInt64 z (k : Int) = some b
          ∧ formatInt64 (-z) (k : Int) = some (45 :: b) ∧ 45 ∉ b)
      ∧ (∀ (x : F64) (z : Int), scaledRound x (k : Int) = some z → -2 ^ 63 ≤ z → z < 2 ^ 63 →
          ∃ s : String, Format x (k : Int) = some s ∧ (s.data.head? = some '-' ↔ z < 0)) := by
  refine ⟨?_, ?_⟩
  · intro z hz hlt
    have hzn : z = ((z.natAbs : Nat) : Int) := by omega
    have hn : 0 < z.natAbs := by omega
    refine ⟨formatSpec false z.natAbs k, ?_, ?_, not_mem_formatSpec_false _ _⟩
    · have := formatInt64_pos z.natAbs k hn
      rw [← hzn] at this
      exact this
    · have := formatInt64_neg z.natAbs k hn (by rw [← hzn]; exact hlt)
      rw [← hzn, formatSpec_true] at this
      exact this
  · intro x z hz h1 h2
    by_cases hmin : z = -9223372036854775808
    · subst hmin
      have h := scaledInt64_eq x k _ hz h1 h2
      obtain ⟨s, hs, hp⟩ := exists_of_check _ _ (minInt64_sign k hk)
      refine ⟨s, ?_, ?_⟩
      · simp only [Format, doFormat, h]; exact hs
      · simp only [decide_eq_true_eq] at hp
        simp [hp]
    · have habs : |z| < 2 ^ 63 := by
        rw [abs_lt]
        norm_num at h1 h2 ⊢
        omega
      by_cases h0 : z = 0
      · subst h0
        exact ⟨"0", Format_zero x k hz, by decide⟩
      · refine ⟨_, Format_closed x k z hz h0 habs, ?_⟩
        show (outChars _ _ _).head? = some '-' ↔ z < 0
        rw [outChars_eq]
        by_cases hneg : z < 0
        · simp [hneg]
        · simp only [hneg, decide_False, Bool.false_eq_true, if_false, List.nil_append,
            iff_false]
          exact body_head_ne_minus _ _

/-- C16, at `Format(-1, 0) = "-1"` and `Format(-0.19, 1) = "-.2"`. -/
theorem C16_sign_handling_witness :
    Format (F64.ofFields true 1023 0) 0 = some "-1" ∧ Format f64_neg_0_19 1 = some "-.2"
      ∧ (∃ b : List Nat, formatInt64 2 ((1 : Nat) : Int) = some b
          ∧ formatInt64 (-2) ((1 : Nat) : Int) = some (45 :: b) ∧ 45 ∉ b)
      ∧ ∃ s : String, Format f64_neg_0_19 ((1 : Nat) : Int) = some s
          ∧ (s.data.head? = some '-' ↔ (-2 : Int) < 0) :=
  ⟨by decide!, by decide!,
    (C16_sign_handling 1 (by decide)).1 2 (by decide) (by norm_num),
    (C16_sign_handling 1 (by decide)).2 f64_neg_0_19 (-2) (by decide!) (by norm_num)
      (by norm_num)⟩

/-- C18. The text depends only on the value: for every `k` and every integer `z` with
`|10 * z| < 2^63`, the text emitted for the scaled value `10 * z` at `k + 1` digits is the text
emitted for `z` at `k` digits (and both exist). -/
theorem C18_precision_independent (k : Nat) (z : Int) (h : |10 * z| < 2 ^ 63) :
    formatInt64 (10 * z) ((k + 1 : Nat) : Int) = formatInt64 z (k : Int)
      ∧ ∃ b : List Nat, formatInt64 z (k : Int) = some b := by
  have habs := abs_lt.mp h
  obtain ⟨hlo, hhi⟩ := habs
  norm_num at hlo hhi
  by_cases h0 : z = 0
  · subst h0
    exact ⟨rfl, [48], rfl⟩
  · have hn : 0 < z.natAbs := Int.natAbs_pos.mpr h0
    have hn10 : 0 < 10 * z.natAbs := by omega
    have hc10 : (((10 * z.natAbs : Nat)) : Int) = 10 * ((z.natAbs : Nat) : Int) := by
      rw [Nat.cast_mul]; rfl
    by_cases hneg : z < 0
    · have hzn : z = -((z.natAbs : Nat) : Int) := by omega
      have hz10 : 10 * z = -(((10 * z.natAbs : Nat)) : Int) := by rw [hc10]; omega
      have h63 : (2 : Int) ^ 63 = 9223372036854775808 := by norm_num
      have hlt10 : (((10 * z.natAbs : Nat)) : Int) < 2 ^ 63 := by
        rw [hc10, h63]; omega
      have hlt : ((z.natAbs : Nat) : Int) < 2 ^ 63 := by
        rw [h63]; omega
      have e1 := formatInt64_neg (10 * z.natAbs) (k + 1) hn10 hlt10
      have e2 := formatInt64_neg z.natAbs k hn hlt
      rw [← hz10, formatSpec_ten] at e1
      rw [← hzn] at e2
      exact ⟨by rw [e1, e2], _, e2⟩
    · have hzn : z = ((z.natAbs : Nat) : Int) := by omega
      have hz10 : 10 * z = (((10 * z.natAbs : Nat)) : Int) := by rw [hc10]; omega
      have e1 := formatInt64_pos (10 * z.natAbs) (k + 1) hn10
      have e2 := formatInt64_pos z.natAbs k hn
      rw [← hz10, formatSpec_ten] at e1
      rw [← hzn] at e2
      exact ⟨by rw [e1, e2], _, e2⟩

/-- C18, at `Format(1, 0) = Format(1, 1) = Format(1, 5) = "1"` and
`Format(0.1, 1) = Format(0.1, 2) = ".1"`. -/
theorem C18_precision_independent_witness :
    Format f64One 0 = some "1" ∧ Format f64One 1 = some "1" ∧ Format f64One 5 = some "1"
      ∧ Format f64_0_1 1 = some ".1" ∧ Format f64_0_1 2 = some ".1"
      ∧ formatInt64 (10 * 1) ((0 + 1 : Nat) : Int) = formatInt64 1 ((0 : Nat) : Int)
      ∧ ∃ b : List Nat, formatInt64 1 ((0 : Nat) : Int) = some b :=
  ⟨by decide!, by decide!, by decide!, by decide!, by decide!,
    C18_precision_independent 0 1 (by norm_num)⟩

/-! ## Totality of `Format`, and `Write` -/

theorem scanCheck_sound (z : Int) (k : Nat) (h : scanCheck z k = true) : scanInBounds z k := by
  unfold scanCheck at h
  unfold scanInBounds
  cases h1 : digitLoop (z.natAbs + (k : Int).toNat + 2) (k : Int) z 0 [] with
  | none => rw [h1] at h; simp at h
  | some p =>
    obtain ⟨cc, i⟩ := p
    rw [h1] at h
    simp only at h
    cases h2 : trimPlaceholder (k : Int) i cc with
    | none => rw [h2] at h; simp at h
    | some cc2 =>
      rw [h2] at h
      simp only at h
      cases h3 : skipZeros (cc2.length + 1) cc2 0 with
      | none => rw [h3] at h; simp at h
      | some f0 =>
        rw [h3] at h
        simp only [Bool.and_eq_true, decide_eq_true_eq] at h
        exact ⟨cc, i, cc2, f0, rfl, h2, h3, h.1.1, h.1.2, h.2⟩

theorem scanInBounds_natCast (n k : Nat) : scanInBounds (n : Int) k := by
  have hfuel : (n : Int).natAbs + (k : Int).toNat + 2 = n + k + 2 := by simp
  have hlk := length_lowBytes n k
  have hsplit := List.takeWhile_append_dropWhile (fun b => b == 48) (lowBytes n k)
  have hlen := congrArg List.length hsplit
  rw [List.length_append, hlk] at hlen
  refine ⟨_, _, _, _, by rw [hfuel]; exact digitLoop_run n k, trimPlaceholder_run n k,
    skipZeros_run _ _, by omega, ?_, ?_⟩
  · rw [List.get?_eq_getElem?, List.getElem?_append_right (by omega), hlk]
    simp
  · simp only [List.length_append, List.length_cons, hlk]
    split <;> omega

theorem minInt64_scan (k : Nat) (hk : k ≤ 10) :
    scanCheck (wrapInt64 (- -9223372036854775808)) k = true := by
  interval_cases k <;> decide!

theorem toInt64_range (x : F64) :
    -9223372036854775808 ≤ F64.toInt64 x ∧ F64.toInt64 x < 9223372036854775808 := by
  unfold F64.toInt64
  split
  · rename_i h; exact ⟨h.2.1, h.2.2⟩
  · decide

/-- `formatInt64` returns a text for every int64 and every `k ≤ 10`. -/
theorem formatInt64_total (z : Int) (k : Nat) (hk : k ≤ 10)
    (h1 : -9223372036854775808 ≤ z) (h2 : z < 9223372036854775808) :
    (∃ b, formatInt64 z (k : Int) = some b)
      ∧ (z = 0 ∨ scanInBounds (if z < 0 then wrapInt64 (-z) else z) k) := by
  by_cases hmin : z = -9223372036854775808
  · subst hmin
    refine ⟨?_, Or.inr ?_⟩
    · obtain ⟨s, hs, _⟩ := exists_of_check _ _ (minInt64_sign k hk)
      cases hf : formatInt64 (-9223372036854775808) (k : Int) with
      | none => rw [hf] at hs; simp at hs
      | some b => exact ⟨b, rfl⟩
    · rw [if_pos (by decide)]
      exact scanCheck_sound _ _ (minInt64_scan k hk)
  · by_cases h0 : z = 0
    · subst h0; exact ⟨⟨[48], rfl⟩, Or.inl rfl⟩
    · have hn : 0 < z.natAbs := Int.natAbs_pos.mpr h0
      by_cases hneg : z < 0
      · have hzn : z = -((z.natAbs : Nat) : Int) := by omega
        have h63 : (2 : Int) ^ 63 = 9223372036854775808 := by norm_num
        have hlt : ((z.natAbs : Nat) : Int) < 2 ^ 63 := by rw [h63]; omega
        refine ⟨?_, Or.inr ?_⟩
        · have := formatInt64_neg z.natAbs k hn hlt
          rw [← hzn] at this
          exact ⟨_, this⟩
        · rw [if_pos hneg]
          have e : wrapInt64 (-z) = ((z.natAbs : Nat) : Int) := by
            rw [← wrapInt64_of_lt z.natAbs hlt]
            congr 1; omega
          rw [e]
          exact scanInBounds_natCast _ _
      · have hzn : z = ((z.natAbs : Nat) : Int) := by omega
        refine ⟨?_, Or.inr ?_⟩
        · have := formatInt64_pos z.natAbs k hn
          rw [← hzn] at this
          exact ⟨_, this⟩
        · rw [if_neg hneg, hzn]
          exact scanInBounds_natCast _ _

/-- C15. Totality of `Format`: for every finite `x` and `k ≤ 10`, `Format(x, k)` returns a
text; unless the scaled integer is 0 (where `"0"` is returned at once), the digit loop
terminates, the accesses `cc[digits+1]` and `cc[firstNonZero]` are in bounds, and the
zero-skipping scan stops at the latest at the decimal point stored at index `k`. -/
theorem C15_format_total (x : F64) (k : Nat) (hk : k ≤ 10) (hx : x.isFinite = true) :
    (∃ s : String, Format x (k : Int) = some s)
      ∧ (scaledInt64 x (k : Int) = 0
          ∨ scanInBounds (if scaledInt64 x (k : Int) < 0 then wrapInt64 (-scaledInt64 x (k : Int))
              else scaledInt64 x (k : Int)) k) := by
  have hr := toInt64_range (F64.round (F64.mul x (F64.pow10 (k : Int))))
  obtain ⟨⟨b, hb⟩, hscan⟩ := formatInt64_total (scaledInt64 x (k : Int)) k hk hr.1 hr.2
  refine ⟨⟨bytesToString b, ?_⟩, hscan⟩
  simp [Format, doFormat, hb]

/-- C15, at `Format(pi, 5)`. -/
theorem C15_format_total_witness :
    f64Pi.isFinite = true
      ∧ (∃ s : String, Format f64Pi ((5 : Nat) : Int) = some s)
      ∧ (scaledInt64 f64Pi ((5 : Nat) : Int) = 0
          ∨ scanInBounds (if scaledInt64 f64Pi ((5 : Nat) : Int) < 0
              then wrapInt64 (-scaledInt64 f64Pi ((5 : Nat) : Int))
              else scaledInt64 f64Pi ((5 : Nat) : Int)) 5) :=
  ⟨by decide!, C15_format_total f64Pi 5 (by decide) (by decide!)⟩

/-- C14. `Write` agrees with `Format`: when `doFormat(x, k)` yields the bytes `b`, these are
the bytes of `Format(x, k)`, the sink is left in the state of one call `w.Write(b)`, and
`Write` returns the error of that call; a sink that records its calls holds exactly `[b]`
afterwards. `Write` fails in no other way: it panics only if `doFormat` does. -/
theorem C14_write_agrees {σ ε : Type} (w : Writer σ ε) (st : σ) (x : F64) (digits : Int) :
    (∀ b : List Nat, doFormat x digits = some b →
        Format x digits = some (bytesToString b)
          ∧ Write w st x digits = some ((w.Write st b).1, (w.Write st b).2.2)
          ∧ ∀ reply : List Nat → Nat × Option ε,
              Write (logWriter reply) [] x digits = some ([b], (reply b).2))
      ∧ (doFormat x digits = none → Write w st x digits = none) := by
  refine ⟨?_, ?_⟩
  · intro b hb
    refine ⟨by simp [Format, hb], by simp [Write, hb], ?_⟩
    intro reply
    simp [Write, hb, logWriter]
  · intro hb
    simp [Write, hb]

/-- C14, at `Write(w, pi, 2)` on a recording sink that accepts the bytes: one call, with the
bytes of `"3.14"`, and a nil error. -/
theorem C14_write_agrees_witness :
    doFormat f64Pi 2 = some [51, 46, 49, 52] ∧ Format f64Pi 2 = some "3.14"
      ∧ Write (logWriter (fun p => (p.length, (none : Option String)))) [] f64Pi 2
          = some ([[51, 46, 49, 52]], none) :=
  ⟨by decide!, by decide!,
    ((C14_write_agrees (logWriter (fun p => (p.length, (none : Option String)))) [] f64Pi 2).1
      [51, 46, 49, 52] (by decide!)).2.2 (fun p => (p.length, (none : Option String)))⟩

/-- C12 fails on the code: for `x = 262215.02887507237` and `k = 10`, below the clamp bound,
`Round(x, 10) = 262215.0288750724` and `Round(Round(x, 10), 10) = 262215.0288750725`. -/
theorem C12_round_not_idempotent :
    f64RoundTripC.isNaN = false
      ∧ F64.lt (clampLimit 10) f64RoundTripC = false
      ∧ Round f64RoundTripC 10 = F64.ofFields false 1041 1220266782031
      ∧ Round (Round f64RoundTripC 10) 10 = F64.ofFields false 1041 1220266782032
      ∧ F64.eq (Round (Round f64RoundTripC 10) 10) (Round f64RoundTripC 10) = false :=
  ⟨by decide!, by rw [clampLimit_lit 10 (by decide) (by decide)]; decide!,
    by simp only [Round_lit 10 (by decide) (by decide)]; decide!,
    by simp only [Round_lit 10 (by decide) (by decide)]; decide!,
    by simp only [Round_lit 10 (by decide) (by decide)]; decide!⟩

/-! ## Clamping -/

theorem Round_eq_RoundWith (x : F64) (digits : Int) :
    Round x digits = RoundWith (clampLimit digits) x digits := rfl

theorem lt_self (a : F64) : F64.lt a a = false := by
  simp [F64.lt]

theorem key_neg (a : F64) : a.neg.key = -a.key := by
  unfold F64.key F64.neg
  cases a.sign <;> simp

theorem key_nonneg (a : F64) (h : a.sign = false) : 0 ≤ a.key := by
  unfold F64.key
  rw [h]
  simp only [Bool.false_eq_true, if_false]
  positivity

theorem lt_neg_self (a : F64) (h : a.sign = false) : F64.lt a a.neg = false := by
  have h1 := key_neg a
  have h2 := key_nonneg a h
  simp only [F64.lt, Bool.and_eq_false_imp, Bool.and_eq_true, decide_eq_false_iff_not]
  intro _
  omega

theorem lt_neg_neg_self (a : F64) : F64.lt a.neg a.neg = false := lt_self _

/-- Clamping with any positive bound: above the bound the result is that of the bound, below
its negative that of the negated bound. -/
theorem RoundWith_clamp (limit x : F64) (digits : Int) (hs : limit.sign = false) :
    (F64.lt limit x = true → RoundWith limit x digits = RoundWith limit limit digits)
      ∧ (F64.lt x limit.neg = true →
          RoundWith limit x digits = RoundWith limit limit.neg digits) := by
  refine ⟨?_, ?_⟩
  · intro h
    simp only [RoundWith, h, lt_self, lt_neg_self limit hs, if_true, Bool.false_eq_true,
      if_false]
  · intro h
    have h1 : F64.lt limit x = false := by
      have hk := key_neg limit
      have hn := key_nonneg limit hs
      simp only [F64.lt, Bool.and_eq_true, decide_eq_true_eq] at h
      simp only [F64.lt, Bool.and_eq_false_imp, Bool.and_eq_true, decide_eq_false_iff_not]
      intro _
      omega
    simp only [RoundWith, h, h1, lt_self, lt_neg_self limit hs, if_true, Bool.false_eq_true,
      if_false]

theorem clampLimit_sign (k : Nat) (hk : k ≤ 10) : (clampLimit (k : Int)).sign = false := by
  rw [clampLimit_table k hk]
  interval_cases k <;> decide!

theorem Round_neg_limit (k : Nat) (hk : k ≤ 10) :
    Round (clampLimit (k : Int)).neg (k : Int) = (Round (clampLimit (k : Int)) (k : Int)).neg := by
  simp only [Round_table k hk, clampLimit_table k hk]
  interval_cases k <;> decide!

/-- C13, as the code has it. For every `k ≤ 10` and every `x` above the clamp bound `L`
(`+Inf` included), `Round(x, k) = Round(L, k)`: the bound is rounded to `k` digits like any
other argument, so the result is the multiple of `10^-k` next to `L`, not `L` itself. For
`x` below `-L`, `Round(x, k) = Round(-L, k) = -Round(L, k)`. -/
theorem C13_clamp (k : Nat) (hk : k ≤ 10) (x : F64) :
    (F64.lt (clampLimit (k : Int)) x = true →
        Round x (k : Int) = Round (clampLimit (k : Int)) (k : Int))
      ∧ (F64.lt x (clampLimit (k : Int)).neg = true →
          Round x (k : Int) = Round (clampLimit (k : Int)).neg (k : Int)
            ∧ Round x (k : Int) = (Round (clampLimit (k : Int)) (k : Int)).neg) := by
  have h := RoundWith_clamp (clampLimit (k : Int)) x (k : Int) (clampLimit_sign k hk)
  refine ⟨fun hx => ?_, fun hx => ?_⟩
  · rw [Round_eq_RoundWith, h.1 hx, ← Round_eq_RoundWith]
  · have e : Round x (k : Int) = Round (clampLimit (k : Int)).neg (k : Int) := by
      rw [Round_eq_RoundWith, h.2 hx, ← Round_eq_RoundWith]
    exact ⟨e, by rw [e, Round_neg_limit k hk]⟩

/-- C13 holds at `k = 4` for `x = +Inf` and `x = -Inf`. -/
theorem C13_clamp_witness :
    (F64.lt (clampLimit ((4 : Nat) : Int)) (F64.inf false) = true
        ∧ Round (F64.inf false) ((4 : Nat) : Int)
            = Round (clampLimit ((4 : Nat) : Int)) ((4 : Nat) : Int))
      ∧ (F64.lt (F64.inf true) (clampLimit ((4 : Nat) : Int)).neg = true
        ∧ Round (F64.inf true) ((4 : Nat) : Int)
            = Round (clampLimit ((4 : Nat) : Int)).neg ((4 : Nat) : Int)
        ∧ Round (F64.inf true) ((4 : Nat) : Int)
            = (Round (clampLimit ((4 : Nat) : Int)) ((4 : Nat) : Int)).neg) :=
  ⟨⟨by rw [clampLimit_table 4 (by decide)]; decide!,
      (C13_clamp 4 (by decide) (F64.inf false)).1 (by rw [clampLimit_table 4 (by decide)]; decide!)⟩,
    ⟨by rw [clampLimit_table 4 (by decide)]; decide!,
      (C13_clamp 4 (by decide) (F64.inf true)).2 (by rw [clampLimit_table 4 (by decide)]; decide!)⟩⟩

/-- C13 as stated fails at `k = 4`, `x = +Inf`: the clamp bound is `263026799189.53818`
(0x1.e9ecf7a2c44e3p+37) and `Round(+Inf, 4) = 263026799189.5382`, one unit in the last place
above it; `Round(-Inf, 4)` differs from the negated bound in the same way. The same holds if
the bound is taken one or two units in the last place lower. -/
theorem C13_counterexample :
    clampLimit 4 = F64.ofFields false 1060 4115262528472291
      ∧ F64.lt (clampLimit 4) (F64.inf false) = true
      ∧ Round (F64.inf false) 4 = F64.ofFields false 1060 4115262528472292
      ∧ F64.eq (Round (F64.inf false) 4) (clampLimit 4) = false
      ∧ F64.lt (F64.inf true) (clampLimit 4).neg = true
      ∧ F64.eq (Round (F64.inf true) 4) (clampLimit 4).neg = false
      ∧ F64.eq (RoundWith (F64.ofFields false 1060 4115262528472290) (F64.inf false) 4)
          (F64.ofFields false 1060 4115262528472290) = false
      ∧ F64.eq (RoundWith (F64.ofFields false 1060 4115262528472289) (F64.inf false) 4)
          (F64.ofFields false 1060 4115262528472289) = false :=
  ⟨by rw [clampLimit_lit 4 (by decide) (by decide)]; decide!, by rw [clampLimit_lit 4 (by decide) (by decide)]; decide!,
    by simp only [Round_lit 4 (by decide) (by decide)]; decide!,
    by simp only [Round_lit 4 (by decide) (by decide), clampLimit_lit 4 (by decide) (by decide)]; decide!,
    by rw [clampLimit_lit 4 (by decide) (by decide)]; decide!,
    by simp only [Round_lit 4 (by decide) (by decide), clampLimit_lit 4 (by decide) (by decide)]; decide!,
    by decide!, by decide!⟩

/-! ## Correct rounding of `ofRatio` -/

theorem bitLenAux_spec : ∀ (fuel n acc : Nat), n ≤ fuel →
    ∃ b, F64.bitLenAux fuel n acc = acc + b
      ∧ ((n = 0 ∧ b = 0) ∨ (0 < n ∧ n < 2 ^ b ∧ 2 ^ b ≤ 2 * n)) := by
  intro fuel
  induction fuel with
  | zero =>
    intro n acc h
    exact ⟨0, rfl, Or.inl ⟨by omega, rfl⟩⟩
  | succ fuel ih =>
    intro n acc h
    by_cases h0 : n = 0
    · exact ⟨0, by simp [F64.bitLenAux, h0], Or.inl ⟨h0, rfl⟩⟩
    · obtain ⟨b, hb, hs⟩ := ih (n / 2) (acc + 1) (by omega)
      refine ⟨b + 1, ?_, Or.inr ⟨by omega, ?_⟩⟩
      · rw [F64.bitLenAux, if_neg h0, hb]; omega
      · rw [pow_succ]
        rcases hs with ⟨h1, h2⟩ | ⟨h1, h2, h3⟩
        · subst h2; simp; omega
        · omega

theorem bitLen_spec (n : Nat) (hn : 0 < n) :
    n < 2 ^ F64.bitLen n ∧ 2 ^ F64.bitLen n ≤ 2 * n := by
  obtain ⟨b, hb, hs⟩ := bitLenAux_spec n n 0 le_rfl
  have e : F64.bitLen n = b := by rw [F64.bitLen, hb]; omega
  rw [e]
  rcases hs with ⟨h1, _⟩ | ⟨_, h2, h3⟩
  · omega
  · exact ⟨h2, h3⟩

theorem scaleDen_pos (d : Nat) (e : Int) (hd : 0 < d) : 0 < F64.scaleDen d e := by
  unfold F64.scaleDen
  split
  · positivity
  · exact hd

/-- The quotient `scaleNum n e / scaleDen d e` is `n / d / 2 ^ e`. -/
theorem scale_ratio (n d : Nat) (e : Int) (hd : 0 < d) :
    ((F64.scaleNum n e : Nat) : ℚ) / ((F64.scaleDen d e : Nat) : ℚ)
      = (n : ℚ) / (d : ℚ) / (2 : ℚ) ^ e := by
  have hd0 : (d : ℚ) ≠ 0 := by positivity
  unfold F64.scaleNum F64.scaleDen
  by_cases h : 0 ≤ e
  · rw [if_pos h, if_pos h]
    obtain ⟨j, rfl⟩ := Int.eq_ofNat_of_zero_le h
    simp only [Int.toNat_ofNat, Nat.cast_mul, Nat.cast_pow, Nat.cast_ofNat, zpow_natCast]
    field_simp
  · rw [if_neg h, if_neg h]
    obtain ⟨j, hj⟩ := Int.eq_ofNat_of_zero_le (show 0 ≤ -e by omega)
    have he : e = -(j : Int) := by omega
    subst he
    simp only [neg_neg, Int.toNat_ofNat, Nat.cast_mul, Nat.cast_pow, Nat.cast_ofNat, zpow_neg,
      zpow_natCast]
    field_simp

/-- The result of `divNearestEven` is within one half of the quotient. -/
theorem divNearestEven_spec (n d : Nat) (hd : 0 < d) :
    |((F64.divNearestEven n d : Nat) : ℚ) - (n : ℚ) / (d : ℚ)| ≤ 1 / 2 := by
  have hdq : (0 : ℚ) < (d : ℚ) := by exact_mod_cast hd
  have hdiv : ((n : ℚ) / (d : ℚ)) = ((n / d : Nat) : ℚ) + ((n % d : Nat) : ℚ) / (d : ℚ) := by
    have := Nat.div_add_mod n d
    have h2 : (n : ℚ) = (d : ℚ) * ((n / d : Nat) : ℚ) + ((n % d : Nat) : ℚ) := by
      exact_mod_cast this.symm
    field_simp
    linarith
  have hr : n % d < d := Nat.mod_lt n hd
  have hrq : ((n % d : Nat) : ℚ) < (d : ℚ) := by exact_mod_cast hr
  have hr0 : (0 : ℚ) ≤ ((n % d : Nat) : ℚ) := by positivity
  unfold F64.divNearestEven
  simp only
  rw [hdiv]
  split
  · rename_i h
    have h2 : d ≤ 2 * (n % d) := by omega
    have h2q : (d : ℚ) ≤ 2 * ((n % d : Nat) : ℚ) := by exact_mod_cast h2
    rw [Nat.cast_add, Nat.cast_one, abs_le]
    constructor
    · have : ((n % d : Nat) : ℚ) / (d : ℚ) ≤ 1 := by rw [div_le_one hdq]; linarith
      linarith
    · have : (1 : ℚ) / 2 ≤ ((n % d : Nat) : ℚ) / (d : ℚ) := by
        rw [le_div_iff₀ hdq]; linarith
      linarith
  · rename_i h
    have h2 : 2 * (n % d) ≤ d := by omega
    have h2q : 2 * ((n % d : Nat) : ℚ) ≤ (d : ℚ) := by exact_mod_cast h2
    rw [abs_le]
    constructor
    · have : ((n % d : Nat) : ℚ) / (d : ℚ) ≤ 1 / 2 := by
        rw [div_le_iff₀ hdq]; linarith
      linarith
    · have : 0 ≤ ((n % d : Nat) : ℚ) / (d : ℚ) := by positivity
      linarith

theorem ofFields_normal (s : Bool) (E F : Nat) (hE : 0 < E) (hE2 : E < 2047)
    (hF : F < 4503599627370496) :
    (F64.ofFields s E F).isFinite = true ∧ (F64.ofFields s E F).sign = s
      ∧ (F64.ofFields s E F).mant = 4503599627370496 + F
      ∧ (F64.ofFields s E F).exp2 = (E : Int) - 1075
      ∧ (F64.ofFields s E F).expo.val = E ∧ (F64.ofFields s E F).frac.val = F := by
  have h1 : E % 2048 = E := Nat.mod_eq_of_lt (by omega)
  have h2 : F % 4503599627370496 = F := Nat.mod_eq_of_lt hF
  have h3 : E ≠ 0 := by omega
  have h4 : E ≠ 2047 := by omega
  simp [F64.ofFields, F64.isFinite, F64.mant, F64.exp2, h1, h2, h3, h4]

theorem ofFields_subnormal (s : Bool) (F : Nat) (hF : F < 4503599627370496) :
    (F64.ofFields s 0 F).isFinite = true ∧ (F64.ofFields s 0 F).sign = s
      ∧ (F64.ofFields s 0 F).mant = F ∧ (F64.ofFields s 0 F).exp2 = -1074
      ∧ (F64.ofFields s 0 F).expo.val = 0 ∧ (F64.ofFields s 0 F).frac.val = F := by
  have h2 : F % 4503599627370496 = F := Nat.mod_eq_of_lt hF
  simp [F64.ofFields, F64.isFinite, F64.mant, F64.exp2, h2]

theorem floor_ge_iff (N D K : Nat) (hD : 0 < D) :
    K ≤ N / D ↔ (K : ℚ) ≤ (N : ℚ) / (D : ℚ) := by
  have hDq : (0 : ℚ) < (D : ℚ) := by exact_mod_cast hD
  rw [Nat.le_div_iff_mul_le hD, le_div_iff₀ hDq]
  exact_mod_cast Iff.rfl

/-- The binade of a positive ratio, from the bit lengths of numerator and denominator. -/
theorem ratio_binade (n d : Nat) (hn : 0 < n) (hd : 0 < d) :
    (2 : ℚ) ^ ((F64.bitLen n : Int) - (F64.bitLen d : Int) - 1) < (n : ℚ) / (d : ℚ)
      ∧ (n : ℚ) / (d : ℚ) < (2 : ℚ) ^ ((F64.bitLen n : Int) - (F64.bitLen d : Int) + 1) := by
  obtain ⟨hn1, hn2⟩ := bitLen_spec n hn
  obtain ⟨hd1, hd2⟩ := bitLen_spec d hd
  have hdq : (0 : ℚ) < (d : ℚ) := by exact_mod_cast hd
  have h2 : (2 : ℚ) ≠ 0 := two_ne_zero
  have hbnq : (0 : ℚ) < (2 : ℚ) ^ (F64.bitLen n) := by positivity
  have hbdq : (0 : ℚ) < (2 : ℚ) ^ (F64.bitLen d) := by positivity
  have hn1q : (n : ℚ) < (2 : ℚ) ^ (F64.bitLen n) := by exact_mod_cast hn1
  have hn2q : (2 : ℚ) ^ (F64.bitLen n) ≤ 2 * (n : ℚ) := by exact_mod_cast hn2
  have hd1q : (d : ℚ) < (2 : ℚ) ^ (F64.bitLen d) := by exact_mod_cast hd1
  have hd2q : (2 : ℚ) ^ (F64.bitLen d) ≤ 2 * (d : ℚ) := by exact_mod_cast hd2
  constructor
  · rw [sub_sub, zpow_sub₀ h2, zpow_add₀ h2, zpow_natCast, zpow_natCast, zpow_one,
      div_lt_div_iff₀ (by positivity) hdq]
    nlinarith
  · rw [zpow_add₀ h2, zpow_sub₀ h2, zpow_natCast, zpow_natCast, zpow_one,
      div_lt_iff₀ hdq, div_mul_eq_mul_div, div_mul_eq_mul_div, lt_div_iff₀ hbdq]
    nlinarith

/-- The result of `ofRatio` on a positive ratio `q = n / d`: with `e` the exponent of the unit
in the last place (`2 ^ (e + 52) ≤ q < 2 ^ (e + 53)`, or `e = -1074` below the normal range)
and `m` an integer within one half of `q / 2 ^ e`, the result has magnitude `m * 2 ^ e`,
provided it does not overflow. -/
theorem ofRatio_spec (s : Bool) (n d : Nat) (hn : 0 < n) (hd : 0 < d) :
    ∃ (e : Int) (m : Nat), -1074 ≤ e
      ∧ |(m : ℚ) - (n : ℚ) / (d : ℚ) / (2 : ℚ) ^ e| ≤ 1 / 2
      ∧ (n : ℚ) / (d : ℚ) < (2 : ℚ) ^ (e + 53)
      ∧ (-1074 < e → (2 : ℚ) ^ (e + 52) ≤ (n : ℚ) / (d : ℚ))
      ∧ (e ≤ 970 → (F64.ofRatio s n d).isFinite = true ∧ (F64.ofRatio s n d).sign = s
          ∧ (F64.ofRatio s n d).absRat = (m : ℚ) * (2 : ℚ) ^ e) := by
  have h2 : (2 : ℚ) ≠ 0 := two_ne_zero
  have h21 : (1 : ℚ) ≤ 2 := by norm_num
  obtain ⟨hb1, hb2⟩ := ratio_binade n d hn hd
  obtain ⟨e1, he1⟩ : ∃ e1 : Int, e1 = (F64.bitLen n : Int) - (F64.bitLen d : Int) - 53 :=
    ⟨_, rfl⟩
  have hlo1 : (2 : ℚ) ^ (e1 + 52) < (n : ℚ) / (d : ℚ) := by
    have : e1 + 52 = (F64.bitLen n : Int) - (F64.bitLen d : Int) - 1 := by omega
    rw [this]; exact hb1
  have hhi1 : (n : ℚ) / (d : ℚ) < (2 : ℚ) ^ (e1 + 54) := by
    have : e1 + 54 = (F64.bitLen n : Int) - (F64.bitLen d : Int) + 1 := by omega
    rw [this]; exact hb2
  obtain ⟨q1, hq1⟩ : ∃ q1 : Nat, q1 = F64.scaleNum n e1 / F64.scaleDen d e1 := ⟨_, rfl⟩
  have hq1iff : 9007199254740992 ≤ q1 ↔ (2 : ℚ) ^ (e1 + 53) ≤ (n : ℚ) / (d : ℚ) := by
    rw [hq1, floor_ge_iff _ _ _ (scaleDen_pos d e1 hd), scale_ratio n d e1 hd,
      le_div_iff₀ (zpow_pos (by norm_num) e1), add_comm e1 53, zpow_add₀ h2]
    norm_num
  obtain ⟨e2, he2⟩ : ∃ e2 : Int, e2 = if 9007199254740992 ≤ q1 then e1 + 1 else e1 := ⟨_, rfl⟩
  have hlo2 : (2 : ℚ) ^ (e2 + 52) ≤ (n : ℚ) / (d : ℚ) := by
    by_cases hc : 9007199254740992 ≤ q1
    · rw [he2, if_pos hc]
      have : e1 + 1 + 52 = e1 + 53 := by omega
      rw [this]; exact hq1iff.mp hc
    · rw [he2, if_neg hc]; exact hlo1.le
  have hhi2 : (n : ℚ) / (d : ℚ) < (2 : ℚ) ^ (e2 + 53) := by
    by_cases hc : 9007199254740992 ≤ q1
    · rw [he2, if_pos hc]
      have : e1 + 1 + 53 = e1 + 54 := by omega
      rw [this]; exact hhi1
    · rw [he2, if_neg hc]
      exact lt_of_not_le (fun h => hc (hq1iff.mpr h))
  obtain ⟨e3, he3⟩ : ∃ e3 : Int, e3 = max e2 (-1074) := ⟨_, rfl⟩
  have he3a : -1074 ≤ e3 := by rw [he3]; exact le_max_right _ _
  have he3b : e2 ≤ e3 := by rw [he3]; exact le_max_left _ _
  have he3c : -1074 < e3 → e3 = e2 := by
    intro h; rw [he3] at h ⊢; omega
  obtain ⟨m3, hm3⟩ : ∃ m3 : Nat,
      m3 = F64.divNearestEven (F64.scaleNum n e3) (F64.scaleDen d e3) := ⟨_, rfl⟩
  have hm3a : |(m3 : ℚ) - (n : ℚ) / (d : ℚ) / (2 : ℚ) ^ e3| ≤ 1 / 2 := by
    rw [hm3, ← scale_ratio n d e3 hd]
    exact divNearestEven_spec _ _ (scaleDen_pos d e3 hd)
  have hp3 : (0 : ℚ) < (2 : ℚ) ^ e3 := zpow_pos (by norm_num) e3
  have hhi3 : (n : ℚ) / (d : ℚ) < (2 : ℚ) ^ (e3 + 53) :=
    lt_of_lt_of_le hhi2 (zpow_le_zpow_right₀ h21 (by omega))
  have hlo3 : -1074 < e3 → (2 : ℚ) ^ (e3 + 52) ≤ (n : ℚ) / (d : ℚ) := by
    intro h; rw [he3c h]; exact hlo2
  have ht_hi : (n : ℚ) / (d : ℚ) / (2 : ℚ) ^ e3 < 9007199254740992 := by
    rw [div_lt_iff₀ hp3]
    have : (2 : ℚ) ^ (e3 + 53) = 9007199254740992 * (2 : ℚ) ^ e3 := by
      rw [add_comm, zpow_add₀ h2]; norm_num
    rw [← this]; exact hhi3
  have hm3_le : m3 ≤ 9007199254740992 := by
    have h := (abs_le.mp hm3a).2
    have : (m3 : ℚ) < 9007199254740992 + 1 := by linarith
    have : m3 < 9007199254740992 + 1 := by exact_mod_cast this
    omega
  have hm3_ge : -1074 < e3 → 4503599627370496 ≤ m3 := by
    intro h
    have hlo := hlo3 h
    have ht : (4503599627370496 : ℚ) ≤ (n : ℚ) / (d : ℚ) / (2 : ℚ) ^ e3 := by
      rw [le_div_iff₀ hp3]
      have : (2 : ℚ) ^ (e3 + 52) = 4503599627370496 * (2 : ℚ) ^ e3 := by
        rw [add_comm, zpow_add₀ h2]; norm_num
      rw [← this]; exact hlo
    have h := (abs_le.mp hm3a).1
    have : ((4503599627370495 : Nat) : ℚ) < (m3 : ℚ) := by push_cast; linarith
    have : 4503599627370495 < m3 := by exact_mod_cast this
    omega
  refine ⟨e3, m3, he3a, hm3a, hhi3, hlo3, ?_⟩
  intro hle
  have hres : F64.ofRatio s n d =
      if 971 < (if m3 = 9007199254740992 then e3 + 1 else e3) then F64.inf s
      else if (if m3 = 9007199254740992 then 4503599627370496 else m3) < 4503599627370496
        then F64.ofFields s 0 (if m3 = 9007199254740992 then 4503599627370496 else m3)
      else F64.ofFields s ((if m3 = 9007199254740992 then e3 + 1 else e3) + 1075).toNat
        ((if m3 = 9007199254740992 then 4503599627370496 else m3) - 4503599627370496) := by
    rw [hm3, he3, he2, hq1, he1]
    unfold F64.ofRatio
    rw [if_neg (by omega)]
  rw [hres]
  by_cases hc : m3 = 9007199254740992
  · simp only [hc, if_true]
    rw [if_neg (by omega), if_neg (by omega)]
    obtain ⟨a1, a2, a3, a4, _, _⟩ := ofFields_normal s (e3 + 1 + 1075).toNat
      (4503599627370496 - 4503599627370496) (by omega) (by omega) (by omega)
    refine ⟨a1, a2, ?_⟩
    rw [F64.absRat, a3, a4]
    have : (((e3 + 1 + 1075).toNat : Nat) : Int) - 1075 = e3 + 1 := by omega
    rw [this, zpow_add₀ h2]
    norm_num
    ring
  · simp only [hc, if_false]
    rw [if_neg (by omega)]
    by_cases hsub : m3 < 4503599627370496
    · rw [if_pos hsub]
      obtain ⟨a1, a2, a3, a4, _, _⟩ := ofFields_subnormal s m3 hsub
      refine ⟨a1, a2, ?_⟩
      rw [F64.absRat, a3, a4]
      have : e3 = -1074 := by
        by_contra hne
        have := hm3_ge (by omega)
        omega
      rw [this]
    · rw [if_neg hsub]
      obtain ⟨a1, a2, a3, a4, _, _⟩ := ofFields_normal s (e3 + 1075).toNat
        (m3 - 4503599627370496) (by omega) (by omega) (by omega)
      refine ⟨a1, a2, ?_⟩
      rw [F64.absRat, a3, a4]
      have h1 : (((e3 + 1075).toNat : Nat) : Int) - 1075 = e3 := by omega
      have h2 : 4503599627370496 + (m3 - 4503599627370496) = m3 := by omega
      rw [h1, h2]

theorem ofRatio_roundsTo (s : Bool) (n d : Nat) (hd : 0 < d)
    (hq : (n : ℚ) / (d : ℚ) < (2 : ℚ) ^ (1023 : Int)) :
    F64.roundsTo ((n : ℚ) / (d : ℚ)) (F64.ofRatio s n d) ∧ (F64.ofRatio s n d).sign = s := by
  by_cases hn : n = 0
  · subst hn
    have hz : F64.ofRatio s 0 d = F64.ofFields s 0 0 := by simp [F64.ofRatio, F64.zero]
    obtain ⟨a1, a2, a3, a4, _, _⟩ := ofFields_subnormal s 0 (by norm_num)
    rw [hz]
    refine ⟨⟨a1, -1074, 0, le_rfl, by simp, by simp; positivity, fun h => absurd h (lt_irrefl _),
      ?_⟩, a2⟩
    simp [F64.absRat, a3]
  · obtain ⟨e, m, h1, h2, h3, h4, h5⟩ := ofRatio_spec s n d (Nat.pos_of_ne_zero hn) hd
    have he : e ≤ 970 := by
      by_contra hc
      have hpos : -1074 < e := by omega
      have := h4 hpos
      have h6 : (2 : ℚ) ^ (1023 : Int) ≤ (2 : ℚ) ^ (e + 52) :=
        zpow_le_zpow_right₀ (by norm_num) (by omega)
      linarith
    obtain ⟨b1, b2, b3⟩ := h5 he
    exact ⟨⟨b1, e, m, h1, h2, h3, h4, b3⟩, b2⟩

/-- Error of a correct rounding: half a unit in the last place. -/
theorem roundsTo_err (q : ℚ) (r : F64) (h : F64.roundsTo q r) (hq0 : 0 ≤ q) :
    |r.absRat - q| ≤ q / 9007199254740992 + (2 : ℚ) ^ (-1075 : Int)
      ∧ ((2 : ℚ) ^ (-1022 : Int) ≤ q → |r.absRat - q| ≤ q / 9007199254740992) := by
  obtain ⟨_, e, m, h1, h2, h3, h4, h5⟩ := h
  have h20 : (2 : ℚ) ≠ 0 := two_ne_zero
  have hp : (0 : ℚ) < (2 : ℚ) ^ e := zpow_pos (by norm_num) e
  have herr : |r.absRat - q| ≤ (2 : ℚ) ^ e / 2 := by
    rw [h5]
    have : (m : ℚ) * (2 : ℚ) ^ e - q = ((m : ℚ) - q / (2 : ℚ) ^ e) * (2 : ℚ) ^ e := by
      field_simp
    rw [this, abs_mul, abs_of_pos hp]
    calc |(m : ℚ) - q / (2 : ℚ) ^ e| * (2 : ℚ) ^ e ≤ 1 / 2 * (2 : ℚ) ^ e :=
          mul_le_mul_of_nonneg_right h2 hp.le
      _ = (2 : ℚ) ^ e / 2 := by ring
  have hnorm : -1074 < e → (2 : ℚ) ^ e / 2 ≤ q / 9007199254740992 := by
    intro hlt
    have := h4 hlt
    have e1 : (2 : ℚ) ^ (e + 52) = (2 : ℚ) ^ e * 4503599627370496 := by
      rw [zpow_add₀ h20]; norm_num
    rw [e1] at this
    rw [div_le_div_iff₀ (by norm_num) (by norm_num)]
    linarith
  have hsub : e = -1074 → (2 : ℚ) ^ e / 2 = (2 : ℚ) ^ (-1075 : Int) := by
    intro he
    rw [he]
    have : (-1074 : Int) = -1075 + 1 := by norm_num
    rw [this, zpow_add₀ h20]
    simp
  have e1 : (2 : ℚ) ^ (-1022 : Int) = (2 : ℚ) ^ (-1075 : Int) * 9007199254740992 := by
    have : (-1022 : Int) = -1075 + 53 := by norm_num
    rw [this, zpow_add₀ h20]; norm_num
  have hT : (0 : ℚ) < (2 : ℚ) ^ (-1075 : Int) := zpow_pos (by norm_num) _
  rw [e1]
  generalize (2 : ℚ) ^ (-1075 : Int) = T at hsub hT ⊢
  have hq9 : 0 ≤ q / 9007199254740992 := by positivity
  constructor
  · by_cases hc : -1074 < e
    · have := hnorm hc
      linarith
    · have he : e = -1074 := by omega
      rw [hsub he] at herr
      linarith
  · intro hq
    by_cases hc : -1074 < e
    · exact le_trans herr (hnorm hc)
    · have he : e = -1074 := by omega
      rw [hsub he] at herr
      have : T ≤ q / 9007199254740992 := by
        rw [le_div_iff₀ (by norm_num)]
        exact hq
      linarith

/-! ## `math.Round` -/

theorem mask_shift (s : Nat) (hs : s < 52) :
    4503599627370495 >>> s = 2 ^ (52 - s) - 1 := by
  interval_cases s <;> rfl

theorem half_shift (s : Nat) (hs : s < 52) :
    2251799813685248 >>> s = 2 ^ (51 - s) := by
  interval_cases s <;> rfl

theorem pow_split (s : Nat) (hs : s < 52) :
    2 * 2 ^ (51 - s) * 2 ^ s = 4503599627370496 ∧ 2 ^ (52 - s) = 2 * 2 ^ (51 - s) := by
  interval_cases s <;> exact ⟨rfl, rfl⟩

/-- Adding one half and clearing the fraction bits, on the bit pattern `E * 2^52 + f` whose
unit is `2 * h` in the last place of the fraction and `2 * h * w = 2^52`. -/
theorem round_bits_abs (E f h w : Nat) (hh : 0 < h) (huw : 2 * h * w = 4503599627370496)
    (hf : f < 4503599627370496) :
    ∃ N : Nat,
      N * (2 * h) ≤ 4503599627370496 + f + h
        ∧ 4503599627370496 + f + h < N * (2 * h) + 2 * h
        ∧ ((((E * 4503599627370496 + f + h) - (E * 4503599627370496 + f + h) % (2 * h))
                / 4503599627370496 = E
            ∧ 4503599627370496
                + ((E * 4503599627370496 + f + h) - (E * 4503599627370496 + f + h) % (2 * h))
                  % 4503599627370496 = N * (2 * h)
            ∧ N * (2 * h) < 9007199254740992)
          ∨ (((E * 4503599627370496 + f + h) - (E * 4503599627370496 + f + h) % (2 * h))
                / 4503599627370496 = E + 1
            ∧ ((E * 4503599627370496 + f + h) - (E * 4503599627370496 + f + h) % (2 * h))
                % 4503599627370496 = 0
            ∧ N * (2 * h) = 9007199254740992)) := by
  obtain ⟨u, hu⟩ : ∃ u, u = 2 * h := ⟨_, rfl⟩
  rw [← hu] at huw ⊢
  have hupos : 0 < u := by omega
  obtain ⟨N1, hN1⟩ : ∃ N1, N1 = (f + h) / u := ⟨_, rfl⟩
  obtain ⟨p, hp⟩ : ∃ p, p = N1 * u := ⟨_, rfl⟩
  have h1 : p ≤ f + h := by rw [hp, hN1]; exact Nat.div_mul_le_self _ _
  have h2 : f + h < p + u := by rw [hp, hN1]; exact Nat.lt_div_mul_add hupos
  have hmod0 : u * N1 + (f + h) % u = f + h := by rw [hN1]; exact Nat.div_add_mod _ _
  have hpc : u * N1 = p := by rw [hp, Nat.mul_comm]
  have hb1 : (E * 4503599627370496 + f + h) % u = (f + h) % u := by
    have : E * 4503599627370496 + f + h = u * (w * E) + (f + h) := by
      rw [← Nat.mul_assoc, huw]; ring
    rw [this, Nat.mul_add_mod]
  have hw1 : N1 ≤ w := by
    have : N1 * u < (w + 1) * u := by
      have : (w + 1) * u = 4503599627370496 + u := by rw [Nat.add_mul, Nat.mul_comm w u, huw]; ring
      rw [this, ← hp]; omega
    exact Nat.lt_succ_iff.mp (Nat.lt_of_mul_lt_mul_right this)
  have hN : (4503599627370496 + f + h) / u = w + N1 := by
    have : 4503599627370496 + f + h = u * w + (f + h) := by rw [huw]; ring
    rw [this, Nat.mul_add_div hupos, hN1]
  have hNu : (w + N1) * u = 4503599627370496 + p := by
    rw [Nat.add_mul, Nat.mul_comm w u, huw, hp]
  refine ⟨w + N1, by rw [hNu]; omega, by rw [hNu]; omega, ?_⟩
  rw [hb1, hNu]
  have hmod : (f + h) % u = f + h - p := by omega
  rw [hmod]
  rcases Nat.lt_or_ge N1 w with hlt | hge
  · left
    have hpT : p + u ≤ 4503599627370496 := by
      have : (N1 + 1) * u ≤ w * u := Nat.mul_le_mul_right u hlt
      rw [Nat.add_mul, Nat.mul_comm w u, huw, ← hp] at this
      omega
    omega
  · right
    have hNw : N1 = w := by omega
    have hpT : p = 4503599627370496 := by rw [hp, hNw, Nat.mul_comm, huw]
    omega

theorem ofFields_fields (s : Bool) (E F : Nat) (hE : E < 2047) :
    (F64.ofFields s E F).isFinite = true ∧ (F64.ofFields s E F).sign = s
      ∧ (F64.ofFields s E F).expo.val = E
      ∧ (F64.ofFields s E F).frac.val = F % 4503599627370496 := by
  have h1 : E % 2048 = E := Nat.mod_eq_of_lt (by omega)
  have h4 : E ≠ 2047 := by omega
  simp [F64.ofFields, F64.isFinite, h1, h4]

theorem absRat_normal (x : F64) (h : x.expo.val ≠ 0) :
    x.absRat = ((4503599627370496 + x.frac.val : Nat) : ℚ)
      * (2 : ℚ) ^ ((x.expo.val : Int) - 1075) := by
  simp [F64.absRat, F64.mant, F64.exp2, h]

theorem absRat_subnormal (x : F64) (h : x.expo.val = 0) :
    x.absRat = ((x.frac.val : Nat) : ℚ) * (2 : ℚ) ^ (-1074 : Int) := by
  simp [F64.absRat, F64.mant, F64.exp2, h]

theorem absRat_nonneg (x : F64) : 0 ≤ x.absRat := by
  unfold F64.absRat
  have : (0 : ℚ) < (2 : ℚ) ^ x.exp2 := zpow_pos (by norm_num) _
  positivity

/-- A float64 with biased exponent at most `E` lies below `2 ^ (E - 1022)`. -/
theorem absRat_lt_of_expo (x : F64) (E : Nat) (hE : x.expo.val ≤ E) (hE1 : 1 ≤ E) :
    x.absRat < (2 : ℚ) ^ ((E : Int) - 1022) := by
  have h20 : (2 : ℚ) ≠ 0 := two_ne_zero
  have hf := x.frac.isLt
  have key : ∀ (m : Nat) (j : Int), m < 9007199254740992 → j ≤ (E : Int) - 1075 →
      (m : ℚ) * (2 : ℚ) ^ j < (2 : ℚ) ^ ((E : Int) - 1022) := by
    intro m j hm hj
    have hp : (0 : ℚ) < (2 : ℚ) ^ j := zpow_pos (by norm_num) _
    have hmq : (m : ℚ) < 9007199254740992 := by exact_mod_cast hm
    have e1 : (2 : ℚ) ^ ((E : Int) - 1022) = 9007199254740992 * (2 : ℚ) ^ ((E : Int) - 1075) := by
      have : (E : Int) - 1022 = 53 + ((E : Int) - 1075) := by ring
      rw [this, zpow_add₀ h20]; norm_num
    rw [e1]
    calc (m : ℚ) * (2 : ℚ) ^ j < 9007199254740992 * (2 : ℚ) ^ j :=
          mul_lt_mul_of_pos_right hmq hp
      _ ≤ 9007199254740992 * (2 : ℚ) ^ ((E : Int) - 1075) :=
          mul_le_mul_of_nonneg_left (zpow_le_zpow_right₀ (by norm_num) hj) (by norm_num)
  by_cases h0 : x.expo.val = 0
  · rw [absRat_subnormal x h0]
    exact key _ _ (by omega) (by omega)
  · rw [absRat_normal x h0]
    exact key _ _ (by omega) (by omega)

/-- A normal float64 with biased exponent `E` is at least `2 ^ (E - 1023)`. -/
theorem absRat_ge_of_expo (x : F64) (h0 : x.expo.val ≠ 0) :
    (2 : ℚ) ^ ((x.expo.val : Int) - 1023) ≤ x.absRat := by
  have h20 : (2 : ℚ) ≠ 0 := two_ne_zero
  rw [absRat_normal x h0]
  have e1 : (2 : ℚ) ^ ((x.expo.val : Int) - 1023)
      = 4503599627370496 * (2 : ℚ) ^ ((x.expo.val : Int) - 1075) := by
    have : (x.expo.val : Int) - 1023 = 52 + ((x.expo.val : Int) - 1075) := by ring
    rw [this, zpow_add₀ h20]; norm_num
  rw [e1]
  have hp : (0 : ℚ) < (2 : ℚ) ^ ((x.expo.val : Int) - 1075) := zpow_pos (by norm_num) _
  apply mul_le_mul_of_nonneg_right _ hp.le
  push_cast
  have : (0 : ℚ) ≤ (x.frac.val : ℚ) := by positivity
  linarith

/-- Go `math.Round` on a finite float64 returns the integer nearest to it, halves away from zero:
the magnitude of the result is the natural number `N` with `N ≤ |x| + 1/2 < N + 1`. -/
theorem round_spec (x : F64) (hfin : x.isFinite = true) :
    ∃ N : Nat, (F64.round x).isFinite = true ∧ (F64.round x).sign = x.sign
      ∧ (F64.round x).absRat = (N : ℚ)
      ∧ (N : ℚ) ≤ x.absRat + 1 / 2 ∧ x.absRat + 1 / 2 < (N : ℚ) + 1 := by
  have h20 : (2 : ℚ) ≠ 0 := two_ne_zero
  have hf := x.frac.isLt
  have he : x.expo.val < 2047 := by
    have := x.expo.isLt
    simp only [F64.isFinite, bne_iff_ne, ne_eq] at hfin
    omega
  have hnn := absRat_nonneg x
  by_cases hA : x.expo.val < 1023
  · by_cases hB : x.expo.val = 1022
    · have hr : F64.round x = F64.ofFields x.sign 1023 0 := by
        simp [F64.round, hB]
      obtain ⟨a1, a2, a3, a4⟩ := ofFields_fields x.sign 1023 0 (by norm_num)
      have hval : (F64.round x).absRat = 1 := by
        rw [hr, absRat_normal _ (by rw [a3]; norm_num), a3, a4]
        norm_num
      have hlt := absRat_lt_of_expo x 1022 (by omega) (by norm_num)
      have hge := absRat_ge_of_expo x (by omega)
      rw [hB] at hge
      have e1 : (2 : ℚ) ^ (((1022 : Nat) : Int) - 1022) = 1 := by norm_num
      have e2 : (2 : ℚ) ^ (((1022 : Nat) : Int) - 1023) = 1 / 2 := by norm_num
      rw [e1] at hlt
      rw [e2] at hge
      refine ⟨1, by rw [hr]; exact a1, by rw [hr]; exact a2, by rw [hval]; norm_num, ?_, ?_⟩
      · push_cast; linarith
      · push_cast; linarith
    · have hr : F64.round x = F64.ofFields x.sign 0 0 := by
        simp [F64.round, hA, hB]
      obtain ⟨a1, a2, a3, a4⟩ := ofFields_fields x.sign 0 0 (by norm_num)
      have hval : (F64.round x).absRat = 0 := by
        rw [hr, absRat_subnormal _ a3, a4]
        norm_num
      have hlt := absRat_lt_of_expo x 1021 (by omega) (by norm_num)
      have e1 : (2 : ℚ) ^ (((1021 : Nat) : Int) - 1022) = 1 / 2 := by norm_num
      rw [e1] at hlt
      refine ⟨0, by rw [hr]; exact a1, by rw [hr]; exact a2, by rw [hval]; norm_num, ?_, ?_⟩
      · push_cast; linarith
      · push_cast; linarith
  · by_cases hC : x.expo.val < 1075
    · obtain ⟨s, hs⟩ : ∃ s, s = x.expo.val - 1023 := ⟨_, rfl⟩
      have hs52 : s < 52 := by omega
      obtain ⟨hp1, hp2⟩ := pow_split s hs52
      obtain ⟨N, hN1, hN2, hN3⟩ := round_bits_abs x.expo.val x.frac.val (2 ^ (51 - s)) (2 ^ s)
        (by positivity) hp1 hf
      have hr : F64.round x = F64.ofFields x.sign
          (((x.expo.val * 4503599627370496 + x.frac.val + 2 ^ (51 - s))
            - (x.expo.val * 4503599627370496 + x.frac.val + 2 ^ (51 - s)) % (2 * 2 ^ (51 - s)))
              / 4503599627370496)
          ((x.expo.val * 4503599627370496 + x.frac.val + 2 ^ (51 - s))
            - (x.expo.val * 4503599627370496 + x.frac.val + 2 ^ (51 - s)) % (2 * 2 ^ (51 - s))) := by
        unfold F64.round F64.magBits
        simp only [if_neg hA, if_pos hC]
        rw [← hs, mask_shift s hs52, half_shift s hs52,
          Nat.and_pow_two_sub_one_eq_mod _ (52 - s), hp2]
      -- the unit of the integers in the last place of `x`
      have hc : (2 : ℚ) ^ ((x.expo.val : Int) - 1075) * ((2 * 2 ^ (51 - s) : Nat) : ℚ) = 1 := by
        rw [← hp2]
        have : (x.expo.val : Int) - 1075 = -((52 - s : Nat) : Int) := by omega
        rw [this, zpow_neg, zpow_natCast]
        push_cast
        exact inv_mul_cancel₀ (by positivity)
      obtain ⟨c, hcdef⟩ : ∃ c : ℚ, c = (2 : ℚ) ^ ((x.expo.val : Int) - 1075) := ⟨_, rfl⟩
      obtain ⟨u, hudef⟩ : ∃ u : Nat, u = 2 * 2 ^ (51 - s) := ⟨_, rfl⟩
      rw [← hcdef, ← hudef] at hc
      rw [← hudef] at hN1 hN2 hN3 hr
      have hcpos : 0 < c := by rw [hcdef]; exact zpow_pos (by norm_num) _
      have hupos : (0 : ℚ) < (u : ℚ) := by
        have : 0 < u := by rw [hudef]; positivity
        exact_mod_cast this
      have hxa : x.absRat = ((4503599627370496 + x.frac.val : Nat) : ℚ) * c := by
        rw [absRat_normal x (by omega), hcdef]
      have hNu : ((N * u : Nat) : ℚ) * c = (N : ℚ) := by
        push_cast
        rw [mul_assoc, mul_comm (u : ℚ) c, hc, mul_one]
      have hhalf : ((2 ^ (51 - s) : Nat) : ℚ) * c = 1 / 2 := by
        have : ((u : Nat) : ℚ) = 2 * ((2 ^ (51 - s) : Nat) : ℚ) := by
          rw [hudef]; push_cast; ring
        rw [this] at hc
        linarith
      have hub : ((u : Nat) : ℚ) * c = 1 := by rw [mul_comm]; exact hc
      have hle : (N : ℚ) ≤ x.absRat + 1 / 2 := by
        have h1 : ((N * u : Nat) : ℚ) ≤ ((4503599627370496 + x.frac.val + 2 ^ (51 - s) : Nat) : ℚ) := by
          exact_mod_cast hN1
        have h2 := mul_le_mul_of_nonneg_right h1 hcpos.le
        rw [hNu] at h2
        rw [hxa, ← hhalf, ← add_mul]
        calc (N : ℚ) ≤ _ := h2
          _ = _ := by push_cast; ring
      have hlt : x.absRat + 1 / 2 < (N : ℚ) + 1 := by
        have h1 : ((4503599627370496 + x.frac.val + 2 ^ (51 - s) : Nat) : ℚ)
            < ((N * u + u : Nat) : ℚ) := by
          exact_mod_cast hN2
        have h2 := mul_lt_mul_of_pos_right h1 hcpos
        rw [hxa, ← hhalf, ← add_mul]
        calc _ = ((4503599627370496 + x.frac.val + 2 ^ (51 - s) : Nat) : ℚ) * c := by
              push_cast; ring
          _ < ((N * u + u : Nat) : ℚ) * c := h2
          _ = (N : ℚ) + 1 := by
              rw [Nat.cast_add, add_mul, hNu, hub]
      rcases hN3 with ⟨b1, b2, b3⟩ | ⟨b1, b2, b3⟩
      · obtain ⟨a1, a2, a3, a4⟩ := ofFields_fields x.sign _
          ((x.expo.val * 4503599627370496 + x.frac.val + 2 ^ (51 - s))
            - (x.expo.val * 4503599627370496 + x.frac.val + 2 ^ (51 - s)) % u)
          (show ((x.expo.val * 4503599627370496 + x.frac.val + 2 ^ (51 - s))
            - (x.expo.val * 4503599627370496 + x.frac.val + 2 ^ (51 - s)) % u)
              / 4503599627370496 < 2047 by rw [b1]; exact he)
        rw [← hr] at a1 a2 a3 a4
        rw [b1] at a3
        refine ⟨N, a1, a2, ?_, hle, hlt⟩
        rw [absRat_normal _ (by rw [a3]; omega), a3, a4, b2, ← hcdef, hNu]
      · obtain ⟨a1, a2, a3, a4⟩ := ofFields_fields x.sign _
          ((x.expo.val * 4503599627370496 + x.frac.val + 2 ^ (51 - s))
            - (x.expo.val * 4503599627370496 + x.frac.val + 2 ^ (51 - s)) % u)
          (show ((x.expo.val * 4503599627370496 + x.frac.val + 2 ^ (51 - s))
            - (x.expo.val * 4503599627370496 + x.frac.val + 2 ^ (51 - s)) % u)
              / 4503599627370496 < 2047 by rw [b1]; omega)
        rw [← hr] at a1 a2 a3 a4
        rw [b1] at a3
        rw [b2] at a4
        refine ⟨N, a1, a2, ?_, hle, hlt⟩
        rw [absRat_normal _ (by rw [a3]; omega), a3, a4]
        have e1 : (((x.expo.val + 1 : Nat) : Int) - 1075) = 1 + ((x.expo.val : Int) - 1075) := by
          push_cast; ring
        rw [e1, zpow_add₀ h20, ← hcdef, ← hNu, b3]
        norm_num
        ring
    · have hr : F64.round x = x := by
        simp [F64.round, hA, hC]
      rw [hr]
      refine ⟨(4503599627370496 + x.frac.val) * 2 ^ (x.expo.val - 1075), hfin, rfl, ?_, ?_, ?_⟩
      · rw [absRat_normal x (by omega)]
        have : (x.expo.val : Int) - 1075 = ((x.expo.val - 1075 : Nat) : Int) := by omega
        rw [this, zpow_natCast]
        push_cast
        ring
      · rw [absRat_normal x (by omega)]
        have : (x.expo.val : Int) - 1075 = ((x.expo.val - 1075 : Nat) : Int) := by omega
        rw [this, zpow_natCast]
        push_cast
        linarith
      · rw [absRat_normal x (by omega)]
        have : (x.expo.val : Int) - 1075 = ((x.expo.val - 1075 : Nat) : Int) := by omega
        rw [this, zpow_natCast]
        push_cast
        linarith

/-! ## Order, conversion to an integer, product and quotient -/

theorem absRat_mono (x y : F64) (hy : y.isFinite = true) (h : x.magBits ≤ y.magBits) :
    x.isFinite = true ∧ x.absRat ≤ y.absRat := by
  have hfx := x.frac.isLt
  have hfy := y.frac.isLt
  have hey : y.expo.val < 2047 := by
    have := y.expo.isLt
    simp only [F64.isFinite, bne_iff_ne, ne_eq] at hy
    omega
  unfold F64.magBits at h
  have hle : x.expo.val ≤ y.expo.val := by omega
  refine ⟨by simp only [F64.isFinite, bne_iff_ne, ne_eq]; omega, ?_⟩
  rcases Nat.lt_or_ge x.expo.val y.expo.val with hlt | hge
  · have hy0 : y.expo.val ≠ 0 := by omega
    have h2 := absRat_ge_of_expo y hy0
    have hmono : ∀ j : Int, j ≤ (y.expo.val : Int) - 1023 →
        (2 : ℚ) ^ j ≤ (2 : ℚ) ^ ((y.expo.val : Int) - 1023) :=
      fun j hj => zpow_le_zpow_right₀ (by norm_num) hj
    by_cases hx0 : x.expo.val = 0
    · have h1 := absRat_lt_of_expo x 1 (by omega) le_rfl
      have h3 : x.absRat < (2 : ℚ) ^ (-1022 : Int) := by
        rw [absRat_subnormal x hx0]
        have e1 : (2 : ℚ) ^ (-1022 : Int) = 4503599627370496 * (2 : ℚ) ^ (-1074 : Int) := by
          have : (-1022 : Int) = 52 + -1074 := by norm_num
          rw [this, zpow_add₀ two_ne_zero]; norm_num
        rw [e1]
        have : ((x.frac.val : Nat) : ℚ) < 4503599627370496 := by exact_mod_cast hfx
        exact mul_lt_mul_of_pos_right this (zpow_pos (by norm_num) _)
      have := hmono (-1022) (by omega)
      linarith
    · have h1 := absRat_lt_of_expo x x.expo.val le_rfl (by omega)
      have := hmono ((x.expo.val : Int) - 1022) (by omega)
      linarith
  · have heq : x.expo.val = y.expo.val := by omega
    have hf : x.frac.val ≤ y.frac.val := by omega
    have hfq : ((x.frac.val : Nat) : ℚ) ≤ ((y.frac.val : Nat) : ℚ) := by exact_mod_cast hf
    by_cases hx0 : x.expo.val = 0
    · rw [absRat_subnormal x hx0, absRat_subnormal y (by omega)]
      exact mul_le_mul_of_nonneg_right hfq (zpow_pos (by norm_num) _).le
    · rw [absRat_normal x hx0, absRat_normal y (by omega), heq]
      apply mul_le_mul_of_nonneg_right _ (zpow_pos (by norm_num) _).le
      push_cast
      linarith

theorem key_eq (x : F64) : x.key = if x.sign then -(x.magBits : Int) else (x.magBits : Int) := by
  simp [F64.key, F64.magBits]

/-- A non-NaN `x` that the clamp leaves alone is finite and no larger in magnitude than the
bound. -/
theorem within_limit (limit x : F64) (hl : limit.isFinite = true) (hs : limit.sign = false)
    (hnan : x.isNaN = false) (h1 : F64.lt limit x = false) (h2 : F64.lt x limit.neg = false) :
    x.isFinite = true ∧ x.absRat ≤ limit.absRat := by
  have hln : limit.isNaN = false := by
    simp only [F64.isFinite, bne_iff_ne, ne_eq] at hl
    simp [F64.isNaN, hl]
  have hln2 : limit.neg.isNaN = false := by
    simp only [F64.isFinite, bne_iff_ne, ne_eq] at hl
    simp [F64.isNaN, F64.neg, hl]
  have hk1 := key_eq x
  have hk2 := key_eq limit
  have hk3 := key_neg limit
  rw [hs] at hk2
  simp only [Bool.false_eq_true, if_false] at hk2
  simp only [F64.lt, hnan, hln, hln2, Bool.not_false, Bool.true_and, decide_eq_false_iff_not,
    not_lt] at h1 h2
  apply absRat_mono x limit hl
  cases hsx : x.sign <;> rw [hsx] at hk1 <;> simp only [Bool.false_eq_true, if_false, if_true] at hk1
    <;> omega

/-- The value of `truncInt` on a float64 whose value is the integer `± N`. -/
theorem truncInt_of_nat (x : F64) (N : Nat) (h : x.absRat = (N : ℚ)) :
    x.truncInt = if x.sign then -(N : Int) else (N : Int) := by
  have hr := scale_ratio x.mant 1 (-x.exp2) Nat.one_pos
  have hd := scaleDen_pos 1 (-x.exp2) Nat.one_pos
  have hdq : (0 : ℚ) < ((F64.scaleDen 1 (-x.exp2) : Nat) : ℚ) := by exact_mod_cast hd
  have hq : ((F64.scaleNum x.mant (-x.exp2) : Nat) : ℚ)
      = ((N * F64.scaleDen 1 (-x.exp2) : Nat) : ℚ) := by
    have : ((F64.scaleNum x.mant (-x.exp2) : Nat) : ℚ) / ((F64.scaleDen 1 (-x.exp2) : Nat) : ℚ)
        = (N : ℚ) := by
      rw [hr, ← h, F64.absRat, zpow_neg]
      simp
    rw [div_eq_iff hdq.ne'] at this
    rw [this]
    push_cast
    ring
  have hn : F64.scaleNum x.mant (-x.exp2) = N * F64.scaleDen 1 (-x.exp2) := by exact_mod_cast hq
  have ha : F64.scaleNum x.mant (-x.exp2) / F64.scaleDen 1 (-x.exp2) = N := by
    rw [hn]; exact Nat.mul_div_cancel _ hd
  unfold F64.truncInt
  simp only [ha]

theorem finite_flags (x : F64) (h : x.isFinite = true) : x.isNaN = false ∧ x.isInf = false := by
  simp only [F64.isFinite, bne_iff_ne, ne_eq] at h
  simp [F64.isNaN, F64.isInf, h]

/-- The float64 product of finite factors is a correct rounding of the exact product. -/
theorem mul_spec (x y : F64) (hx : x.isFinite = true) (hy : y.isFinite = true)
    (hq : x.absRat * y.absRat < (2 : ℚ) ^ (1023 : Int)) :
    F64.roundsTo (x.absRat * y.absRat) (F64.mul x y)
      ∧ (F64.mul x y).sign = xor x.sign y.sign := by
  obtain ⟨hx1, hx2⟩ := finite_flags x hx
  obtain ⟨hy1, hy2⟩ := finite_flags y hy
  have hm : F64.mul x y = F64.ofRatio (xor x.sign y.sign)
      (F64.scaleNum (x.mant * y.mant) (-(x.exp2 + y.exp2)))
      (F64.scaleDen 1 (-(x.exp2 + y.exp2))) := by
    simp [F64.mul, hx1, hx2, hy1, hy2]
  have hr := scale_ratio (x.mant * y.mant) 1 (-(x.exp2 + y.exp2)) Nat.one_pos
  have hval : ((F64.scaleNum (x.mant * y.mant) (-(x.exp2 + y.exp2)) : Nat) : ℚ)
      / ((F64.scaleDen 1 (-(x.exp2 + y.exp2)) : Nat) : ℚ) = x.absRat * y.absRat := by
    rw [hr, F64.absRat, F64.absRat, zpow_neg, zpow_add₀ two_ne_zero]
    push_cast
    field_simp
    ring
  have := ofRatio_roundsTo (xor x.sign y.sign) _ _
    (scaleDen_pos 1 (-(x.exp2 + y.exp2)) Nat.one_pos) (by rw [hval]; exact hq)
  rw [hval, ← hm] at this
  exact this

theorem mant_pos (y : F64) (hy : y.isZero = false) : 0 < y.mant := by
  unfold F64.mant
  simp only [F64.isZero, Bool.and_eq_false_imp, beq_iff_eq, beq_eq_false_iff_ne] at hy
  split
  · rename_i h
    exact Nat.pos_of_ne_zero (hy h)
  · omega

theorem absRat_pos (y : F64) (hy : y.isZero = false) : 0 < y.absRat := by
  have := mant_pos y hy
  have hq : (0 : ℚ) < (y.mant : ℚ) := by exact_mod_cast this
  exact mul_pos hq (zpow_pos (by norm_num) _)

/-- The float64 quotient of finite operands, the divisor not zero, is a correct rounding of
the exact quotient. -/
theorem div_spec (x y : F64) (hx : x.isFinite = true) (hy : y.isFinite = true)
    (hy0 : y.isZero = false) (hq : x.absRat / y.absRat < (2 : ℚ) ^ (1023 : Int)) :
    F64.roundsTo (x.absRat / y.absRat) (F64.div x y)
      ∧ (F64.div x y).sign = xor x.sign y.sign := by
  obtain ⟨hx1, hx2⟩ := finite_flags x hx
  obtain ⟨hy1, hy2⟩ := finite_flags y hy
  have hm : F64.div x y = F64.ofRatio (xor x.sign y.sign)
      (F64.scaleNum x.mant (-(x.exp2 - y.exp2)))
      (F64.scaleDen y.mant (-(x.exp2 - y.exp2))) := by
    simp [F64.div, hx1, hx2, hy1, hy2, hy0]
  have hmp := mant_pos y hy0
  have hmq : (y.mant : ℚ) ≠ 0 := by positivity
  have hr := scale_ratio x.mant y.mant (-(x.exp2 - y.exp2)) hmp
  have hval : ((F64.scaleNum x.mant (-(x.exp2 - y.exp2)) : Nat) : ℚ)
      / ((F64.scaleDen y.mant (-(x.exp2 - y.exp2)) : Nat) : ℚ) = x.absRat / y.absRat := by
    rw [hr, F64.absRat, F64.absRat, zpow_neg, zpow_sub₀ two_ne_zero]
    have : (2 : ℚ) ^ y.exp2 ≠ 0 := (zpow_pos (by norm_num) _).ne'
    have : (2 : ℚ) ^ x.exp2 ≠ 0 := (zpow_pos (by norm_num) _).ne'
    field_simp
  have := ofRatio_roundsTo (xor x.sign y.sign) _ _
    (scaleDen_pos y.mant (-(x.exp2 - y.exp2)) hmp) (by rw [hval]; exact hq)
  rw [hval, ← hm] at this
  exact this

/-! ## The scaled integer of an argument within the clamp bound -/

theorem pow10_fields (k : Nat) (hk : k ≤ 10) :
    (F64.pow10 (k : Int)).isFinite = true ∧ (F64.pow10 (k : Int)).sign = false
      ∧ (F64.pow10 (k : Int)).isZero = false ∧ (F64.pow10 (k : Int)).exp2 ≤ 0
      ∧ (F64.pow10 (k : Int)).mant = 10 ^ k * 2 ^ (-(F64.pow10 (k : Int)).exp2).toNat := by
  interval_cases k <;> decide!

theorem absRat_of_fields (x : F64) (c : Nat) (h1 : x.exp2 ≤ 0)
    (h2 : x.mant = c * 2 ^ (-x.exp2).toNat) : x.absRat = (c : ℚ) := by
  obtain ⟨j, hj⟩ := Int.eq_ofNat_of_zero_le (show 0 ≤ -x.exp2 by omega)
  have he : x.exp2 = -(j : Int) := by omega
  rw [hj] at h2
  simp only [Int.toNat_ofNat] at h2
  rw [F64.absRat, h2, he, zpow_neg, zpow_natCast]
  push_cast
  field_simp

theorem pow10_facts (k : Nat) (hk : k ≤ 10) :
    (F64.pow10 (k : Int)).isFinite = true ∧ (F64.pow10 (k : Int)).sign = false
      ∧ (F64.pow10 (k : Int)).isZero = false
      ∧ (F64.pow10 (k : Int)).absRat = (10 : ℚ) ^ k := by
  obtain ⟨a1, a2, a3, a4, a5⟩ := pow10_fields k hk
  refine ⟨a1, a2, a3, ?_⟩
  rw [absRat_of_fields _ (10 ^ k) a4 a5]
  push_cast
  rfl

theorem clampLimit_fields (k : Nat) (hk : k ≤ 10) :
    (clampLimit (k : Int)).isFinite = true ∧ (clampLimit (k : Int)).sign = false
      ∧ (clampLimit (k : Int)).exp2 ≤ 0
      ∧ (clampLimit (k : Int)).mant * 10 ^ k
          < 4503599627370496 * 2 ^ (-(clampLimit (k : Int)).exp2).toNat := by
  rw [clampLimit_table k hk]
  interval_cases k <;> decide!

/-- The clamp bound times `10 ^ k` stays below `2 ^ 52`. -/
theorem clampLimit_facts (k : Nat) (hk : k ≤ 10) :
    (clampLimit (k : Int)).isFinite = true ∧ (clampLimit (k : Int)).sign = false
      ∧ (clampLimit (k : Int)).absRat * (10 : ℚ) ^ k < 4503599627370496 := by
  obtain ⟨a1, a2, a3, a4⟩ := clampLimit_fields k hk
  refine ⟨a1, a2, ?_⟩
  obtain ⟨j, hj⟩ := Int.eq_ofNat_of_zero_le (show 0 ≤ -(clampLimit (k : Int)).exp2 by omega)
  have he : (clampLimit (k : Int)).exp2 = -(j : Int) := by omega
  rw [hj] at a4
  simp only [Int.toNat_ofNat] at a4
  have hq : (((clampLimit (k : Int)).mant * 10 ^ k : Nat) : ℚ)
      < ((4503599627370496 * 2 ^ j : Nat) : ℚ) := by exact_mod_cast a4
  push_cast at hq
  rw [F64.absRat, he, zpow_neg, zpow_natCast]
  have hp : (0 : ℚ) < (2 : ℚ) ^ j := by positivity
  calc ((clampLimit (k : Int)).mant : ℚ) * ((2 : ℚ) ^ j)⁻¹ * (10 : ℚ) ^ k
      = ((clampLimit (k : Int)).mant : ℚ) * (10 : ℚ) ^ k / (2 : ℚ) ^ j := by field_simp
    _ < 4503599627370496 := by rw [div_lt_iff₀ hp]; exact hq

theorem toRat_eq (x : F64) : x.toRat = if x.sign then -x.absRat else x.absRat := by
  unfold F64.toRat F64.absRat
  cases x.sign <;> simp

theorem abs_toRat (x : F64) : |x.toRat| = x.absRat := by
  rw [toRat_eq]
  have := absRat_nonneg x
  cases x.sign
  · simp only [Bool.false_eq_true, if_false]; exact abs_of_nonneg this
  · simp only [if_true]; rw [abs_neg]; exact abs_of_nonneg this

theorem tiny_le : (2 : ℚ) ^ (-1075 : Int) ≤ 1 / 18014398509481984 := by
  have h : (2 : ℚ) ^ (-1075 : Int) ≤ (2 : ℚ) ^ (-54 : Int) :=
    zpow_le_zpow_right₀ (by norm_num) (by norm_num)
  have e : (2 : ℚ) ^ (-54 : Int) = 1 / 18014398509481984 := by
    rw [zpow_neg]; norm_num
  rw [e] at h
  exact h

/-- The scaled integer: for finite `x` with `|x| * 10 ^ k < 2 ^ 52 + 2 ^ 51`, the float64
product `x * 10^k` is a correct rounding of the exact product, `math.Round` of it is the
integer `± N` nearest to it (halves away from zero), and `N < 2 ^ 53`. -/
theorem scaled_core (k : Nat) (hk : k ≤ 10) (x : F64) (hx : x.isFinite = true)
    (hB : x.absRat * (10 : ℚ) ^ k < 6755399441055744) :
    ∃ N : Nat,
      F64.roundsTo (x.absRat * (10 : ℚ) ^ k) (F64.mul x (F64.pow10 (k : Int)))
        ∧ (F64.mul x (F64.pow10 (k : Int))).sign = x.sign
        ∧ (F64.round (F64.mul x (F64.pow10 (k : Int)))).isFinite = true
        ∧ (F64.round (F64.mul x (F64.pow10 (k : Int)))).sign = x.sign
        ∧ (F64.round (F64.mul x (F64.pow10 (k : Int)))).absRat = (N : ℚ)
        ∧ (N : ℚ) ≤ (F64.mul x (F64.pow10 (k : Int))).absRat + 1 / 2
        ∧ (F64.mul x (F64.pow10 (k : Int))).absRat + 1 / 2 < (N : ℚ) + 1
        ∧ (N : ℚ) ≤ x.absRat * (10 : ℚ) ^ k * (1 + 1 / 9007199254740992) + 9 / 16
        ∧ N < 9007199254740992 := by
  obtain ⟨p1, p2, p3, p4⟩ := pow10_facts k hk
  have hq0 : 0 ≤ x.absRat * (10 : ℚ) ^ k := mul_nonneg (absRat_nonneg x) (by positivity)
  have hq : x.absRat * (F64.pow10 (k : Int)).absRat < (2 : ℚ) ^ (1023 : Int) := by
    rw [p4]
    have : (6755399441055744 : ℚ) ≤ (2 : ℚ) ^ (1023 : Int) := by
      have h : (2 : ℚ) ^ (53 : Int) ≤ (2 : ℚ) ^ (1023 : Int) :=
        zpow_le_zpow_right₀ (by norm_num) (by norm_num)
      have e : (2 : ℚ) ^ (53 : Int) = 9007199254740992 := by norm_num
      rw [e] at h
      linarith
    linarith
  obtain ⟨m1, m2⟩ := mul_spec x (F64.pow10 (k : Int)) hx p1 hq
  rw [p4] at m1
  rw [p2] at m2
  simp only [Bool.xor_false] at m2
  obtain ⟨N, r1, r2, r3, r4, r5⟩ := round_spec (F64.mul x (F64.pow10 (k : Int))) m1.1
  have herr := (roundsTo_err _ _ m1 hq0).1
  have hup := (abs_le.mp herr).2
  have ht := tiny_le
  have hNq : (N : ℚ) ≤ x.absRat * (10 : ℚ) ^ k * (1 + 1 / 9007199254740992) + 9 / 16 := by
    linarith
  refine ⟨N, m1, m2, r1, by rw [r2, m2], r3, r4, r5, hNq, ?_⟩
  have : (N : ℚ) < 9007199254740992 := by linarith
  exact_mod_cast this

theorem neg_fields (x : F64) :
    x.neg.isFinite = x.isFinite ∧ x.neg.absRat = x.absRat ∧ x.neg.sign = !x.sign := by
  simp [F64.neg, F64.isFinite, F64.absRat, F64.mant, F64.exp2]

theorem roundsTo_zero (r : F64) (h : F64.roundsTo 0 r) : r.absRat = 0 := by
  obtain ⟨_, e, m, _, h2, _, _, h5⟩ := h
  rw [zero_div, sub_zero] at h2
  have hm : (m : ℚ) < 1 := by
    have := (abs_le.mp h2).2
    linarith
  have : m < 1 := by exact_mod_cast hm
  have hm0 : m = 0 := by omega
  rw [h5, hm0]
  simp

/-- Error of the quotient `N / 10 ^ k` in float64: relative error at most `2 ^ -53`. -/
theorem quotient_err (k : Nat) (hk : k ≤ 10) (N : Nat) (r : F64)
    (h : F64.roundsTo ((N : ℚ) / (10 : ℚ) ^ k) r) :
    |r.absRat - (N : ℚ) / (10 : ℚ) ^ k| ≤ (N : ℚ) / (10 : ℚ) ^ k / 9007199254740992 := by
  by_cases hN : N = 0
  · subst hN
    simp only [Nat.cast_zero, zero_div] at h ⊢
    rw [roundsTo_zero r h]
    simp
  · have hN1 : (1 : ℚ) ≤ (N : ℚ) := by
      have : 1 ≤ N := Nat.one_le_iff_ne_zero.mpr hN
      exact_mod_cast this
    have hp : (0 : ℚ) < (10 : ℚ) ^ k := by positivity
    have h10 : (10 : ℚ) ^ k ≤ (10 : ℚ) ^ 10 := pow_le_pow_right₀ (by norm_num) hk
    have hq0 : 0 ≤ (N : ℚ) / (10 : ℚ) ^ k := by positivity
    apply (roundsTo_err _ r h hq0).2
    have h1 : (2 : ℚ) ^ (-1022 : Int) ≤ (2 : ℚ) ^ (-34 : Int) :=
      zpow_le_zpow_right₀ (by norm_num) (by norm_num)
    have e : (2 : ℚ) ^ (-34 : Int) = 1 / 17179869184 := by
      rw [zpow_neg]; norm_num
    rw [e] at h1
    refine le_trans h1 ?_
    rw [le_div_iff₀ hp]
    have : (10 : ℚ) ^ 10 = 10000000000 := by norm_num
    linarith

/-- The two float64 operations of `Round` after the clamp, on a finite `x1` with
`|x1| * 10 ^ k < 2 ^ 52`: the quotient is a correct rounding of `N / 10 ^ k`, where `± N` is
the integer `math.Round` returns for the product. -/
theorem round_chain (k : Nat) (hk : k ≤ 10) (x1 : F64) (hx : x1.isFinite = true)
    (hB : x1.absRat * (10 : ℚ) ^ k < 4503599627370496) :
    ∃ N : Nat,
      (F64.round (F64.mul x1 (F64.pow10 (k : Int)))).absRat = (N : ℚ)
        ∧ (N : ℚ) ≤ x1.absRat * (10 : ℚ) ^ k * (1 + 1 / 9007199254740992) + 9 / 16
        ∧ F64.roundsTo (x1.absRat * (10 : ℚ) ^ k) (F64.mul x1 (F64.pow10 (k : Int)))
        ∧ (F64.mul x1 (F64.pow10 (k : Int))).sign = x1.sign
        ∧ (F64.round (F64.mul x1 (F64.pow10 (k : Int)))).isFinite = true
        ∧ (F64.round (F64.mul x1 (F64.pow10 (k : Int)))).sign = x1.sign
        ∧ (N : ℚ) ≤ (F64.mul x1 (F64.pow10 (k : Int))).absRat + 1 / 2
        ∧ (F64.mul x1 (F64.pow10 (k : Int))).absRat + 1 / 2 < (N : ℚ) + 1
        ∧ F64.roundsTo ((N : ℚ) / (10 : ℚ) ^ k)
            (F64.div (F64.round (F64.mul x1 (F64.pow10 (k : Int)))) (F64.pow10 (k : Int)))
        ∧ (F64.div (F64.round (F64.mul x1 (F64.pow10 (k : Int)))) (F64.pow10 (k : Int))).sign
            = x1.sign
        ∧ (F64.div (F64.round (F64.mul x1 (F64.pow10 (k : Int)))) (F64.pow10 (k : Int))).absRat
            * (10 : ℚ) ^ k < 6755399441055744 := by
  obtain ⟨p1, p2, p3, p4⟩ := pow10_facts k hk
  obtain ⟨N, c1, c2, c3, c4, c5, c6, c7, c8, c9⟩ := scaled_core k hk x1 hx (by linarith)
  have hp : (0 : ℚ) < (10 : ℚ) ^ k := by positivity
  have hp1 : (1 : ℚ) ≤ (10 : ℚ) ^ k := one_le_pow₀ (by norm_num)
  have h10 : (10 : ℚ) ^ k ≤ (10 : ℚ) ^ 10 := pow_le_pow_right₀ (by norm_num) hk
  have h10' : (10 : ℚ) ^ 10 = 10000000000 := by norm_num
  have hNlt : (N : ℚ) < 4503599627370498 := by linarith
  have hN0 : (0 : ℚ) ≤ (N : ℚ) := by positivity
  have hqlt : (N : ℚ) / (10 : ℚ) ^ k ≤ (N : ℚ) := div_le_self hN0 hp1
  have hq : (F64.round (F64.mul x1 (F64.pow10 (k : Int)))).absRat
      / (F64.pow10 (k : Int)).absRat < (2 : ℚ) ^ (1023 : Int) := by
    rw [c5, p4]
    have h : (2 : ℚ) ^ (53 : Int) ≤ (2 : ℚ) ^ (1023 : Int) :=
      zpow_le_zpow_right₀ (by norm_num) (by norm_num)
    have e : (2 : ℚ) ^ (53 : Int) = 9007199254740992 := by norm_num
    rw [e] at h
    linarith
  obtain ⟨d1, d2⟩ := div_spec _ _ c3 p1 p3 hq
  rw [c5, p4] at d1
  rw [c4, p2] at d2
  simp only [Bool.xor_false] at d2
  refine ⟨N, c5, c8, c1, c2, c3, c4, c6, c7, d1, d2, ?_⟩
  have herr := quotient_err k hk N _ d1
  have hup := (abs_le.mp herr).2
  have hmul : (F64.div (F64.round (F64.mul x1 (F64.pow10 (k : Int)))) (F64.pow10 (k : Int))).absRat
      ≤ (N : ℚ) / (10 : ℚ) ^ k * (1 + 1 / 9007199254740992) := by linarith
  have := mul_le_mul_of_nonneg_right hmul hp.le
  have e2 : (N : ℚ) / (10 : ℚ) ^ k * (1 + 1 / 9007199254740992) * (10 : ℚ) ^ k
      = (N : ℚ) * (1 + 1 / 9007199254740992) := by field_simp; ring
  rw [e2] at this
  linarith

/-- The value that `Round` passes to the rounding step: the argument after the clamp. It is
finite, its magnitude is at most the bound, and it is `x` itself when `x` is within the
bound. -/
theorem clamped (k : Nat) (hk : k ≤ 10) (x : F64) (hnan : x.isNaN = false) :
    ∃ x1 : F64, x1.isFinite = true ∧ x1.absRat * (10 : ℚ) ^ k < 4503599627370496
      ∧ Round x (k : Int)
          = F64.div (F64.round (F64.mul x1 (F64.pow10 (k : Int)))) (F64.pow10 (k : Int))
      ∧ (F64.lt (clampLimit (k : Int)) x = false → F64.lt x (clampLimit (k : Int)).neg = false →
          x1 = x) := by
  obtain ⟨l1, l2, l3⟩ := clampLimit_facts k hk
  obtain ⟨n1, n2, _⟩ := neg_fields (clampLimit (k : Int))
  have hp : (0 : ℚ) < (10 : ℚ) ^ k := by positivity
  by_cases h1 : F64.lt (clampLimit (k : Int)) x = true
  · refine ⟨clampLimit (k : Int), l1, l3, by simp [Round, h1], ?_⟩
    intro h; rw [h] at h1; exact absurd h1 (by simp)
  · have h1f : F64.lt (clampLimit (k : Int)) x = false := by simpa using h1
    by_cases h2 : F64.lt x (clampLimit (k : Int)).neg = true
    · refine ⟨(clampLimit (k : Int)).neg, by rw [n1]; exact l1, by rw [n2]; exact l3,
        by simp [Round, h1f, h2], ?_⟩
      intro _ h; rw [h] at h2; exact absurd h2 (by simp)
    · have h2f : F64.lt x (clampLimit (k : Int)).neg = false := by simpa using h2
      obtain ⟨w1, w2⟩ := within_limit (clampLimit (k : Int)) x l1 l2 hnan h1f h2f
      refine ⟨x, w1, ?_, by simp [Round, h1f, h2f], fun _ _ => rfl⟩
      have := mul_le_mul_of_nonneg_right w2 hp.le
      linarith

/-- The integer of `doFormat` for a finite `x` with `|x| * 10 ^ k < 2 ^ 52 + 2 ^ 51`. -/
theorem scaled_int (k : Nat) (hk : k ≤ 10) (x : F64) (hx : x.isFinite = true)
    (hB : x.absRat * (10 : ℚ) ^ k < 6755399441055744) :
    ∃ z : Int, scaledRound x (k : Int) = some z ∧ |z| < 2 ^ 53 ∧ scaledInt64 x (k : Int) = z
      ∧ wrapInt64 (-z) = -z := by
  obtain ⟨N, c1, c2, c3, c4, c5, c6, c7, c8, c9⟩ := scaled_core k hk x hx hB
  have ht := truncInt_of_nat _ N c5
  have h53 : (2 : Int) ^ 53 = 9007199254740992 := by norm_num
  refine ⟨(F64.round (F64.mul x (F64.pow10 (k : Int)))).truncInt, ?_, ?_, ?_, ?_⟩
  · simp [scaledRound, c3]
  · rw [ht, h53]
    split <;> rw [abs_lt] <;> omega
  · unfold scaledInt64 F64.toInt64
    rw [if_pos]
    refine ⟨c3, ?_, ?_⟩ <;> rw [ht] <;> split <;> omega
  · rw [ht]
    unfold wrapInt64
    split <;> omega

/-- C17. The clamp keeps the formatter's integer in range: for `k ≤ 10` and every non-NaN
`x` within the clamp bound (`x` neither above `L` nor below `-L`), the integer
`z = round(x * 10^k)` exists and `|z| < 2^53`, so `int64(...)` in `doFormat` yields `z` itself
and the negation `-z` does not wrap; the same holds for every output `Round(x, k)` of `Round`
on a non-NaN argument. -/
theorem C17_clamp_keeps_int_in_range (k : Nat) (hk : k ≤ 10) :
    (∀ x : F64, x.isNaN = false → F64.lt (clampLimit (k : Int)) x = false →
        F64.lt x (clampLimit (k : Int)).neg = false →
        ∃ z : Int, scaledRound x (k : Int) = some z ∧ |z| < 2 ^ 53 ∧ (2 : Int) ^ 53 < 2 ^ 63
          ∧ scaledInt64 x (k : Int) = z ∧ wrapInt64 (-z) = -z)
      ∧ (∀ x : F64, x.isNaN = false →
        ∃ z : Int, scaledRound (Round x (k : Int)) (k : Int) = some z ∧ |z| < 2 ^ 53
          ∧ scaledInt64 (Round x (k : Int)) (k : Int) = z ∧ wrapInt64 (-z) = -z) := by
  refine ⟨?_, ?_⟩
  · intro x hnan h1 h2
    obtain ⟨l1, l2, l3⟩ := clampLimit_facts k hk
    obtain ⟨w1, w2⟩ := within_limit (clampLimit (k : Int)) x l1 l2 hnan h1 h2
    have hp : (0 : ℚ) < (10 : ℚ) ^ k := by positivity
    have := mul_le_mul_of_nonneg_right w2 hp.le
    obtain ⟨z, a1, a2, a3, a4⟩ := scaled_int k hk x w1 (by linarith)
    exact ⟨z, a1, a2, by norm_num, a3, a4⟩
  · intro x hnan
    obtain ⟨x1, b1, b2, b3, _⟩ := clamped k hk x hnan
    obtain ⟨N, _, _, _, _, _, _, _, _, d1, _, d3⟩ := round_chain k hk x1 b1 b2
    rw [← b3] at d1 d3
    exact scaled_int k hk (Round x (k : Int)) d1.1 d3

/-- C17 at `x = pi`, `k = 2`: `z = 314`. -/
theorem C17_clamp_keeps_int_in_range_witness :
    scaledRound f64Pi ((2 : Nat) : Int) = some 314
      ∧ (∃ z : Int, scaledRound f64Pi ((2 : Nat) : Int) = some z ∧ |z| < 2 ^ 53
          ∧ (2 : Int) ^ 53 < 2 ^ 63
          ∧ scaledInt64 f64Pi ((2 : Nat) : Int) = z ∧ wrapInt64 (-z) = -z)
      ∧ ∃ z : Int, scaledRound (Round f64Pi ((2 : Nat) : Int)) ((2 : Nat) : Int) = some z
          ∧ |z| < 2 ^ 53
          ∧ scaledInt64 (Round f64Pi ((2 : Nat) : Int)) ((2 : Nat) : Int) = z
          ∧ wrapInt64 (-z) = -z :=
  ⟨by decide!,
    (C17_clamp_keeps_int_in_range 2 (by decide)).1 f64Pi (by decide!)
      (by rw [clampLimit_table 2 (by decide)]; decide!)
      (by rw [clampLimit_table 2 (by decide)]; decide!),
    (C17_clamp_keeps_int_in_range 2 (by decide)).2 f64Pi (by decide!)⟩

/-! ## A correct rounding is a nearest float64 -/

theorem mant_lt (y : F64) : y.mant < 9007199254740992 := by
  have := y.frac.isLt
  unfold F64.mant
  split <;> omega

theorem exp2_ge (y : F64) : -1074 ≤ y.exp2 := by
  unfold F64.exp2
  split <;> omega

theorem nearest_int (m j : Nat) (t : ℚ) (h : |(m : ℚ) - t| ≤ 1 / 2) :
    |(m : ℚ) - t| ≤ |(j : ℚ) - t| := by
  by_cases hjm : j = m
  · rw [hjm]
  · have h1 : (1 : ℚ) ≤ |(j : ℚ) - (m : ℚ)| := by
      rcases Nat.lt_or_gt_of_ne hjm with hlt | hgt
      · have : (j : ℚ) + 1 ≤ (m : ℚ) := by exact_mod_cast hlt
        rw [abs_sub_comm, le_abs]; left; linarith
      · have : (m : ℚ) + 1 ≤ (j : ℚ) := by exact_mod_cast hgt
        rw [le_abs]; left; linarith
    have h2 : |(j : ℚ) - (m : ℚ)| ≤ |(j : ℚ) - t| + |(m : ℚ) - t| := by
      have := abs_sub_le (j : ℚ) t (m : ℚ)
      rw [abs_sub_comm t (m : ℚ)] at this
      exact this
    linarith

/-- No finite float64 is nearer to `q` than a correct rounding of `q`. -/
theorem roundsTo_nearest (q : ℚ) (r : F64) (h : F64.roundsTo q r) (y : F64) :
    |r.absRat - q| ≤ |y.absRat - q| := by
  obtain ⟨_, e, m, h1, h2, h3, h4, h5⟩ := h
  have h20 : (2 : ℚ) ≠ 0 := two_ne_zero
  have hp : (0 : ℚ) < (2 : ℚ) ^ e := zpow_pos (by norm_num) e
  have hfac : ∀ a : ℚ, |a * (2 : ℚ) ^ e - q| = |a - q / (2 : ℚ) ^ e| * (2 : ℚ) ^ e := by
    intro a
    have : a * (2 : ℚ) ^ e - q = (a - q / (2 : ℚ) ^ e) * (2 : ℚ) ^ e := by field_simp
    rw [this, abs_mul, abs_of_pos hp]
  rw [h5, hfac]
  rcases le_or_lt e y.exp2 with hle | hlt
  · obtain ⟨d, hd⟩ := Int.eq_ofNat_of_zero_le (show 0 ≤ y.exp2 - e by omega)
    have hy : y.absRat = ((y.mant * 2 ^ d : Nat) : ℚ) * (2 : ℚ) ^ e := by
      have : y.exp2 = (d : Int) + e := by omega
      rw [F64.absRat, this, zpow_add₀ h20, zpow_natCast]
      push_cast
      ring
    rw [hy, hfac]
    exact mul_le_mul_of_nonneg_right (nearest_int m _ _ h2) hp.le
  · have hq := h4 (by have := exp2_ge y; omega)
    have e1 : (2 : ℚ) ^ (e + 52) = 4503599627370496 * (2 : ℚ) ^ e := by
      rw [add_comm, zpow_add₀ h20]; norm_num
    rw [e1] at hq
    have ht : (4503599627370496 : ℚ) ≤ q / (2 : ℚ) ^ e := by
      rw [le_div_iff₀ hp]; exact hq
    have hylt : y.absRat < 4503599627370496 * (2 : ℚ) ^ e := by
      have hm : (y.mant : ℚ) < 9007199254740992 := by exact_mod_cast mant_lt y
      have hpy : (0 : ℚ) < (2 : ℚ) ^ y.exp2 := zpow_pos (by norm_num) _
      have hmono : (2 : ℚ) ^ y.exp2 ≤ (2 : ℚ) ^ (e - 1) :=
        zpow_le_zpow_right₀ (by norm_num) (by omega)
      have e2 : (2 : ℚ) ^ e = 2 * (2 : ℚ) ^ (e - 1) := by
        have : e = 1 + (e - 1) := by ring
        nth_rewrite 1 [this]
        rw [zpow_add₀ h20]; norm_num
      rw [F64.absRat, e2]
      calc (y.mant : ℚ) * (2 : ℚ) ^ y.exp2 < 9007199254740992 * (2 : ℚ) ^ y.exp2 :=
            mul_lt_mul_of_pos_right hm hpy
        _ ≤ 9007199254740992 * (2 : ℚ) ^ (e - 1) :=
            mul_le_mul_of_nonneg_left hmono (by norm_num)
        _ = 4503599627370496 * (2 * (2 : ℚ) ^ (e - 1)) := by ring
    have hyq : y.absRat - q < 0 := by linarith
    rw [abs_of_neg hyq]
    -- in units of `2 ^ e`
    have hv : y.absRat = y.absRat / (2 : ℚ) ^ e * (2 : ℚ) ^ e := by field_simp
    have hqv : q = q / (2 : ℚ) ^ e * (2 : ℚ) ^ e := by field_simp
    have hvlt : y.absRat / (2 : ℚ) ^ e < 4503599627370496 := by
      rw [div_lt_iff₀ hp]; exact hylt
    have hgoal : |(m : ℚ) - q / (2 : ℚ) ^ e| ≤ q / (2 : ℚ) ^ e - y.absRat / (2 : ℚ) ^ e := by
      have hm52 : (4503599627370496 : ℚ) ≤ (m : ℚ) := by
        have := (abs_le.mp h2).1
        have h' : ((4503599627370495 : Nat) : ℚ) < (m : ℚ) := by push_cast; linarith
        have : 4503599627370495 < m := by exact_mod_cast h'
        have : 4503599627370496 ≤ m := by omega
        exact_mod_cast this
      rw [abs_le]
      constructor
      · linarith
      · by_cases hmt : (m : ℚ) ≤ q / (2 : ℚ) ^ e
        · linarith
        · push_neg at hmt
          have hm53 : (4503599627370496 : ℚ) + 1 ≤ (m : ℚ) := by
            by_contra hc
            push_neg at hc
            have h' : (m : ℚ) < ((4503599627370497 : Nat) : ℚ) := by push_cast; linarith
            have : m < 4503599627370497 := by exact_mod_cast h'
            have h'' : (m : ℚ) ≤ ((4503599627370496 : Nat) : ℚ) := by
              have : m ≤ 4503599627370496 := by omega
              exact_mod_cast this
            push_cast at h''
            linarith
          have := (abs_le.mp h2).2
          linarith
    calc |(m : ℚ) - q / (2 : ℚ) ^ e| * (2 : ℚ) ^ e
        ≤ (q / (2 : ℚ) ^ e - y.absRat / (2 : ℚ) ^ e) * (2 : ℚ) ^ e :=
          mul_le_mul_of_nonneg_right hgoal hp.le
      _ = -(y.absRat - q) := by field_simp

theorem roundsTo_le_target (q : ℚ) (r : F64) (h : F64.roundsTo q r) (hq : 0 ≤ q) :
    |r.absRat - q| ≤ q := by
  obtain ⟨_, e, m, h1, h2, h3, h4, h5⟩ := h
  have hp : (0 : ℚ) < (2 : ℚ) ^ e := zpow_pos (by norm_num) e
  have ht0 : 0 ≤ q / (2 : ℚ) ^ e := by positivity
  have hgoal : |(m : ℚ) - q / (2 : ℚ) ^ e| ≤ q / (2 : ℚ) ^ e := by
    rw [abs_le]
    have hm0 : (0 : ℚ) ≤ (m : ℚ) := by positivity
    constructor
    · linarith
    · by_cases hm : m = 0
      · rw [hm]; simp; linarith
      · have : (1 : ℚ) ≤ (m : ℚ) := by
          have : 1 ≤ m := Nat.one_le_iff_ne_zero.mpr hm
          exact_mod_cast this
        have := (abs_le.mp h2).2
        linarith
  have : (m : ℚ) * (2 : ℚ) ^ e - q = ((m : ℚ) - q / (2 : ℚ) ^ e) * (2 : ℚ) ^ e := by field_simp
  rw [h5, this, abs_mul, abs_of_pos hp]
  calc |(m : ℚ) - q / (2 : ℚ) ^ e| * (2 : ℚ) ^ e ≤ q / (2 : ℚ) ^ e * (2 : ℚ) ^ e :=
        mul_le_mul_of_nonneg_right hgoal hp.le
    _ = q := by field_simp

/-- The signed form: a correct rounding `r` of `q ≥ 0`, read with its sign, is a float64
nearest to the number `± q` of that sign. -/
theorem nearest_signed (q : ℚ) (hq : 0 ≤ q) (r : F64) (h : F64.roundsTo q r) (y : F64) :
    |r.toRat - (if r.sign then -q else q)| ≤ |y.toRat - (if r.sign then -q else q)| := by
  have hn := roundsTo_nearest q r h y
  have hl := roundsTo_le_target q r h hq
  have hy0 := absRat_nonneg y
  rw [toRat_eq r, toRat_eq y]
  have key : ∀ a b : ℚ, |(-a) - (-b)| = |a - b| := by
    intro a b
    rw [← abs_neg]; congr 1; ring
  cases hrs : r.sign <;> cases hys : y.sign <;>
    simp only [Bool.false_eq_true, if_false, if_true]
  · exact hn
  · calc |r.absRat - q| ≤ q := hl
      _ ≤ |(-y.absRat) - q| := by rw [← abs_neg]; rw [le_abs]; left; linarith
  · rw [key]
    calc |r.absRat - q| ≤ q := hl
      _ ≤ |y.absRat - -q| := by rw [le_abs]; left; linarith
  · rw [key, key]; exact hn

/-! ## `Round` as rounding to nearest at `k` decimal digits -/

/-- C11, as the code has it. For `k ≤ 10` and non-NaN `x` within the clamp bound, with
`p = x * 10^k` the float64 product, a float64 nearest to the exact product, and `n` the
integer nearest to `p`, halves away from zero: `Round(x, k)` is a float64 nearest to
`n / 10^k`, within relative error `2^-53` of it, and
`|Round(x, k) - x| ≤ 0.5 * 10^-k + 2^-52 * (|x| + 10^-k)`. -/
theorem C11_round_nearest (k : Nat) (hk : k ≤ 10) (x : F64) (hnan : x.isNaN = false)
    (h1 : F64.lt (clampLimit (k : Int)) x = false)
    (h2 : F64.lt x (clampLimit (k : Int)).neg = false) :
    ∃ n : Int, scaledRound x (k : Int) = some n
      ∧ (∀ y : F64, y.isFinite = true →
          |(F64.mul x (F64.pow10 (k : Int))).toRat - x.toRat * (10 : ℚ) ^ k|
            ≤ |y.toRat - x.toRat * (10 : ℚ) ^ k|)
      ∧ |(n : ℚ) - (F64.mul x (F64.pow10 (k : Int))).toRat| ≤ 1 / 2
      ∧ (|(n : ℚ) - (F64.mul x (F64.pow10 (k : Int))).toRat| = 1 / 2 →
          |(F64.mul x (F64.pow10 (k : Int))).toRat| < |(n : ℚ)|)
      ∧ (Round x (k : Int)).isFinite = true
      ∧ (∀ y : F64, y.isFinite = true →
          |(Round x (k : Int)).toRat - (n : ℚ) / (10 : ℚ) ^ k|
            ≤ |y.toRat - (n : ℚ) / (10 : ℚ) ^ k|)
      ∧ |(Round x (k : Int)).toRat - (n : ℚ) / (10 : ℚ) ^ k|
          ≤ |(n : ℚ)| / (10 : ℚ) ^ k / 9007199254740992
      ∧ |(Round x (k : Int)).toRat - x.toRat|
          ≤ 1 / 2 / (10 : ℚ) ^ k + (|x.toRat| + 1 / (10 : ℚ) ^ k) / 4503599627370496 := by
  obtain ⟨l1, l2, l3⟩ := clampLimit_facts k hk
  obtain ⟨w1, w2⟩ := within_limit (clampLimit (k : Int)) x l1 l2 hnan h1 h2
  have hp : (0 : ℚ) < (10 : ℚ) ^ k := by positivity
  have hB : x.absRat * (10 : ℚ) ^ k < 4503599627370496 := by
    have := mul_le_mul_of_nonneg_right w2 hp.le
    linarith
  obtain ⟨N, c5, c8, c1, c2, c3, c4, c6, c7, d1, d2, d3⟩ := round_chain k hk x w1 hB
  have hR : Round x (k : Int)
      = F64.div (F64.round (F64.mul x (F64.pow10 (k : Int)))) (F64.pow10 (k : Int)) := by
    simp [Round, h1, h2]
  rw [← hR] at d1 d2 d3
  have ht := truncInt_of_nat _ N c5
  rw [c4] at ht
  have hq0 : 0 ≤ x.absRat * (10 : ℚ) ^ k := mul_nonneg (absRat_nonneg x) hp.le
  have hN0 : (0 : ℚ) ≤ (N : ℚ) := by positivity
  have hNq0 : 0 ≤ (N : ℚ) / (10 : ℚ) ^ k := by positivity
  have hPn := fun y => nearest_signed _ hq0 _ c1 y
  have hDn := fun y => nearest_signed _ hNq0 _ d1 y
  have hPt := toRat_eq (F64.mul x (F64.pow10 (k : Int)))
  have hDt := toRat_eq (Round x (k : Int))
  have hxt := toRat_eq x
  have hxa := abs_toRat x
  rw [c2] at hPt hPn
  rw [d2] at hDt hDn
  have herrP := (roundsTo_err _ _ c1 hq0).1
  have herrD := quotient_err k hk N _ d1
  have hT := tiny_le
  -- the error of the quotient, in units of `10 ^ -k`
  have herrD' : |(Round x (k : Int)).absRat * (10 : ℚ) ^ k - (N : ℚ)|
      ≤ (N : ℚ) / 9007199254740992 := by
    have e1 : (Round x (k : Int)).absRat * (10 : ℚ) ^ k - (N : ℚ)
        = ((Round x (k : Int)).absRat - (N : ℚ) / (10 : ℚ) ^ k) * (10 : ℚ) ^ k := by
      field_simp
    have e2 : (N : ℚ) / 9007199254740992
        = (N : ℚ) / (10 : ℚ) ^ k / 9007199254740992 * (10 : ℚ) ^ k := by
      field_simp
      ring
    rw [e1, abs_mul, abs_of_pos hp, e2]
    exact mul_le_mul_of_nonneg_right herrD hp.le
  have hfin : |(Round x (k : Int)).absRat * (10 : ℚ) ^ k - x.absRat * (10 : ℚ) ^ k|
      ≤ 1 / 2 + (x.absRat * (10 : ℚ) ^ k + 1) / 4503599627370496 := by
    have a1 := abs_le.mp herrD'
    have a2 := abs_le.mp herrP
    rw [abs_le]
    constructor <;> linarith [a1.1, a1.2, a2.1, a2.2]
  have hfinal : |(Round x (k : Int)).absRat - x.absRat|
      ≤ 1 / 2 / (10 : ℚ) ^ k + (x.absRat + 1 / (10 : ℚ) ^ k) / 4503599627370496 := by
    have e1 : (Round x (k : Int)).absRat - x.absRat
        = ((Round x (k : Int)).absRat * (10 : ℚ) ^ k - x.absRat * (10 : ℚ) ^ k)
            / (10 : ℚ) ^ k := by
      field_simp
      ring
    have e2 : 1 / 2 / (10 : ℚ) ^ k + (x.absRat + 1 / (10 : ℚ) ^ k) / 4503599627370496
        = (1 / 2 + (x.absRat * (10 : ℚ) ^ k + 1) / 4503599627370496) / (10 : ℚ) ^ k := by
      field_simp
      ring
    rw [e1, abs_div, abs_of_pos hp, e2]
    exact div_le_div_of_nonneg_right hfin hp.le
  have hneg : ∀ a b : ℚ, |(-a) - (-b)| = |a - b| := by
    intro a b
    rw [← abs_neg]; congr 1; ring
  refine ⟨if x.sign then -(N : Int) else (N : Int), ?_, ?_, ?_, ?_, d1.1, ?_, ?_, ?_⟩
  · simp [scaledRound, c3, ht]
  · intro y _
    have := hPn y
    cases hs : x.sign <;> rw [hs] at this hxt <;>
      simp only [Bool.false_eq_true, if_false, if_true] at this hxt ⊢
    · rw [hxt]; exact this
    · rw [hxt, neg_mul]; exact this
  · cases hs : x.sign <;> rw [hs] at hPt <;>
      simp only [Bool.false_eq_true, if_false, if_true] at hPt ⊢ <;> rw [hPt]
    · push_cast
      rw [abs_le]; constructor <;> linarith
    · push_cast
      rw [hneg, abs_le]; constructor <;> linarith
  · have hPa := absRat_nonneg (F64.mul x (F64.pow10 (k : Int)))
    cases hs : x.sign <;> rw [hs] at hPt <;>
      simp only [Bool.false_eq_true, if_false, if_true] at hPt ⊢ <;> rw [hPt]
    · push_cast
      intro he
      rw [abs_of_nonneg hPa, abs_of_nonneg hN0]
      rcases abs_eq (by norm_num : (0 : ℚ) ≤ 1 / 2) |>.mp he with h | h <;> linarith
    · push_cast
      rw [hneg, abs_neg, abs_neg]
      intro he
      rw [abs_of_nonneg hPa, abs_of_nonneg hN0]
      rcases abs_eq (by norm_num : (0 : ℚ) ≤ 1 / 2) |>.mp he with h | h <;> linarith
  · intro y _
    have := hDn y
    cases hs : x.sign <;> rw [hs] at this <;>
      simp only [Bool.false_eq_true, if_false, if_true] at this ⊢
    · push_cast; exact this
    · push_cast; rw [neg_div]; exact this
  · cases hs : x.sign <;> rw [hs] at hDt <;>
      simp only [Bool.false_eq_true, if_false, if_true] at hDt ⊢ <;> rw [hDt]
    · push_cast
      rw [abs_of_nonneg hN0]; exact herrD
    · push_cast
      rw [neg_div, hneg, abs_neg, abs_of_nonneg hN0]; exact herrD
  · rw [hxa]
    cases hs : x.sign <;> rw [hs] at hDt hxt <;>
      simp only [Bool.false_eq_true, if_false, if_true] at hDt hxt <;> rw [hDt, hxt]
    · exact hfinal
    · rw [hneg]; exact hfinal

theorem toRat_0_15 : f64_0_15.toRat = 5404319552844595 / 36028797018963968 := by
  have h1 : f64_0_15.sign = false := by decide!
  have h2 : f64_0_15.mant = 5404319552844595 := by decide!
  have h3 : f64_0_15.exp2 = -55 := by decide!
  rw [F64.toRat, h1, h2, h3, zpow_neg]
  norm_num

theorem toRat_0_2 : f64_0_2.toRat = 3602879701896397 / 18014398509481984 := by
  have h1 : f64_0_2.sign = false := by decide!
  have h2 : f64_0_2.mant = 7205759403792794 := by decide!
  have h3 : f64_0_2.exp2 = -55 := by decide!
  rw [F64.toRat, h1, h2, h3, zpow_neg]
  norm_num

/-- C11 as stated fails at `x = 0.15` (the float64 0.1499999999999999944...), `k = 1`, within
the clamp bound: the integer nearest to the exact `x * 10 = 1.4999999999999999444...` is 1,
but the float64 product is 1.5 and the code rounds it to `n = 2`; `Round(0.15, 1)` is the
float64 0.2, which is neither `1/10` nor `2/10`, and it differs from `x` by more than
`0.5 * 10^-1`. -/
theorem C11_counterexample :
    f64_0_15.isNaN = false
      ∧ F64.lt (clampLimit 1) f64_0_15 = false ∧ F64.lt f64_0_15 (clampLimit 1).neg = false
      ∧ |(1 : ℚ) - f64_0_15.toRat * (10 : ℚ) ^ 1| < 1 / 2
      ∧ 1 / 2 < |(2 : ℚ) - f64_0_15.toRat * (10 : ℚ) ^ 1|
      ∧ scaledRound f64_0_15 1 = some 2
      ∧ Round f64_0_15 1 = f64_0_2
      ∧ (Round f64_0_15 1).toRat ≠ 1 / (10 : ℚ) ^ 1
      ∧ (Round f64_0_15 1).toRat ≠ 2 / (10 : ℚ) ^ 1
      ∧ 1 / 2 * (1 / (10 : ℚ) ^ 1) < |(Round f64_0_15 1).toRat - f64_0_15.toRat| := by
  have hR : Round f64_0_15 1 = f64_0_2 := by
    rw [Round_lit 1 (by decide) (by decide)]; decide!
  rw [hR, toRat_0_15, toRat_0_2]
  refine ⟨by decide!, by rw [clampLimit_lit 1 (by decide) (by decide)]; decide!,
    by rw [clampLimit_lit 1 (by decide) (by decide)]; decide!, ?_, ?_, by decide!, rfl, ?_, ?_, ?_⟩
  · rw [abs_lt]; constructor <;> norm_num
  · rw [lt_abs]; left; norm_num
  · norm_num
  · norm_num
  · rw [lt_abs]; left; norm_num

/-- C11 at `x = pi`, `k = 2`: `n = 314`. -/
theorem C11_round_nearest_witness :
    f64Pi.isNaN = false ∧ scaledRound f64Pi ((2 : Nat) : Int) = some 314
      ∧ ∃ n : Int, scaledRound f64Pi ((2 : Nat) : Int) = some n
        ∧ (∀ y : F64, y.isFinite = true →
            |(F64.mul f64Pi (F64.pow10 ((2 : Nat) : Int))).toRat - f64Pi.toRat * (10 : ℚ) ^ 2|
              ≤ |y.toRat - f64Pi.toRat * (10 : ℚ) ^ 2|)
        ∧ |(n : ℚ) - (F64.mul f64Pi (F64.pow10 ((2 : Nat) : Int))).toRat| ≤ 1 / 2
        ∧ (|(n : ℚ) - (F64.mul f64Pi (F64.pow10 ((2 : Nat) : Int))).toRat| = 1 / 2 →
            |(F64.mul f64Pi (F64.pow10 ((2 : Nat) : Int))).toRat| < |(n : ℚ)|)
        ∧ (Round f64Pi ((2 : Nat) : Int)).isFinite = true
        ∧ (∀ y : F64, y.isFinite = true →
            |(Round f64Pi ((2 : Nat) : Int)).toRat - (n : ℚ) / (10 : ℚ) ^ 2|
              ≤ |y.toRat - (n : ℚ) / (10 : ℚ) ^ 2|)
        ∧ |(Round f64Pi ((2 : Nat) : Int)).toRat - (n : ℚ) / (10 : ℚ) ^ 2|
            ≤ |(n : ℚ)| / (10 : ℚ) ^ 2 / 9007199254740992
        ∧ |(Round f64Pi ((2 : Nat) : Int)).toRat - f64Pi.toRat|
            ≤ 1 / 2 / (10 : ℚ) ^ 2 + (|f64Pi.toRat| + 1 / (10 : ℚ) ^ 2) / 4503599627370496 :=
  ⟨by decide!, by decide!,
    C11_round_nearest 2 (by decide) f64Pi (by decide!)
      (by rw [clampLimit_table 2 (by decide)]; decide!)
      (by rw [clampLimit_table 2 (by decide)]; decide!)⟩

end GoFloat
